import Mathlib

/-
  Verification of the Bali Document Notation parser, visitor and
  formatter layer (craterdog-bali/js-bali-document-framework).

  The embedding follows the sources:
    - grammar/BaliTokens.g4                  : lexical token rules
    - the generated BaliLanguageParser       : rule functions, precedence
      encoding of the left-recursive expression rule (precpred levels),
      composite disambiguation by one token of lookahead
    - the ParsingVisitor                     : parse tree to AST conversion
      (Tree and Terminal node construction)
    - the ParseTreeToObject TransformingVisitor : AST to static value
      conversion with its data/code boundary
    - the BaliErrorStrategy / BaliErrorListener : fail-fast error handling

  The Formatter class and the Tree/Terminal node classes are not among the
  sources (only their callers and tests are); where they are needed they
  are modelled from the specification and marked as such.

  Machine integers do not occur; all sizes are Nat.  Fallible operations
  return Except.  Recursive parsing functions take explicit fuel.
-/

set_option maxHeartbeats 1600000

namespace Bali

/-! ## Tokens

Fragment of the token alphabet, from grammar/BaliTokens.g4 (FLOAT,
FRACTION, SYMBOL, VERSION, IDENTIFIER, CONSTANT, NEWLINE, hidden SPACE)
plus the implicit literal tokens of the language grammar that the
embedded rule fragment uses (bracket pairs, separators, the operator
tokens of the expression rule, and the keyword literals).  MOMENT,
DURATION, RESOURCE, TAG, BINARY, TEXT and TEXT_BLOCK are outside the
embedded fragment. -/

inductive Token where
  | lbracket | rbracket | lparen | rparen | lbrace | rbrace
  | ddot | comma | colon | semicolon | assign
  | atSign | dot | bang | caret | minus | slash | star | dslash | plus | bar
  | lt | eq | gt | kwIs | kwMatches
  | kwNot | kwAnd | kwSans | kwXor | kwOr
  | question
  | kwUndefined | kwInfinity | kwTrue | kwFalse | kwNone | kwAny
  | kwReturn | kwThrow
  | float (lexeme : String)
  | fraction (lexeme : String)
  | constant (lexeme : String)
  | symbol (lexeme : String)
  | version (lexeme : String)
  | identifier (lexeme : String)
  | newline
  deriving DecidableEq, Repr

/-! ## AST node model

The ParsingVisitor builds Tree and Terminal nodes tagged with a type from
the Types module.  The node classes themselves are not among the sources;
per the specification (section 3) a Terminal carries its canonical lexeme
and a Tree carries an ordered child list and an optional operator string.
The per node size weight is modelled as a separate function nodeSize
below, since the stored weight is determined by the construction. -/

inductive NodeType where
  | NUMBER | PROBABILITY | TEMPLATE | SYMBOL | VERSION
  | VARIABLE | FUNCTION | MESSAGE
  | COMPONENT | STRUCTURE | LIST | CATALOG | ASSOCIATION | RANGE
  | PARAMETERS | INDICES
  | BLOCK | PROCEDURE | STATEMENT
  | EVALUATE_CLAUSE | RETURN_CLAUSE | THROW_CLAUSE | HANDLE_CLAUSE
  | ARITHMETIC_EXPRESSION | COMPARISON_EXPRESSION | LOGICAL_EXPRESSION
  | DEFAULT_EXPRESSION | EXPONENTIAL_EXPRESSION | INVERSION_EXPRESSION
  | COMPLEMENT_EXPRESSION | MAGNITUDE_EXPRESSION | FACTORIAL_EXPRESSION
  | PRECEDENCE_EXPRESSION | DEREFERENCE_EXPRESSION | MESSAGE_EXPRESSION
  | SUBCOMPONENT_EXPRESSION | FUNCTION_EXPRESSION
  deriving DecidableEq, Repr

inductive Node where
  | terminal (type : NodeType) (value : String)
  | tree (type : NodeType) (operator : Option String) (children : List Node)
  deriving Repr

mutual

def Node.beq : Node → Node → Bool
  | .terminal t v, .terminal t' v' => t = t' && v = v'
  | .tree t o c, .tree t' o' c' => t = t' && o = o' && Node.beqList c c'
  | _, _ => false

def Node.beqList : List Node → List Node → Bool
  | [], [] => true
  | a :: as, b :: bs => Node.beq a b && Node.beqList as bs
  | _, _ => false

end

mutual

theorem Node.beq_iff : ∀ (a b : Node), Node.beq a b = true ↔ a = b
  | .terminal t v, .terminal t' v' => by
      simp [Node.beq]
  | .terminal _ _, .tree _ _ _ => by simp [Node.beq]
  | .tree _ _ _, .terminal _ _ => by simp [Node.beq]
  | .tree t o c, .tree t' o' c' => by
      simp [Node.beq, Node.beqList_iff c c', and_assoc]

theorem Node.beqList_iff : ∀ (as bs : List Node), Node.beqList as bs = true ↔ as = bs
  | [], [] => by simp [Node.beqList]
  | [], _ :: _ => by simp [Node.beqList]
  | _ :: _, [] => by simp [Node.beqList]
  | a :: as, b :: bs => by
      simp [Node.beqList, Node.beq_iff a b, Node.beqList_iff as bs]

end

instance : DecidableEq Node := fun a b => decidable_of_iff _ (Node.beq_iff a b)

/-! ## Lexer

Faithful scanner for the embedded token fragment of grammar/BaliTokens.g4.
Tokens are recognized longest match first; among equal length matches the
earliest declared rule wins (implicit literal tokens, then the named
rules in declaration order).  SPACE is a hidden channel and is skipped;
NEWLINE is a real token.  Any character that begins no token aborts the
whole scan at once: the source overrides BaliDocumentLexer.recover to
throw instead of recovering. -/

def isDigit (c : Char) : Bool := '0' ≤ c && c ≤ '9'

def isNonzeroDigit (c : Char) : Bool := '1' ≤ c && c ≤ '9'

def isLetter (c : Char) : Bool := ('a' ≤ c && c ≤ 'z') || ('A' ≤ c && c ≤ 'Z')

def isAlnum (c : Char) : Bool := isLetter c || isDigit c

/-- Implicit literal keyword tokens of the embedded fragment.  In the
generated lexer these implicit tokens precede every named rule, so a
keyword beats IDENTIFIER at equal length. -/
def keywordToken : String → Option Token
  | "is" => some .kwIs
  | "matches" => some .kwMatches
  | "not" => some .kwNot
  | "and" => some .kwAnd
  | "sans" => some .kwSans
  | "xor" => some .kwXor
  | "or" => some .kwOr
  | "true" => some .kwTrue
  | "false" => some .kwFalse
  | "none" => some .kwNone
  | "any" => some .kwAny
  | "undefined" => some .kwUndefined
  | "infinity" => some .kwInfinity
  | "return" => some .kwReturn
  | "throw" => some .kwThrow
  | _ => none

/-- FRACTION is a dot, then digits, then a required final nonzero digit.
The longest match of the digit part is the digit run with its trailing
zeros removed. -/
def fractionCore (ds : List Char) : List Char :=
  (ds.reverse.dropWhile (· = '0')).reverse

/-- Whether a whole string matches the FRACTION token rule
FRACTION: DOT (ZERO..NINE)* ONE..NINE  of grammar/BaliTokens.g4. -/
def matchesFRACTION (s : String) : Bool :=
  match s.data with
  | '.' :: ds => ds ≠ [] && ds.all isDigit && isNonzeroDigit (ds.getLastD ' ')
  | _ => false

/-- The NATURAL fragment rule on a character list:
ONE..NINE (ZERO..NINE)*. -/
def naturalCore : List Char → Bool
  | c :: cs => isNonzeroDigit c && cs.all isDigit
  | [] => false

/-- NATURAL: ONE..NINE (ZERO..NINE)*  (a fragment rule of the grammar). -/
def matchesNATURAL (s : String) : Bool := naturalCore s.data

/-- The dot separated components of a character list. -/
def splitDot : List Char → List (List Char)
  | [] => [[]]
  | c :: rest =>
      if c = '.' then [] :: splitDot rest
      else
        match splitDot rest with
        | p :: ps => (c :: p) :: ps
        | [] => [[c]]

/-- VERSION: LETTER_V NATURAL (DOT NATURAL)*  as a whole string match. -/
def matchesVERSION (s : String) : Bool :=
  match s.data with
  | 'v' :: cs => (splitDot cs).all naturalCore
  | _ => false

/-- Longest prefix of the form NATURAL (DOT NATURAL)*, or none.  The
fuel argument only needs to exceed the input length. -/
def naturalChainF (fuel : Nat) (cs : List Char) :
    Option (List Char × List Char) :=
  match fuel, cs with
  | fuel + 1, c :: rest =>
      if isNonzeroDigit c then
        let ds := rest.takeWhile isDigit
        let rest' := rest.drop ds.length
        match rest' with
        | '.' :: after =>
            match naturalChainF fuel after with
            | some (more, rest'') => some (c :: ds ++ '.' :: more, rest'')
            | none => some (c :: ds, rest')
        | _ => some (c :: ds, rest')
      else none
  | _, _ => none

def naturalChain (cs : List Char) : Option (List Char × List Char) :=
  naturalChainF (cs.length + 1) cs

/-- Scan the FLOAT tail after its INTEGER part: an optional FRACTION and
an optional exponent.  Returns the scanned characters and the rest. -/
def scanFloatTail (cs : List Char) : List Char × List Char :=
  let (fpart, cs1) :=
    match cs with
    | '.' :: ds =>
        let run := ds.takeWhile isDigit
        let core := fractionCore run
        if core = [] then ([], cs)
        else ('.' :: core, ds.drop core.length)
    | _ => ([], cs)
  let (epart, cs2) :=
    match cs1 with
    | 'E' :: '0' :: rest => (['E', '0'], rest)
    | 'E' :: '-' :: d :: rest =>
        if isNonzeroDigit d then
          let ds := rest.takeWhile isDigit
          ('E' :: '-' :: d :: ds, rest.drop ds.length)
        else ([], cs1)
    | 'E' :: d :: rest =>
        if isNonzeroDigit d then
          let ds := rest.takeWhile isDigit
          ('E' :: d :: ds, rest.drop ds.length)
        else ([], cs1)
    | _ => ([], cs1)
  (fpart ++ epart, cs2)

inductive LexErr where
  | badChar (pos : Nat) (char : Char)
  deriving DecidableEq, Repr

/-- Scan one token (or a skipped hidden SPACE) starting at character c.
Returns none for a hidden channel character, or the recognized token,
together with the characters consumed beyond c and the rest. -/
def scanToken (c : Char) (cs : List Char) (pos : Nat) :
    Except LexErr (Option Token × Nat × List Char) :=
  if c = ' ' || c = '\t' || c = Char.ofNat 11 || c = Char.ofNat 12 then
    .ok (none, 1, cs)
  else if c = '\r' then
    match cs with
    | '\n' :: rest => .ok (some .newline, 2, rest)
    | _ => .ok (none, 1, cs)
  else if c = '\n' then .ok (some .newline, 1, cs)
  else if c = '[' then .ok (some .lbracket, 1, cs)
  else if c = ']' then .ok (some .rbracket, 1, cs)
  else if c = '(' then .ok (some .lparen, 1, cs)
  else if c = ')' then .ok (some .rparen, 1, cs)
  else if c = Char.ofNat 123 then .ok (some .lbrace, 1, cs)
  else if c = Char.ofNat 125 then .ok (some .rbrace, 1, cs)
  else if c = ',' then .ok (some .comma, 1, cs)
  else if c = ';' then .ok (some .semicolon, 1, cs)
  else if c = ':' then
    match cs with
    | '=' :: rest => .ok (some .assign, 2, rest)
    | _ => .ok (some .colon, 1, cs)
  else if c = '@' then .ok (some .atSign, 1, cs)
  else if c = '!' then .ok (some .bang, 1, cs)
  else if c = '^' then .ok (some .caret, 1, cs)
  else if c = '*' then .ok (some .star, 1, cs)
  else if c = '+' then .ok (some .plus, 1, cs)
  else if c = '|' then .ok (some .bar, 1, cs)
  else if c = '<' then .ok (some .lt, 1, cs)
  else if c = '=' then .ok (some .eq, 1, cs)
  else if c = '>' then .ok (some .gt, 1, cs)
  else if c = '?' then .ok (some .question, 1, cs)
  else if c = '/' then
    match cs with
    | '/' :: rest => .ok (some .dslash, 2, rest)
    | _ => .ok (some .slash, 1, cs)
  else if c = '.' then
    -- FRACTION takes the longest digit run ending in a nonzero digit;
    -- otherwise the range dots or the message dot.
    let run := cs.takeWhile isDigit
    let core := fractionCore run
    if core ≠ [] then
      .ok (some (.fraction (String.mk ('.' :: core))), 1 + core.length,
           cs.drop core.length)
    else
      match cs with
      | '.' :: rest => .ok (some .ddot, 2, rest)
      | _ => .ok (some .dot, 1, cs)
  else if c = '-' then
    -- FLOAT: (INTEGER FRACTION? | MINUS_ZERO FRACTION) (E INTEGER)?
    match cs with
    | '0' :: rest =>
        (match rest with
         | '.' :: ds =>
             let run := ds.takeWhile isDigit
             let core := fractionCore run
             if core = [] then .ok (some .minus, 1, cs)
             else
               let (tail, rest') := scanFloatTail ('.' :: ds)
               .ok (some (.float (String.mk ('-' :: '0' :: tail))),
                    2 + tail.length, rest')
         | _ => .ok (some .minus, 1, cs))
    | d :: rest =>
        if isNonzeroDigit d then
          let ds := rest.takeWhile isDigit
          let (tail, rest') := scanFloatTail (rest.drop ds.length)
          .ok (some (.float (String.mk ('-' :: d :: ds ++ tail))),
               2 + ds.length + tail.length, rest')
        else .ok (some .minus, 1, cs)
    | [] => .ok (some .minus, 1, cs)
  else if c = '0' then
    let (tail, rest') := scanFloatTail cs
    .ok (some (.float (String.mk ('0' :: tail))), 1 + tail.length, rest')
  else if isNonzeroDigit c then
    let ds := cs.takeWhile isDigit
    let (tail, rest') := scanFloatTail (cs.drop ds.length)
    .ok (some (.float (String.mk (c :: ds ++ tail))),
         1 + ds.length + tail.length, rest')
  else if c = '$' then
    match cs with
    | d :: rest =>
        if isLetter d then
          let more := rest.takeWhile isAlnum
          .ok (some (.symbol (String.mk ('$' :: d :: more))),
               2 + more.length, rest.drop more.length)
        else .error (.badChar pos c)
    | [] => .error (.badChar pos c)
  else if isLetter c then
    let word := String.mk (c :: cs.takeWhile isAlnum)
    let wordTok : Token :=
      match keywordToken word with
      | some t => t
      | none =>
          if word = "e" || word = "pi" || word = "phi" then .constant word
          else .identifier word
    let wordLen := word.length
    if c = 'v' then
      match naturalChain cs with
      | some (vchars, vrest) =>
          if wordLen ≤ 1 + vchars.length then
            .ok (some (.version (String.mk ('v' :: vchars))),
                 1 + vchars.length, vrest)
          else
            .ok (some wordTok, wordLen, cs.drop (wordLen - 1))
      | none => .ok (some wordTok, wordLen, cs.drop (wordLen - 1))
    else
      .ok (some wordTok, wordLen, cs.drop (wordLen - 1))
  else
    .error (.badChar pos c)

/-- Scan the whole character list.  Fuel is decremented once per consumed
character, so the length of the input is always enough. -/
def lexAll (fuel : Nat) (cs : List Char) (pos : Nat) :
    Except LexErr (List Token) :=
  match fuel, cs with
  | _, [] => .ok []
  | 0, c :: _ => .error (.badChar pos c)
  | fuel + 1, c :: cs =>
      match scanToken c cs pos with
      | .error e => .error e
      | .ok (t?, k, rest) =>
          match lexAll fuel rest (pos + k) with
          | .error e => .error e
          | .ok ts =>
              match t? with
              | some t => .ok (t :: ts)
              | none => .ok ts

/-- Tokenize a source string, mirroring the lexer setup of the source:
hidden channel dropped, fail fast on the first unmatched character. -/
def lex (s : String) : Except LexErr (List Token) :=
  lexAll s.length s.data 0

/-! ## Parser

Token level recursive descent parser for the embedded rule fragment,
following the generated BaliLanguageParser rule functions and building
the AST nodes exactly as the ParsingVisitor does, so that each rule
function below corresponds to one parser rule plus its visit method.
The left recursive expression rule is embedded through its generated
left recursion elimination: a primary alternative followed by a loop of
continuation alternatives, each guarded by the generated precpred level
and recursing at the generated right hand side level:
  exponential   precpred 8, right operand at 8 (right associative)
  arithmetic    precpred 6, right operand at 7 (one level, left assoc)
  comparison    precpred 4, right operand at 5
  logical       precpred 2, right operand at 3
  default       precpred 1, right operand at 2 (left associative)
  message send  precpred 11, factorial 9, indices 10 (postfix)
Errors abort at once (the BaliErrorStrategy recover and recoverInline
overrides throw instead of recovering), which the Except monad models:
the first error is returned and no partial tree escapes. -/

inductive PErr where
  | unexpected (t : Option Token)
  | noFuel
  deriving DecidableEq, Repr

abbrev PRes (α : Type) := Except PErr (α × List Token)

/-- First set of the element rule, restricted to the fragment. -/
def elementStart : Token → Bool
  | .float _ | .fraction _ | .symbol _ | .version _
  | .kwTrue | .kwFalse | .kwNone | .kwAny | .kwUndefined | .kwInfinity => true
  | _ => false

/-- First set of the expression rule (fragment of the generated token
set used by the array and procedure loops). -/
def exprStart (t : Token) : Bool :=
  elementStart t ||
  (match t with
   | .lbracket | .lbrace | .lparen | .atSign | .minus | .slash | .star
   | .bar | .kwNot | .identifier _ => true
   | _ => false)

def stmtStart (t : Token) : Bool :=
  exprStart t || t = .kwReturn || t = .kwThrow

def expectTok (t : Token) (ts : List Token) : Except PErr (List Token) :=
  match ts with
  | h :: rest => if h = t then .ok rest else .error (.unexpected (some h))
  | [] => .error (.unexpected none)

/-- The element rule with the visit methods of the ParsingVisitor for
each terminal alternative: each one builds a Terminal node holding the
token text (realNumber, trueProbability, falseProbability,
fractionalProbability, the templates, symbol, version). -/
def parseElement (ts : List Token) : PRes Node :=
  match ts with
  | .float s :: r => .ok (.terminal .NUMBER s, r)
  | .kwUndefined :: r => .ok (.terminal .NUMBER "undefined", r)
  | .kwInfinity :: r => .ok (.terminal .NUMBER "infinity", r)
  | .kwTrue :: r => .ok (.terminal .PROBABILITY "true", r)
  | .kwFalse :: r => .ok (.terminal .PROBABILITY "false", r)
  | .fraction s :: r => .ok (.terminal .PROBABILITY s, r)
  | .kwNone :: r => .ok (.terminal .TEMPLATE "none", r)
  | .kwAny :: r => .ok (.terminal .TEMPLATE "any", r)
  | .symbol s :: r => .ok (.terminal .SYMBOL s, r)
  | .version s :: r => .ok (.terminal .VERSION s, r)
  | t :: _ => .error (.unexpected (some t))
  | [] => .error (.unexpected none)

mutual

/-- component: element | structure | block, wrapped by visitComponent
into a COMPONENT tree. -/
def parseComponent (fuel : Nat) (ts : List Token) : PRes Node :=
  match fuel with
  | 0 => .error .noFuel
  | fuel + 1 =>
    match ts with
    | .lbracket :: _ =>
        match parseStructure fuel ts with
        | .ok (st, r) => .ok (.tree .COMPONENT none [st], r)
        | .error e => .error e
    | .lbrace :: _ =>
        match parseBlock fuel ts with
        | .ok (st, r) => .ok (.tree .COMPONENT none [st], r)
        | .error e => .error e
    | t :: _ =>
        if elementStart t then
          match parseElement ts with
          | .ok (el, r) => .ok (.tree .COMPONENT none [el], r)
          | .error e => .error e
        else .error (.unexpected (some t))
    | [] => .error (.unexpected none)

/-- structure: LBRACKET composite RBRACKET, visitStructure. -/
def parseStructure (fuel : Nat) (ts : List Token) : PRes Node :=
  match fuel with
  | 0 => .error .noFuel
  | fuel + 1 =>
    match expectTok .lbracket ts with
    | .error e => .error e
    | .ok r =>
      match parseComposite fuel r with
      | .error e => .error e
      | .ok (c, r1) =>
        match expectTok .rbracket r1 with
        | .error e => .error e
        | .ok r2 => .ok (.tree .STRUCTURE none [c], r2)

/-- block: LBRACE procedure RBRACE, visitBlock. -/
def parseBlock (fuel : Nat) (ts : List Token) : PRes Node :=
  match fuel with
  | 0 => .error .noFuel
  | fuel + 1 =>
    match expectTok .lbrace ts with
    | .error e => .error e
    | .ok r =>
      match parseProcedure fuel r with
      | .error e => .error e
      | .ok (p, r1) =>
        match expectTok .rbrace r1 with
        | .error e => .error e
        | .ok r2 => .ok (.tree .BLOCK none [p], r2)

/-- composite: range | array | table, with the one token lookahead
dispatch of the generated rule: COLON means the empty table, a closing
delimiter the empty array, NEWLINE the newline delimited forms, and
otherwise the inline forms, where an association is recognized by an
element head followed by COLON.  visitCatalog and visitList collapse
the inline, newline and empty context variants into a single CATALOG
or LIST tree. -/
def parseComposite (fuel : Nat) (ts : List Token) : PRes Node :=
  match fuel with
  | 0 => .error .noFuel
  | fuel + 1 =>
    match ts with
    | .colon :: r => .ok (.tree .CATALOG none [], r)
    | .rbracket :: _ => .ok (.tree .LIST none [], ts)
    | .rparen :: _ => .ok (.tree .LIST none [], ts)
    | .newline :: r =>
        (match parseAssociation fuel r with
         | .ok _ =>
             match parseNewlineAssocs fuel r with
             | .ok (as, r1) => .ok (.tree .CATALOG none as, r1)
             | .error e => .error e
         | .error _ =>
             match parseNewlineExprs fuel r with
             | .ok (es, r1) => .ok (.tree .LIST none es, r1)
             | .error e => .error e)
    | _ =>
        match parseAssociation fuel ts with
        | .ok (a, r1) =>
            (match parseMoreAssocs fuel r1 with
             | .ok (as, r2) => .ok (.tree .CATALOG none (a :: as), r2)
             | .error e => .error e)
        | .error _ =>
            match parseExpr fuel 0 ts with
            | .error e => .error e
            | .ok (e1, r1) =>
              match r1 with
              | .ddot :: r2 =>
                  (match parseExpr fuel 0 r2 with
                   | .ok (e2, r3) => .ok (.tree .RANGE none [e1, e2], r3)
                   | .error e => .error e)
              | _ =>
                  match parseMoreExprs fuel r1 with
                  | .ok (es, r2) => .ok (.tree .LIST none (e1 :: es), r2)
                  | .error e => .error e

/-- array: inline | newline | empty, used by the indices rule; the
visitList method collapses the variants. -/
def parseArray (fuel : Nat) (ts : List Token) : PRes Node :=
  match fuel with
  | 0 => .error .noFuel
  | fuel + 1 =>
    match ts with
    | .rbracket :: _ => .ok (.tree .LIST none [], ts)
    | .rparen :: _ => .ok (.tree .LIST none [], ts)
    | .newline :: r =>
        (match parseNewlineExprs fuel r with
         | .ok (es, r1) => .ok (.tree .LIST none es, r1)
         | .error e => .error e)
    | _ =>
        match parseExpr fuel 0 ts with
        | .error e => .error e
        | .ok (e1, r1) =>
          match parseMoreExprs fuel r1 with
          | .ok (es, r2) => .ok (.tree .LIST none (e1 :: es), r2)
          | .error e => .error e

/-- association: component COLON expression, visitAssociation; the key
component is element headed (the generated dispatch set of the table
rule admits only element starters). -/
def parseAssociation (fuel : Nat) (ts : List Token) : PRes Node :=
  match fuel with
  | 0 => .error .noFuel
  | fuel + 1 =>
    match ts with
    | t :: _ =>
        if elementStart t then
          match parseElement ts with
          | .error e => .error e
          | .ok (el, r) =>
            match r with
            | .colon :: r2 =>
                (match parseExpr fuel 0 r2 with
                 | .ok (v, r3) =>
                     .ok (.tree .ASSOCIATION none
                            [.tree .COMPONENT none [el], v], r3)
                 | .error e => .error e)
            | t' :: _ => .error (.unexpected (some t'))
            | [] => .error (.unexpected none)
        else .error (.unexpected (some t))
    | [] => .error (.unexpected none)

/-- The COMMA separated continuation of an inline table. -/
def parseMoreAssocs (fuel : Nat) (ts : List Token) : PRes (List Node) :=
  match fuel with
  | 0 => .error .noFuel
  | fuel + 1 =>
    match ts with
    | .comma :: r =>
        (match parseAssociation fuel r with
         | .error e => .error e
         | .ok (a, r1) =>
           match parseMoreAssocs fuel r1 with
           | .ok (as, r2) => .ok (a :: as, r2)
           | .error e => .error e)
    | _ => .ok ([], ts)

/-- The COMMA separated continuation of an inline array. -/
def parseMoreExprs (fuel : Nat) (ts : List Token) : PRes (List Node) :=
  match fuel with
  | 0 => .error .noFuel
  | fuel + 1 =>
    match ts with
    | .comma :: r =>
        (match parseExpr fuel 0 r with
         | .error e => .error e
         | .ok (e, r1) =>
           match parseMoreExprs fuel r1 with
           | .ok (es, r2) => .ok (e :: es, r2)
           | .error e => .error e)
    | _ => .ok ([], ts)

/-- The newline delimited table body: (association NEWLINE)* while the
next token starts an association. -/
def parseNewlineAssocs (fuel : Nat) (ts : List Token) : PRes (List Node) :=
  match fuel with
  | 0 => .error .noFuel
  | fuel + 1 =>
    match ts with
    | t :: _ =>
        if elementStart t then
          match parseAssociation fuel ts with
          | .error e => .error e
          | .ok (a, r1) =>
            match expectTok .newline r1 with
            | .error e => .error e
            | .ok r2 =>
              match parseNewlineAssocs fuel r2 with
              | .ok (as, r3) => .ok (a :: as, r3)
              | .error e => .error e
        else .ok ([], ts)
    | [] => .ok ([], ts)

/-- The newline delimited array body: (expression NEWLINE)* while the
next token starts an expression. -/
def parseNewlineExprs (fuel : Nat) (ts : List Token) : PRes (List Node) :=
  match fuel with
  | 0 => .error .noFuel
  | fuel + 1 =>
    match ts with
    | t :: _ =>
        if exprStart t then
          match parseExpr fuel 0 ts with
          | .error e => .error e
          | .ok (e, r1) =>
            match expectTok .newline r1 with
            | .error e => .error e
            | .ok r2 =>
              match parseNewlineExprs fuel r2 with
              | .ok (es, r3) => .ok (e :: es, r3)
              | .error e => .error e
        else .ok ([], ts)
    | [] => .ok ([], ts)

/-- The expression rule: primary alternative then continuation loop. -/
def parseExpr (fuel : Nat) (p : Nat) (ts : List Token) : PRes Node :=
  match fuel with
  | 0 => .error .noFuel
  | fuel + 1 =>
    match parsePrimary fuel ts with
    | .error e => .error e
    | .ok (prim, r) => parseLoop fuel p prim r

/-- The non left recursive primary alternatives of the expression rule,
with the node construction of the corresponding visit methods:
componentExpression, variableExpression, functionExpression,
precedenceExpression, dereferenceExpression (operand level 12),
inversionExpression (operand level 7, operator recorded),
magnitudeExpression, complementExpression (operand level 3). -/
def parsePrimary (fuel : Nat) (ts : List Token) : PRes Node :=
  match fuel with
  | 0 => .error .noFuel
  | fuel + 1 =>
    match ts with
    | .lparen :: r =>
        (match parseExpr fuel 0 r with
         | .error e => .error e
         | .ok (e, r1) =>
           match expectTok .rparen r1 with
           | .error e => .error e
           | .ok r2 => .ok (.tree .PRECEDENCE_EXPRESSION none [e], r2))
    | .atSign :: r =>
        (match parseExpr fuel 12 r with
         | .ok (e, r1) => .ok (.tree .DEREFERENCE_EXPRESSION none [e], r1)
         | .error e => .error e)
    | .minus :: r =>
        (match parseExpr fuel 7 r with
         | .ok (e, r1) =>
             .ok (.tree .INVERSION_EXPRESSION (some "-") [e], r1)
         | .error e => .error e)
    | .slash :: r =>
        (match parseExpr fuel 7 r with
         | .ok (e, r1) =>
             .ok (.tree .INVERSION_EXPRESSION (some "/") [e], r1)
         | .error e => .error e)
    | .star :: r =>
        (match parseExpr fuel 7 r with
         | .ok (e, r1) =>
             .ok (.tree .INVERSION_EXPRESSION (some "*") [e], r1)
         | .error e => .error e)
    | .bar :: r =>
        (match parseExpr fuel 0 r with
         | .error e => .error e
         | .ok (e, r1) =>
           match expectTok .bar r1 with
           | .error e => .error e
           | .ok r2 => .ok (.tree .MAGNITUDE_EXPRESSION none [e], r2))
    | .kwNot :: r =>
        (match parseExpr fuel 3 r with
         | .ok (e, r1) => .ok (.tree .COMPLEMENT_EXPRESSION none [e], r1)
         | .error e => .error e)
    | .identifier f :: .lparen :: _ =>
        (match parseParameters fuel (ts.drop 1) with
         | .ok (ps, r1) =>
             .ok (.tree .FUNCTION_EXPRESSION none
                    [.terminal .FUNCTION f, ps], r1)
         | .error e => .error e)
    | .identifier v :: r => .ok (.terminal .VARIABLE v, r)
    | t :: _ =>
        if elementStart t || t = .lbracket || t = .lbrace then
          parseComponent fuel ts
        else .error (.unexpected (some t))
    | [] => .error (.unexpected none)

/-- The continuation loop of the left recursive expression rule.  Each
alternative fires only when its generated precpred gate allows it at the
current minimum level p; otherwise the loop exits and returns the
accumulated left operand. -/
def parseLoop (fuel : Nat) (p : Nat) (left : Node) (ts : List Token) :
    PRes Node :=
  match fuel with
  | 0 => .error .noFuel
  | fuel + 1 =>
    match ts with
    | .caret :: r =>
        if p ≤ 8 then
          match parseExpr fuel 8 r with
          | .error e => .error e
          | .ok (rhs, r1) =>
              parseLoop fuel p
                (.tree .EXPONENTIAL_EXPRESSION none [left, rhs]) r1
        else .ok (left, ts)
    | .minus :: r =>
        if p ≤ 6 then
          match parseExpr fuel 7 r with
          | .error e => .error e
          | .ok (rhs, r1) =>
              parseLoop fuel p
                (.tree .ARITHMETIC_EXPRESSION (some "-") [left, rhs]) r1
        else .ok (left, ts)
    | .slash :: r =>
        if p ≤ 6 then
          match parseExpr fuel 7 r with
          | .error e => .error e
          | .ok (rhs, r1) =>
              parseLoop fuel p
                (.tree .ARITHMETIC_EXPRESSION (some "/") [left, rhs]) r1
        else .ok (left, ts)
    | .star :: r =>
        if p ≤ 6 then
          match parseExpr fuel 7 r with
          | .error e => .error e
          | .ok (rhs, r1) =>
              parseLoop fuel p
                (.tree .ARITHMETIC_EXPRESSION (some "*") [left, rhs]) r1
        else .ok (left, ts)
    | .dslash :: r =>
        if p ≤ 6 then
          match parseExpr fuel 7 r with
          | .error e => .error e
          | .ok (rhs, r1) =>
              parseLoop fuel p
                (.tree .ARITHMETIC_EXPRESSION (some "//") [left, rhs]) r1
        else .ok (left, ts)
    | .plus :: r =>
        if p ≤ 6 then
          match parseExpr fuel 7 r with
          | .error e => .error e
          | .ok (rhs, r1) =>
              parseLoop fuel p
                (.tree .ARITHMETIC_EXPRESSION (some "+") [left, rhs]) r1
        else .ok (left, ts)
    | .lt :: r =>
        if p ≤ 4 then
          match parseExpr fuel 5 r with
          | .error e => .error e
          | .ok (rhs, r1) =>
              parseLoop fuel p
                (.tree .COMPARISON_EXPRESSION (some "<") [left, rhs]) r1
        else .ok (left, ts)
    | .eq :: r =>
        if p ≤ 4 then
          match parseExpr fuel 5 r with
          | .error e => .error e
          | .ok (rhs, r1) =>
              parseLoop fuel p
                (.tree .COMPARISON_EXPRESSION (some "=") [left, rhs]) r1
        else .ok (left, ts)
    | .gt :: r =>
        if p ≤ 4 then
          match parseExpr fuel 5 r with
          | .error e => .error e
          | .ok (rhs, r1) =>
              parseLoop fuel p
                (.tree .COMPARISON_EXPRESSION (some ">") [left, rhs]) r1
        else .ok (left, ts)
    | .kwIs :: r =>
        if p ≤ 4 then
          match parseExpr fuel 5 r with
          | .error e => .error e
          | .ok (rhs, r1) =>
              parseLoop fuel p
                (.tree .COMPARISON_EXPRESSION (some "is") [left, rhs]) r1
        else .ok (left, ts)
    | .kwMatches :: r =>
        if p ≤ 4 then
          match parseExpr fuel 5 r with
          | .error e => .error e
          | .ok (rhs, r1) =>
              parseLoop fuel p
                (.tree .COMPARISON_EXPRESSION (some "matches") [left, rhs]) r1
        else .ok (left, ts)
    | .kwAnd :: r =>
        if p ≤ 2 then
          match parseExpr fuel 3 r with
          | .error e => .error e
          | .ok (rhs, r1) =>
              parseLoop fuel p
                (.tree .LOGICAL_EXPRESSION (some "and") [left, rhs]) r1
        else .ok (left, ts)
    | .kwSans :: r =>
        if p ≤ 2 then
          match parseExpr fuel 3 r with
          | .error e => .error e
          | .ok (rhs, r1) =>
              parseLoop fuel p
                (.tree .LOGICAL_EXPRESSION (some "sans") [left, rhs]) r1
        else .ok (left, ts)
    | .kwXor :: r =>
        if p ≤ 2 then
          match parseExpr fuel 3 r with
          | .error e => .error e
          | .ok (rhs, r1) =>
              parseLoop fuel p
                (.tree .LOGICAL_EXPRESSION (some "xor") [left, rhs]) r1
        else .ok (left, ts)
    | .kwOr :: r =>
        if p ≤ 2 then
          match parseExpr fuel 3 r with
          | .error e => .error e
          | .ok (rhs, r1) =>
              parseLoop fuel p
                (.tree .LOGICAL_EXPRESSION (some "or") [left, rhs]) r1
        else .ok (left, ts)
    | .question :: r =>
        if p ≤ 1 then
          match parseExpr fuel 2 r with
          | .error e => .error e
          | .ok (rhs, r1) =>
              parseLoop fuel p
                (.tree .DEFAULT_EXPRESSION none [left, rhs]) r1
        else .ok (left, ts)
    | .dot :: r =>
        if p ≤ 11 then
          match r with
          | .identifier m :: r2 =>
              (match parseParameters fuel r2 with
               | .error e => .error e
               | .ok (ps, r3) =>
                   parseLoop fuel p
                     (.tree .MESSAGE_EXPRESSION none
                        [left, .terminal .MESSAGE m, ps]) r3)
          | t' :: _ => .error (.unexpected (some t'))
          | [] => .error (.unexpected none)
        else .ok (left, ts)
    | .lbracket :: _ =>
        if p ≤ 10 then
          match parseIndices fuel ts with
          | .error e => .error e
          | .ok (idx, r1) =>
              parseLoop fuel p
                (.tree .SUBCOMPONENT_EXPRESSION none [left, idx]) r1
        else .ok (left, ts)
    | .bang :: r =>
        if p ≤ 9 then
          parseLoop fuel p (.tree .FACTORIAL_EXPRESSION none [left]) r
        else .ok (left, ts)
    | _ => .ok (left, ts)

/-- indices: LBRACKET array RBRACKET, visitIndices. -/
def parseIndices (fuel : Nat) (ts : List Token) : PRes Node :=
  match fuel with
  | 0 => .error .noFuel
  | fuel + 1 =>
    match expectTok .lbracket ts with
    | .error e => .error e
    | .ok r =>
      match parseArray fuel r with
      | .error e => .error e
      | .ok (a, r1) =>
        match expectTok .rbracket r1 with
        | .error e => .error e
        | .ok r2 => .ok (.tree .INDICES none [a], r2)

/-- parameters: LPAREN composite RPAREN, visitParameters. -/
def parseParameters (fuel : Nat) (ts : List Token) : PRes Node :=
  match fuel with
  | 0 => .error .noFuel
  | fuel + 1 =>
    match expectTok .lparen ts with
    | .error e => .error e
    | .ok r =>
      match parseComposite fuel r with
      | .error e => .error e
      | .ok (c, r1) =>
        match expectTok .rparen r1 with
        | .error e => .error e
        | .ok r2 => .ok (.tree .PARAMETERS none [c], r2)

/-- procedure: inline | newline | empty, with the same lookahead
dispatch as the array rule; visitProcedure collapses the variants. -/
def parseProcedure (fuel : Nat) (ts : List Token) : PRes Node :=
  match fuel with
  | 0 => .error .noFuel
  | fuel + 1 =>
    match ts with
    | .rbrace :: _ => .ok (.tree .PROCEDURE none [], ts)
    | .newline :: r =>
        (match parseNewlineStmts fuel r with
         | .ok (ss, r1) => .ok (.tree .PROCEDURE none ss, r1)
         | .error e => .error e)
    | _ =>
        match parseStatement fuel ts with
        | .error e => .error e
        | .ok (s1, r1) =>
          match parseMoreStmts fuel r1 with
          | .ok (ss, r2) => .ok (.tree .PROCEDURE none (s1 :: ss), r2)
          | .error e => .error e

/-- The SEMICOLON separated continuation of an inline procedure. -/
def parseMoreStmts (fuel : Nat) (ts : List Token) : PRes (List Node) :=
  match fuel with
  | 0 => .error .noFuel
  | fuel + 1 =>
    match ts with
    | .semicolon :: r =>
        (match parseStatement fuel r with
         | .error e => .error e
         | .ok (s, r1) =>
           match parseMoreStmts fuel r1 with
           | .ok (ss, r2) => .ok (s :: ss, r2)
           | .error e => .error e)
    | _ => .ok ([], ts)

/-- The newline delimited procedure body. -/
def parseNewlineStmts (fuel : Nat) (ts : List Token) : PRes (List Node) :=
  match fuel with
  | 0 => .error .noFuel
  | fuel + 1 =>
    match ts with
    | t :: _ =>
        if stmtStart t then
          match parseStatement fuel ts with
          | .error e => .error e
          | .ok (s, r1) =>
            match expectTok .newline r1 with
            | .error e => .error e
            | .ok r2 =>
              match parseNewlineStmts fuel r2 with
              | .ok (ss, r3) => .ok (s :: ss, r3)
              | .error e => .error e
        else .ok ([], ts)
    | [] => .ok ([], ts)

/-- statement: mainClause (trailing clauses outside the fragment);
visitStatement wraps the main clause in a STATEMENT tree. -/
def parseStatement (fuel : Nat) (ts : List Token) : PRes Node :=
  match fuel with
  | 0 => .error .noFuel
  | fuel + 1 =>
    match parseMainClause fuel ts with
    | .ok (m, r) => .ok (.tree .STATEMENT none [m], r)
    | .error e => .error e

/-- The main clause alternatives of the fragment: returnClause with its
optional result, throwClause, and evaluateClause with its optional
symbol recipient (visitReturnClause, visitThrowClause,
visitEvaluateClause). -/
def parseMainClause (fuel : Nat) (ts : List Token) : PRes Node :=
  match fuel with
  | 0 => .error .noFuel
  | fuel + 1 =>
    match ts with
    | .kwReturn :: r =>
        (match r with
         | t :: _ =>
             if exprStart t then
               match parseExpr fuel 0 r with
               | .ok (e, r1) => .ok (.tree .RETURN_CLAUSE none [e], r1)
               | .error e => .error e
             else .ok (.tree .RETURN_CLAUSE none [], r)
         | [] => .ok (.tree .RETURN_CLAUSE none [], r))
    | .kwThrow :: r =>
        (match parseExpr fuel 0 r with
         | .ok (e, r1) => .ok (.tree .THROW_CLAUSE none [e], r1)
         | .error e => .error e)
    | .symbol s :: .assign :: r =>
        (match parseExpr fuel 0 r with
         | .ok (e, r1) =>
             .ok (.tree .EVALUATE_CLAUSE none [.terminal .SYMBOL s, e], r1)
         | .error e => .error e)
    | _ =>
        match parseExpr fuel 0 ts with
        | .ok (e, r1) => .ok (.tree .EVALUATE_CLAUSE none [e], r1)
        | .error e => .error e

end

/-- A generous fuel bound: the parser consumes fuel much more slowly
than thirty two units per token. -/
def bigFuel (ts : List Token) : Nat := 32 * ts.length + 32

inductive ParseFailure where
  | lexical (e : LexErr)
  | syntactic (e : PErr)
  deriving DecidableEq, Repr

/-- document: NEWLINE* component NEWLINE* EOF on a token stream. -/
def parseDocumentToks (ts : List Token) : Except PErr Node :=
  let ts1 := ts.dropWhile (· = .newline)
  match parseComponent (bigFuel ts1) ts1 with
  | .error e => .error e
  | .ok (t, rest) =>
      match rest.dropWhile (· = .newline) with
      | [] => .ok t
      | t' :: _ => .error (.unexpected (some t'))

/-- The parseDocument entry point: lex, parse, convert; the first error
of any stage aborts the whole operation. -/
def parseDocument (s : String) : Except ParseFailure Node :=
  match lex s with
  | .error e => .error (.lexical e)
  | .ok ts =>
      match parseDocumentToks ts with
      | .error e => .error (.syntactic e)
      | .ok t => .ok t

/-- The parseExpression entry point. -/
def parseExpression (s : String) : Except ParseFailure Node :=
  match lex s with
  | .error e => .error (.lexical e)
  | .ok ts =>
      match parseExpr (bigFuel ts) 0 ts with
      | .error e => .error (.syntactic e)
      | .ok (t, []) => .ok t
      | .ok (_, t' :: _) => .error (.syntactic (.unexpected (some t')))

/-- The parseProcedure entry point. -/
def parseProcedureSource (s : String) : Except ParseFailure Node :=
  match lex s with
  | .error e => .error (.lexical e)
  | .ok ts =>
      match parseProcedure (bigFuel ts) ts with
      | .error e => .error (.syntactic e)
      | .ok (t, []) => .ok t
      | .ok (_, t' :: _) => .error (.syntactic (.unexpected (some t')))

instance {ε α : Type} [DecidableEq ε] [DecidableEq α] :
    DecidableEq (Except ε α) := fun a b =>
  match a, b with
  | .ok x, .ok y =>
      if h : x = y then .isTrue (by rw [h]) else .isFalse (by simp [h])
  | .error x, .error y =>
      if h : x = y then .isTrue (by rw [h]) else .isFalse (by simp [h])
  | .ok _, .error _ => .isFalse (by simp)
  | .error _, .ok _ => .isFalse (by simp)

/-! ## Node size weights

The ParsingVisitor threads a complexity weight through every node it
builds: each Tree constructor receives a fixed initial weight (the
visit methods pass 3 for arithmetic, 9 for comparison, 2 for structure,
and so on), list like visits add two per item, the evaluate visit adds
four when a recipient is present, the return visit adds one when a
result is present, and visitBlock forces the weight of the wrapped
procedure to one hundred.  The Tree and Terminal classes themselves are
not among the sources.  Modelled from the spec: the stored weight is an
aggregate size metric (spec sections 3 and 4.3), so a parent adds the
weights of its children; a Terminal weighs the length of its value. -/

mutual

def nodeSize : Node → Nat
  | .terminal _ v => v.length
  | .tree ty _ cs =>
      let base : Nat :=
        match ty with
        | .COMPONENT => 0
        | .STRUCTURE => 2
        | .LIST => 2 * cs.length
        | .CATALOG => 2 * cs.length
        | .ASSOCIATION => 2
        | .RANGE => 2
        | .PARAMETERS => 2
        | .INDICES => 2
        | .BLOCK => 2
        | .PROCEDURE => 2 * cs.length
        | .STATEMENT => cs.length - 1
        | .EVALUATE_CLAUSE => if cs.length = 2 then 4 else 0
        | .RETURN_CLAUSE => if cs.length = 1 then 7 else 6
        | .THROW_CLAUSE => 6
        | .HANDLE_CLAUSE => 100
        | .ARITHMETIC_EXPRESSION => 3
        | .COMPARISON_EXPRESSION => 9
        | .LOGICAL_EXPRESSION => 6
        | .DEFAULT_EXPRESSION => 3
        | .EXPONENTIAL_EXPRESSION => 3
        | .INVERSION_EXPRESSION => 1
        | .COMPLEMENT_EXPRESSION => 4
        | .MAGNITUDE_EXPRESSION => 2
        | .FACTORIAL_EXPRESSION => 1
        | .PRECEDENCE_EXPRESSION => 2
        | .DEREFERENCE_EXPRESSION => 1
        | .MESSAGE_EXPRESSION => 1
        | .SUBCOMPONENT_EXPRESSION => 0
        | .FUNCTION_EXPRESSION => 0
        | _ => 0
      let inner : Nat :=
        match ty with
        | .BLOCK => 100
        | _ => nodeSizeList cs
      base + inner

def nodeSizeList : List Node → Nat
  | [] => 0
  | n :: ns => nodeSize n + nodeSizeList ns

end

/-! ## Formatter

The Formatter class is absent from the sources (only the tests and the
index module call it).  Modelled from the spec: the formatter is a left
inverse of the parser on canonical text (spec sections 2 and 8), so it
emits one canonical surface form per AST shape: inline collections and
procedures, a single space around binary operators and after commas and
association colons, no space inside bracket pairs.  fmtToks gives the
emitted token stream; format renders it as the canonical source text. -/

/-- Operator text to token, inverse of the recorded op text. -/
def arithTok : String → Token
  | "-" => .minus
  | "/" => .slash
  | "//" => .dslash
  | "+" => .plus
  | _ => .star

def compTok : String → Token
  | "<" => .lt
  | "=" => .eq
  | ">" => .gt
  | "is" => .kwIs
  | _ => .kwMatches

def logTok : String → Token
  | "and" => .kwAnd
  | "sans" => .kwSans
  | "xor" => .kwXor
  | _ => .kwOr

def terminalToken (ty : NodeType) (v : String) : Token :=
  match ty with
  | .NUMBER =>
      if v = "undefined" then .kwUndefined
      else if v = "infinity" then .kwInfinity
      else .float v
  | .PROBABILITY =>
      if v = "true" then .kwTrue
      else if v = "false" then .kwFalse
      else .fraction v
  | .TEMPLATE => if v = "none" then .kwNone else .kwAny
  | .SYMBOL => .symbol v
  | .VERSION => .version v
  | _ => .identifier v

mutual

def fmtToks : Node → List Token
  | .terminal ty v => [terminalToken ty v]
  | .tree ty op cs =>
      match ty, op, cs with
      | .COMPONENT, _, [st] => fmtToks st
      | .STRUCTURE, _, [c] => .lbracket :: fmtToks c ++ [.rbracket]
      | .LIST, _, es => fmtSeq .comma es
      | .CATALOG, _, [] => [.colon]
      | .CATALOG, _, a :: as => fmtSeq .comma (a :: as)
      | .ASSOCIATION, _, [k, v] => fmtToks k ++ .colon :: fmtToks v
      | .RANGE, _, [a, b] => fmtToks a ++ .ddot :: fmtToks b
      | .PARAMETERS, _, [c] => .lparen :: fmtToks c ++ [.rparen]
      | .INDICES, _, [a] => .lbracket :: fmtToks a ++ [.rbracket]
      | .BLOCK, _, [p] => .lbrace :: fmtToks p ++ [.rbrace]
      | .PROCEDURE, _, ss => fmtSeq .semicolon ss
      | .STATEMENT, _, [m] => fmtToks m
      | .EVALUATE_CLAUSE, _, [e] => fmtToks e
      | .EVALUATE_CLAUSE, _, [r, e] => fmtToks r ++ .assign :: fmtToks e
      | .RETURN_CLAUSE, _, [] => [.kwReturn]
      | .RETURN_CLAUSE, _, [e] => .kwReturn :: fmtToks e
      | .THROW_CLAUSE, _, [e] => .kwThrow :: fmtToks e
      | .ARITHMETIC_EXPRESSION, some o, [l, r] =>
          fmtToks l ++ arithTok o :: fmtToks r
      | .COMPARISON_EXPRESSION, some o, [l, r] =>
          fmtToks l ++ compTok o :: fmtToks r
      | .LOGICAL_EXPRESSION, some o, [l, r] =>
          fmtToks l ++ logTok o :: fmtToks r
      | .DEFAULT_EXPRESSION, _, [l, r] => fmtToks l ++ .question :: fmtToks r
      | .EXPONENTIAL_EXPRESSION, _, [l, r] => fmtToks l ++ .caret :: fmtToks r
      | .FACTORIAL_EXPRESSION, _, [l] => fmtToks l ++ [.bang]
      | .MESSAGE_EXPRESSION, _, [l, .terminal _ m, ps] =>
          fmtToks l ++ .dot :: .identifier m :: fmtToks ps
      | .SUBCOMPONENT_EXPRESSION, _, [l, idx] => fmtToks l ++ fmtToks idx
      | .FUNCTION_EXPRESSION, _, [.terminal _ f, ps] =>
          .identifier f :: fmtToks ps
      | .PRECEDENCE_EXPRESSION, _, [e] => .lparen :: fmtToks e ++ [.rparen]
      | .MAGNITUDE_EXPRESSION, _, [e] => .bar :: fmtToks e ++ [.bar]
      | .INVERSION_EXPRESSION, some o, [e] => arithTok o :: fmtToks e
      | .COMPLEMENT_EXPRESSION, _, [e] => .kwNot :: fmtToks e
      | .DEREFERENCE_EXPRESSION, _, [e] => .atSign :: fmtToks e
      | _, _, _ => []

def fmtSeq (sep : Token) : List Node → List Token
  | [] => []
  | [e] => fmtToks e
  | e :: es => fmtToks e ++ sep :: fmtSeq sep es

end

/-- The tokens a comma or semicolon separated sequence contributes after
its first item. -/
def fmtTail (sep : Token) : List Node → List Token
  | [] => []
  | e :: es => sep :: fmtToks e ++ fmtTail sep es

/- Render the canonical source text of a node.  This is the formatter
interface of the spec (formatComponent), modelled from the spec since
the Formatter class is not among the sources: one canonical surface
form per AST shape, spaces around binary operators, assignment and
prefix operator words, a space after commas and association colons,
none inside bracket pairs. -/
mutual

def format : Node → String
  | .terminal _ v => v
  | .tree ty op cs =>
      match ty, op, cs with
      | .COMPONENT, _, [st] => format st
      | .STRUCTURE, _, [c] => "[" ++ format c ++ "]"
      | .LIST, _, es => formatSeq ", " es
      | .CATALOG, _, [] => ":"
      | .CATALOG, _, a :: as => formatSeq ", " (a :: as)
      | .ASSOCIATION, _, [k, v] => format k ++ ": " ++ format v
      | .RANGE, _, [a, b] => format a ++ ".." ++ format b
      | .PARAMETERS, _, [c] => "(" ++ format c ++ ")"
      | .INDICES, _, [a] => "[" ++ format a ++ "]"
      | .BLOCK, _, [p] => "\x7b" ++ format p ++ "\x7d"
      | .PROCEDURE, _, ss => formatSeq "; " ss
      | .STATEMENT, _, [m] => format m
      | .EVALUATE_CLAUSE, _, [e] => format e
      | .EVALUATE_CLAUSE, _, [r, e] => format r ++ " := " ++ format e
      | .RETURN_CLAUSE, _, [] => "return"
      | .RETURN_CLAUSE, _, [e] => "return " ++ format e
      | .THROW_CLAUSE, _, [e] => "throw " ++ format e
      | .ARITHMETIC_EXPRESSION, some o, [l, r] =>
          format l ++ " " ++ o ++ " " ++ format r
      | .COMPARISON_EXPRESSION, some o, [l, r] =>
          format l ++ " " ++ o ++ " " ++ format r
      | .LOGICAL_EXPRESSION, some o, [l, r] =>
          format l ++ " " ++ o ++ " " ++ format r
      | .DEFAULT_EXPRESSION, _, [l, r] => format l ++ " ? " ++ format r
      | .EXPONENTIAL_EXPRESSION, _, [l, r] => format l ++ " ^ " ++ format r
      | .FACTORIAL_EXPRESSION, _, [l] => format l ++ "!"
      | .MESSAGE_EXPRESSION, _, [l, .terminal _ m, ps] =>
          format l ++ "." ++ m ++ format ps
      | .SUBCOMPONENT_EXPRESSION, _, [l, idx] => format l ++ format idx
      | .FUNCTION_EXPRESSION, _, [.terminal _ f, ps] => f ++ format ps
      | .PRECEDENCE_EXPRESSION, _, [e] => "(" ++ format e ++ ")"
      | .MAGNITUDE_EXPRESSION, _, [e] => "|" ++ format e ++ "|"
      | .INVERSION_EXPRESSION, some o, [e] => o ++ " " ++ format e
      | .COMPLEMENT_EXPRESSION, _, [e] => "not " ++ format e
      | .DEREFERENCE_EXPRESSION, _, [e] => "@" ++ format e
      | _, _, _ => ""

def formatSeq (sep : String) : List Node → String
  | [] => ""
  | [e] => format e
  | e :: es => format e ++ sep ++ formatSeq sep es

end

/-! ## Producible ASTs

wfExpr p n says that n is exactly the tree the expression rule produces
at minimum precedence level p from the token stream fmtToks n.  The
conditions restate the generated precedence encoding: an alternative of
level l may extend a left operand only when l is at least p and when
the left operand was built by a sub parse whose level exceeds l (the
contBound of the left operand: the level at which the right hand or
operand sub parse of its topmost node ran, since that sub parse has
already consumed every continuation of at least that level). -/

def contBound : Node → Nat
  | .tree .EXPONENTIAL_EXPRESSION _ [_, r] => min 8 (contBound r)
  | .tree .ARITHMETIC_EXPRESSION _ [_, r] => min 7 (contBound r)
  | .tree .COMPARISON_EXPRESSION _ [_, r] => min 5 (contBound r)
  | .tree .LOGICAL_EXPRESSION _ [_, r] => min 3 (contBound r)
  | .tree .DEFAULT_EXPRESSION _ [_, r] => min 2 (contBound r)
  | .tree .INVERSION_EXPRESSION _ [x] => min 7 (contBound x)
  | .tree .COMPLEMENT_EXPRESSION _ [x] => min 3 (contBound x)
  | .tree .DEREFERENCE_EXPRESSION _ [x] => min 12 (contBound x)
  | _ => 100

def isElementTerminal : Node → Bool
  | .terminal .NUMBER _ => true
  | .terminal .PROBABILITY _ => true
  | .terminal .SYMBOL _ => true
  | .terminal .VERSION _ => true
  | .terminal .TEMPLATE v => v = "none" || v = "any"
  | _ => false

def isArithOp (s : String) : Bool :=
  s = "*" || s = "/" || s = "//" || s = "+" || s = "-"

def isCompOp (s : String) : Bool :=
  s = "<" || s = "=" || s = ">" || s = "is" || s = "matches"

def isLogOp (s : String) : Bool :=
  s = "and" || s = "sans" || s = "xor" || s = "or"

def isInvOp (s : String) : Bool := s = "-" || s = "/" || s = "*"

mutual

inductive WfExpr : Nat → Node → Prop where
  | var (p : Nat) (v : String) : WfExpr p (.terminal .VARIABLE v)
  | comp (p : Nat) (st : Node) : WfState st →
      WfExpr p (.tree .COMPONENT none [st])
  | arith (p : Nat) (o : String) (l r : Node) :
      isArithOp o = true → p ≤ 6 → 6 < contBound l →
      WfExpr p l → WfExpr 7 r →
      WfExpr p (.tree .ARITHMETIC_EXPRESSION (some o) [l, r])
  | cmp (p : Nat) (o : String) (l r : Node) :
      isCompOp o = true → p ≤ 4 → 4 < contBound l →
      WfExpr p l → WfExpr 5 r →
      WfExpr p (.tree .COMPARISON_EXPRESSION (some o) [l, r])
  | logic (p : Nat) (o : String) (l r : Node) :
      isLogOp o = true → p ≤ 2 → 2 < contBound l →
      WfExpr p l → WfExpr 3 r →
      WfExpr p (.tree .LOGICAL_EXPRESSION (some o) [l, r])
  | dflt (p : Nat) (l r : Node) :
      p ≤ 1 → 1 < contBound l → WfExpr p l → WfExpr 2 r →
      WfExpr p (.tree .DEFAULT_EXPRESSION none [l, r])
  | expo (p : Nat) (l r : Node) :
      p ≤ 8 → 8 < contBound l → WfExpr p l → WfExpr 8 r →
      WfExpr p (.tree .EXPONENTIAL_EXPRESSION none [l, r])
  | fact (p : Nat) (l : Node) :
      p ≤ 9 → 9 < contBound l → WfExpr p l →
      WfExpr p (.tree .FACTORIAL_EXPRESSION none [l])
  | msg (p : Nat) (l : Node) (m : String) (ps : Node) :
      p ≤ 11 → 11 < contBound l → WfExpr p l → WfParameters ps →
      WfExpr p (.tree .MESSAGE_EXPRESSION none
        [l, .terminal .MESSAGE m, ps])
  | subc (p : Nat) (l idx : Node) :
      p ≤ 10 → 10 < contBound l → WfExpr p l → WfIndices idx →
      WfExpr p (.tree .SUBCOMPONENT_EXPRESSION none [l, idx])
  | fn (p : Nat) (f : String) (ps : Node) : WfParameters ps →
      WfExpr p (.tree .FUNCTION_EXPRESSION none
        [.terminal .FUNCTION f, ps])
  | inv (p : Nat) (o : String) (x : Node) :
      isInvOp o = true → WfExpr 7 x →
      WfExpr p (.tree .INVERSION_EXPRESSION (some o) [x])
  | compl (p : Nat) (x : Node) : WfExpr 3 x →
      WfExpr p (.tree .COMPLEMENT_EXPRESSION none [x])
  | deref (p : Nat) (x : Node) : WfExpr 12 x →
      WfExpr p (.tree .DEREFERENCE_EXPRESSION none [x])
  | prec (p : Nat) (x : Node) : WfExpr 0 x →
      WfExpr p (.tree .PRECEDENCE_EXPRESSION none [x])
  | magn (p : Nat) (x : Node) : WfExpr 0 x →
      WfExpr p (.tree .MAGNITUDE_EXPRESSION none [x])

/-- state: element | structure | block (the content of a COMPONENT). -/
inductive WfState : Node → Prop where
  | elem (ty : NodeType) (v : String) :
      isElementTerminal (.terminal ty v) = true →
      WfState (.terminal ty v)
  | struct (c : Node) : WfCollection c →
      WfState (.tree .STRUCTURE none [c])
  | block (pr : Node) : WfProcedure pr →
      WfState (.tree .BLOCK none [pr])

inductive WfCollection : Node → Prop where
  | list (es : List Node) : WfExprList es →
      WfCollection (.tree .LIST none es)
  | catalog (as : List Node) : WfAssocList as →
      WfCollection (.tree .CATALOG none as)
  | range (a b : Node) : WfExpr 0 a → WfExpr 0 b →
      WfCollection (.tree .RANGE none [a, b])

inductive WfExprList : List Node → Prop where
  | nil : WfExprList []
  | cons (e : Node) (es : List Node) : WfExpr 0 e → WfExprList es →
      WfExprList (e :: es)

inductive WfAssocList : List Node → Prop where
  | nil : WfAssocList []
  | cons (k v : Node) (as : List Node) :
      isElementTerminal k = true → WfExpr 0 v → WfAssocList as →
      WfAssocList (.tree .ASSOCIATION none
        [.tree .COMPONENT none [k], v] :: as)

inductive WfParameters : Node → Prop where
  | mk (c : Node) : WfCollection c →
      WfParameters (.tree .PARAMETERS none [c])

inductive WfIndices : Node → Prop where
  | mk (es : List Node) : WfExprList es →
      WfIndices (.tree .INDICES none [.tree .LIST none es])

inductive WfProcedure : Node → Prop where
  | mk (ss : List Node) : WfStmtList ss →
      WfProcedure (.tree .PROCEDURE none ss)

inductive WfStmtList : List Node → Prop where
  | nil : WfStmtList []
  | cons (m : Node) (ss : List Node) : WfMain m → WfStmtList ss →
      WfStmtList (.tree .STATEMENT none [m] :: ss)

inductive WfMain : Node → Prop where
  | eval (e : Node) : WfExpr 0 e →
      WfMain (.tree .EVALUATE_CLAUSE none [e])
  | evalR (s : String) (e : Node) : WfExpr 0 e →
      WfMain (.tree .EVALUATE_CLAUSE none [.terminal .SYMBOL s, e])
  | ret : WfMain (.tree .RETURN_CLAUSE none [])
  | retE (e : Node) : WfExpr 0 e →
      WfMain (.tree .RETURN_CLAUSE none [e])
  | thr (e : Node) : WfExpr 0 e →
      WfMain (.tree .THROW_CLAUSE none [e])

end

/-- A producible component document. -/
inductive WfComponent : Node → Prop where
  | mk (st : Node) : WfState st →
      WfComponent (.tree .COMPONENT none [st])

/-! ## Fuel weights -/

mutual

def weight : Node → Nat
  | .terminal _ _ => 4
  | .tree _ _ cs => 8 + weightList cs

def weightList : List Node → Nat
  | [] => 0
  | n :: ns => weight n + weightList ns

end

/-! ## Round trip helpers

contLevel gives the precpred level of the loop alternative a token
triggers; stopTok marks the delimiter tokens after which the formatter
ever places an expression; headBound b ts says the loop can consume
nothing of level b or higher from the head of ts. -/

def contLevel : Token → Option Nat
  | .caret => some 8
  | .minus | .slash | .star | .dslash | .plus => some 6
  | .lt | .eq | .gt | .kwIs | .kwMatches => some 4
  | .kwAnd | .kwSans | .kwXor | .kwOr => some 2
  | .question => some 1
  | .dot => some 11
  | .lbracket => some 10
  | .bang => some 9
  | _ => none

def stopTok : Token → Bool
  | .rbracket | .rparen | .rbrace | .comma | .colon | .semicolon
  | .newline | .ddot | .bar => true
  | _ => false

def headBound (b : Nat) : List Token → Bool
  | [] => true
  | t :: _ =>
      match contLevel t with
      | some l => decide (l < b)
      | none => stopTok t

/-- No continuation of level b or higher can start at the head: the
invariant carried by the expression loop on arbitrary input. -/
def levelOK (b : Nat) (ts : List Token) : Prop :=
  ∀ t tl ℓ, ts = t :: tl → contLevel t = some ℓ → ℓ < b

/-! ## ParseTreeToObject

The TransformingVisitor of the ParseTreeToObject module walks a parse
tree of the original full grammar and produces plain JavaScript values.
The parse tree contexts and the objects.* value classes are not among
the sources.  Modelled from the spec: OCtx is the fragment of the
context shapes named by the visit methods, Obj the produced values;
each transform equation is translated from the corresponding visit
method of TransformingVisitor (expression and statement visits throw,
element visits construct a value, array and table visits collect
children, delegating visits recurse). -/

/-- Values produced by the TransformingVisitor (objects.*). -/
inductive Obj where
  | complex (s : String)
  | probabilityTrue
  | probabilityFalse
  | probability (s : String)
  | text (s : String)
  | symbol (s : String)
  | tag (s : String)
  | version (s : String)
  | reference (s : String)
  | moment (s : String)
  | binary (s : String)
  | anyAny
  | noneAny
  | composite (vals : List Obj) (variant : String)
  | assoc (k v : Obj)

/-- Parse tree contexts of the original grammar reached by the
TransformingVisitor, restricted to the fragment the claim names. -/
inductive OCtx where
  | arithmeticExpression (cs : List OCtx)
  | comparisonExpression (cs : List OCtx)
  | logicalExpression (cs : List OCtx)
  | defaultExpression (cs : List OCtx)
  | messageExpression (cs : List OCtx)
  | precedenceExpression (cs : List OCtx)
  | variableExpression (cs : List OCtx)
  | componentExpression (cs : List OCtx)
  | functionExpression (cs : List OCtx)
  | factorialExpression (cs : List OCtx)
  | dereferenceExpression (cs : List OCtx)
  | inversionExpression (cs : List OCtx)
  | complementExpression (cs : List OCtx)
  | magnitudeExpression (cs : List OCtx)
  | block
  | realNumber (s : String)
  | trueProbability
  | falseProbability
  | fractionalProbability (s : String)
  | inlineText (s : String)
  | symbol (s : String)
  | tag (s : String)
  | version (s : String)
  | reference (s : String)
  | moment (s : String)
  | binary (s : String)
  | anyAny
  | noneAny
  | inlineArray (vs : List OCtx)
  | newlineArray (vs : List OCtx)
  | emptyArray
  | inlineTable (as : List OCtx)
  | newlineTable (as : List OCtx)
  | emptyTable
  | association (k v : OCtx)
  | key (e : OCtx)
  | value (e : OCtx)
  | structure (c : OCtx)
  | element (e : OCtx)
  | literal (e : OCtx)
  | document (lit : OCtx)
  | documentExpression (d : OCtx)

def exprErr : String :=
  "TRANSFORMER: Bali expressions cannot be transformed into JavaScript objects."

def stmtErr : String :=
  "TRANSFORMER: Bali statements cannot be transformed into JavaScript objects."

mutual

/-- The TransformingVisitor, as a total function on the embedded
contexts: visits that throw become errors, the others build values. -/
def transform : OCtx → Except String Obj
  | .arithmeticExpression _ => .error exprErr
  | .comparisonExpression _ => .error exprErr
  | .logicalExpression _ => .error exprErr
  | .defaultExpression _ => .error exprErr
  | .messageExpression _ => .error exprErr
  | .precedenceExpression _ => .error exprErr
  | .variableExpression _ => .error exprErr
  | .componentExpression _ => .error exprErr
  | .functionExpression _ => .error exprErr
  | .factorialExpression _ => .error exprErr
  | .dereferenceExpression _ => .error exprErr
  | .inversionExpression _ => .error exprErr
  | .complementExpression _ => .error exprErr
  | .magnitudeExpression _ => .error exprErr
  | .block => .error stmtErr
  | .realNumber s => .ok (.complex s)
  | .trueProbability => .ok .probabilityTrue
  | .falseProbability => .ok .probabilityFalse
  | .fractionalProbability s => .ok (.probability s)
  | .inlineText s => .ok (.text s)
  | .symbol s => .ok (.symbol s)
  | .tag s => .ok (.tag s)
  | .version s => .ok (.version s)
  | .reference s => .ok (.reference s)
  | .moment s => .ok (.moment s)
  | .binary s => .ok (.binary s)
  | .anyAny => .ok .anyAny
  | .noneAny => .ok .noneAny
  | .inlineArray vs =>
      match transformList vs with
      | .ok os => .ok (.composite os "InlineArrayContext")
      | .error e => .error e
  | .newlineArray vs =>
      match transformList vs with
      | .ok os => .ok (.composite os "NewlineArrayContext")
      | .error e => .error e
  | .emptyArray => .ok (.composite [] "EmptyArrayContext")
  | .inlineTable as =>
      match transformList as with
      | .ok os => .ok (.composite os "InlineTableContext")
      | .error e => .error e
  | .newlineTable as =>
      match transformList as with
      | .ok os => .ok (.composite os "NewlineTableContext")
      | .error e => .error e
  | .emptyTable => .ok (.composite [] "EmptyTableContext")
  | .association k v =>
      match transform k with
      | .error e => .error e
      | .ok ko =>
          match transform v with
          | .error e => .error e
          | .ok vo => .ok (.assoc ko vo)
  | .key e => transform e
  | .value e => transform e
  | .structure c => transform c
  | .element e => transform e
  | .literal e => transform e
  | .document lit => transform lit
  | .documentExpression d => transform d

def transformList : List OCtx → Except String (List Obj)
  | [] => .ok []
  | c :: cs =>
      match transform c with
      | .error e => .error e
      | .ok o =>
          match transformList cs with
          | .ok os => .ok (o :: os)
          | .error e => .error e

end

/-! ## visitStatement

The generated StatementContext offers the main clause, the list of
handle clauses and the optional finish clause of the statement rule
mainClause handleClause* finishClause?; the fields hold the node each
child produces under the ParsingVisitor. -/

structure StatementContext where
  mainClause : Node
  handleClauses : List Node
  finishClause : Option Node

/-- ParsingVisitor.visitStatement: a STATEMENT tree from the main
clause and the handle clauses; the finish clause is never visited. -/
def visitStatement (ctx : StatementContext) : Node :=
  .tree .STATEMENT none (ctx.mainClause :: ctx.handleClauses)

/-- The statement tree the spec describes: both kinds of trailer clause
appended as children, the optional finishing clause included. -/
def visitStatementSpec (ctx : StatementContext) : Node :=
  .tree .STATEMENT none
    ((ctx.mainClause :: ctx.handleClauses) ++ ctx.finishClause.toList)

/-! ## Debug mode

The debug flag of the parseDocument entry point reaches only
BaliErrorStrategy.reportError and BaliErrorListener.syntaxError, whose
bodies are entirely guarded by the flag and only call console.log; the
recover methods throw regardless of the flag. -/

/-- The console output of BaliErrorListener.syntaxError. -/
def syntaxErrorLog (debug : Bool) (msg : String) : List String :=
  if debug then [msg] else []

/-- parseDocument together with the diagnostic lines it prints. -/
def parseDocumentDbg (s : String) (debug : Bool) :
    Except ParseFailure Node × List String :=
  match parseDocument s with
  | .ok t => (.ok t, [])
  | .error e => (.error e, syntaxErrorLog debug "syntax error")

/-! ## Version values

The Version element class is not among the sources (only its test is).
Modelled from the spec: a version string is accepted exactly when every
dot separated component matches the NATURAL fragment of the VERSION
token rule of grammar/BaliTokens.g4. -/

def versionValid (s : String) : Bool :=
  (splitDot s.data).all naturalCore

/-! ## Concrete trees named by the claims -/

def elemDocNode : Node :=
  .tree .COMPONENT none [.terminal .TEMPLATE "none"]

def num (s : String) : Node := .tree .COMPONENT none [.terminal .NUMBER s]

def listDocNode : Node :=
  .tree .COMPONENT none [.tree .STRUCTURE none
    [.tree .LIST none [num "1", num "2", num "3"]]]

def sumProdNode : Node :=
  .tree .ARITHMETIC_EXPRESSION (some "*")
    [.tree .ARITHMETIC_EXPRESSION (some "+") [num "2", num "3"], num "4"]

def expoNode : Node :=
  .tree .EXPONENTIAL_EXPRESSION none
    [num "2", .tree .EXPONENTIAL_EXPRESSION none [num "3", num "2"]]

def stmtDocNode : Node :=
  .tree .COMPONENT none [.tree .BLOCK none [.tree .PROCEDURE none
    [.tree .STATEMENT none [.tree .EVALUATE_CLAUSE none
       [.terminal .SYMBOL "$x", num "5"]],
     .tree .STATEMENT none [.tree .RETURN_CLAUSE none
       [.tree .COMPONENT none [.terminal .SYMBOL "$x"]]]]]]

def va : Node := .terminal .VARIABLE "a"
def vb : Node := .terminal .VARIABLE "b"
def vc : Node := .terminal .VARIABLE "c"

/-- A value context of the original grammar holding the literal number
s, as the chain value, documentExpression, document, literal, element,
realNumber of delegating contexts. -/
def numCtx (s : String) : OCtx :=
  .value (.documentExpression (.document (.literal (.element
    (.realNumber s)))))

theorem headBound_mono {b b' : Nat} {ts : List Token} (h : b ≤ b')
    (hb : headBound b ts = true) : headBound b' ts = true := by
  cases ts with
  | nil => rfl
  | cons t r =>
      simp only [headBound] at hb ⊢
      cases hc : contLevel t with
      | none => simpa [hc] using hb
      | some l =>
          simp only [hc, decide_eq_true_eq] at hb ⊢
          omega

/-- The continuation loop returns the accumulated left operand as soon
as the head of the input cannot extend it at the current level. -/
theorem parseLoop_exit {p : Nat} {left : Node} {ts : List Token}
    {fuel : Nat} (h : headBound p ts = true) :
    parseLoop (fuel + 1) p left ts = .ok (left, ts) := by
  cases ts with
  | nil => rfl
  | cons t r =>
      cases t <;>
        simp_all [parseLoop, headBound, contLevel, stopTok]


theorem parseElement_fmt {ty : NodeType} {v : String} {rest : List Token}
    (h : isElementTerminal (.terminal ty v) = true) :
    parseElement (terminalToken ty v :: rest) =
      .ok (.terminal ty v, rest) := by
  cases ty
  case NUMBER =>
    by_cases h1 : v = "undefined"
    · subst h1; simp [terminalToken, parseElement]
    · by_cases h2 : v = "infinity"
      · subst h2; simp [terminalToken, parseElement]
      · simp [terminalToken, h1, h2, parseElement]
  case PROBABILITY =>
    by_cases h1 : v = "true"
    · subst h1; simp [terminalToken, parseElement]
    · by_cases h2 : v = "false"
      · subst h2; simp [terminalToken, parseElement]
      · simp [terminalToken, h1, h2, parseElement]
  case TEMPLATE =>
    simp only [isElementTerminal, Bool.or_eq_true, decide_eq_true_eq] at h
    rcases h with h | h <;> subst h <;> simp [terminalToken, parseElement]
  case SYMBOL => simp [terminalToken, parseElement]
  case VERSION => simp [terminalToken, parseElement]
  all_goals simp [isElementTerminal] at h

theorem elementStart_terminalToken {ty : NodeType} {v : String}
    (h : isElementTerminal (.terminal ty v) = true) :
    elementStart (terminalToken ty v) = true := by
  cases ty
  case NUMBER =>
    by_cases h1 : v = "undefined"
    · subst h1; simp [terminalToken, elementStart]
    · by_cases h2 : v = "infinity"
      · subst h2; simp [terminalToken, elementStart]
      · simp [terminalToken, h1, h2, elementStart]
  case PROBABILITY =>
    by_cases h1 : v = "true"
    · subst h1; simp [terminalToken, elementStart]
    · by_cases h2 : v = "false"
      · subst h2; simp [terminalToken, elementStart]
      · simp [terminalToken, h1, h2, elementStart]
  case TEMPLATE =>
    simp only [isElementTerminal, Bool.or_eq_true, decide_eq_true_eq] at h
    rcases h with h | h <;> subst h <;> simp [terminalToken, elementStart]
  case SYMBOL => simp [terminalToken, elementStart]
  case VERSION => simp [terminalToken, elementStart]
  all_goals simp [isElementTerminal] at h


theorem fmtSeq_cons (sep : Token) (e : Node) (es : List Node) :
    fmtSeq sep (e :: es) = fmtToks e ++ fmtTail sep es := by
  induction es generalizing e with
  | nil => simp [fmtSeq, fmtTail]
  | cons e' es' ih => simp [fmtSeq, fmtTail, ih e']

theorem invOp_cases {o : String} (h : isInvOp o = true) :
    o = "-" ∨ o = "/" ∨ o = "*" := by
  simpa [isInvOp, or_assoc] using h

/-- The first token of a producible expression starts an expression. -/
theorem fmtHeadStart : ∀ {p : Nat} {e : Node}, WfExpr p e →
    ∃ x l, fmtToks e = x :: l ∧ exprStart x = true
  | _, _, .var _ v =>
      ⟨.identifier v, [], by simp [fmtToks, terminalToken], by simp [exprStart]⟩
  | _, _, .comp _ st hst => by
      cases hst with
      | elem ty v he =>
          exact ⟨terminalToken ty v, [], by simp [fmtToks],
            by simp [exprStart, elementStart_terminalToken he]⟩
      | struct c _ =>
          exact ⟨.lbracket, fmtToks c ++ [.rbracket], by simp [fmtToks],
            by simp [exprStart]⟩
      | block pr _ =>
          exact ⟨.lbrace, fmtToks pr ++ [.rbrace], by simp [fmtToks],
            by simp [exprStart]⟩
  | _, _, .arith _ o l r _ _ _ hl _ => by
      obtain ⟨x, l', hx, hs⟩ := fmtHeadStart hl
      exact ⟨x, l' ++ arithTok o :: fmtToks r, by simp [fmtToks, hx], hs⟩
  | _, _, .cmp _ o l r _ _ _ hl _ => by
      obtain ⟨x, l', hx, hs⟩ := fmtHeadStart hl
      exact ⟨x, l' ++ compTok o :: fmtToks r, by simp [fmtToks, hx], hs⟩
  | _, _, .logic _ o l r _ _ _ hl _ => by
      obtain ⟨x, l', hx, hs⟩ := fmtHeadStart hl
      exact ⟨x, l' ++ logTok o :: fmtToks r, by simp [fmtToks, hx], hs⟩
  | _, _, .dflt _ l r _ _ hl _ => by
      obtain ⟨x, l', hx, hs⟩ := fmtHeadStart hl
      exact ⟨x, l' ++ .question :: fmtToks r, by simp [fmtToks, hx], hs⟩
  | _, _, .expo _ l r _ _ hl _ => by
      obtain ⟨x, l', hx, hs⟩ := fmtHeadStart hl
      exact ⟨x, l' ++ .caret :: fmtToks r, by simp [fmtToks, hx], hs⟩
  | _, _, .fact _ l _ _ hl => by
      obtain ⟨x, l', hx, hs⟩ := fmtHeadStart hl
      exact ⟨x, l' ++ [.bang], by simp [fmtToks, hx], hs⟩
  | _, _, .msg _ l m ps _ _ hl _ => by
      obtain ⟨x, l', hx, hs⟩ := fmtHeadStart hl
      exact ⟨x, l' ++ .dot :: .identifier m :: fmtToks ps,
        by simp [fmtToks, hx], hs⟩
  | _, _, .subc _ l idx _ _ hl _ => by
      obtain ⟨x, l', hx, hs⟩ := fmtHeadStart hl
      exact ⟨x, l' ++ fmtToks idx, by simp [fmtToks, hx], hs⟩
  | _, _, .fn _ f ps _ =>
      ⟨.identifier f, fmtToks ps, by simp [fmtToks], by simp [exprStart]⟩
  | _, _, .inv _ o x ho _ => by
      refine ⟨arithTok o, fmtToks x, by simp [fmtToks], ?_⟩
      rcases invOp_cases ho with h | h | h <;> subst h <;>
        simp [arithTok, exprStart]
  | _, _, .compl _ x _ =>
      ⟨.kwNot, fmtToks x, by simp [fmtToks], by simp [exprStart]⟩
  | _, _, .deref _ x _ =>
      ⟨.atSign, fmtToks x, by simp [fmtToks], by simp [exprStart]⟩
  | _, _, .prec _ x _ =>
      ⟨.lparen, fmtToks x ++ [.rparen], by simp [fmtToks],
        by simp [exprStart]⟩
  | _, _, .magn _ x _ =>
      ⟨.bar, fmtToks x ++ [.bar], by simp [fmtToks], by simp [exprStart]⟩





theorem arithTok_ne (o : String) :
    arithTok o ≠ .colon ∧ arithTok o ≠ .assign := by
  unfold arithTok; split <;> simp

theorem compTok_ne (o : String) :
    compTok o ≠ .colon ∧ compTok o ≠ .assign := by
  unfold compTok; split <;> simp

theorem logTok_ne (o : String) :
    logTok o ≠ .colon ∧ logTok o ≠ .assign := by
  unfold logTok; split <;> simp

/-- If the canonical emission of a producible expression begins with an
element token, its second token is never the association colon nor the
assignment arrow: after the leading element only continuation operators
and delimiters of further subterms can follow within one expression. -/
theorem fmtSnd : ∀ {p : Nat} {e : Node} {tx ty : Token} {tl : List Token},
    WfExpr p e → fmtToks e = tx :: ty :: tl → elementStart tx = true →
    ty ≠ .colon ∧ ty ≠ .assign
  | _, _, _, _, _, .var _ v, h, _ => by simp [fmtToks] at h
  | _, _, _, _, _, .comp _ st hst, h, hx => by
      cases hst with
      | elem ty v he => simp [fmtToks] at h
      | struct c _ =>
          simp [fmtToks] at h
          rw [← h.1] at hx
          simp [elementStart] at hx
      | block pr _ =>
          simp [fmtToks] at h
          rw [← h.1] at hx
          simp [elementStart] at hx
  | _, _, _, _, _, .arith _ o l r _ _ _ hl _, h, hx => by
      obtain ⟨x', l'', hx', _⟩ := fmtHeadStart hl
      simp only [fmtToks, hx'] at h
      cases l'' with
      | nil =>
          simp at h
          exact h.2.1 ▸ arithTok_ne o
      | cons y' l3 =>
          simp at h
          exact fmtSnd hl (by rw [hx', h.1, h.2.1]) (h.1 ▸ hx)
  | _, _, _, _, _, .cmp _ o l r _ _ _ hl _, h, hx => by
      obtain ⟨x', l'', hx', _⟩ := fmtHeadStart hl
      simp only [fmtToks, hx'] at h
      cases l'' with
      | nil =>
          simp at h
          exact h.2.1 ▸ compTok_ne o
      | cons y' l3 =>
          simp at h
          exact fmtSnd hl (by rw [hx', h.1, h.2.1]) (h.1 ▸ hx)
  | _, _, _, _, _, .logic _ o l r _ _ _ hl _, h, hx => by
      obtain ⟨x', l'', hx', _⟩ := fmtHeadStart hl
      simp only [fmtToks, hx'] at h
      cases l'' with
      | nil =>
          simp at h
          exact h.2.1 ▸ logTok_ne o
      | cons y' l3 =>
          simp at h
          exact fmtSnd hl (by rw [hx', h.1, h.2.1]) (h.1 ▸ hx)
  | _, _, _, _, _, .dflt _ l r _ _ hl _, h, hx => by
      obtain ⟨x', l'', hx', _⟩ := fmtHeadStart hl
      simp only [fmtToks, hx'] at h
      cases l'' with
      | nil => simp at h; simp [← h.2.1]
      | cons y' l3 =>
          simp at h
          exact fmtSnd hl (by rw [hx', h.1, h.2.1]) (h.1 ▸ hx)
  | _, _, _, _, _, .expo _ l r _ _ hl _, h, hx => by
      obtain ⟨x', l'', hx', _⟩ := fmtHeadStart hl
      simp only [fmtToks, hx'] at h
      cases l'' with
      | nil => simp at h; simp [← h.2.1]
      | cons y' l3 =>
          simp at h
          exact fmtSnd hl (by rw [hx', h.1, h.2.1]) (h.1 ▸ hx)
  | _, _, _, _, _, .fact _ l _ _ hl, h, hx => by
      obtain ⟨x', l'', hx', _⟩ := fmtHeadStart hl
      simp only [fmtToks, hx'] at h
      cases l'' with
      | nil => simp at h; simp [← h.2.1]
      | cons y' l3 =>
          simp at h
          exact fmtSnd hl (by rw [hx', h.1, h.2.1]) (h.1 ▸ hx)
  | _, _, _, _, _, .msg _ l m ps _ _ hl _, h, hx => by
      obtain ⟨x', l'', hx', _⟩ := fmtHeadStart hl
      simp only [fmtToks, hx'] at h
      cases l'' with
      | nil => simp at h; simp [← h.2.1]
      | cons y' l3 =>
          simp at h
          exact fmtSnd hl (by rw [hx', h.1, h.2.1]) (h.1 ▸ hx)
  | _, _, _, _, _, .subc _ l idx _ _ hl hidx, h, hx => by
      obtain ⟨x', l'', hx', _⟩ := fmtHeadStart hl
      simp only [fmtToks, hx'] at h
      cases l'' with
      | nil =>
          cases hidx with
          | mk es _ =>
              simp only [fmtToks] at h
              simp at h
              simp [← h.2.1]
      | cons y' l3 =>
          simp at h
          exact fmtSnd hl (by rw [hx', h.1, h.2.1]) (h.1 ▸ hx)
  | _, _, _, _, _, .fn _ f ps _, h, hx => by
      simp only [fmtToks] at h
      injection h with h1 _
      rw [← h1] at hx
      simp [elementStart] at hx
  | _, _, _, _, _, .inv _ o x ho _, h, hx => by
      simp only [fmtToks] at h
      injection h with h1 _
      rw [← h1] at hx
      rcases invOp_cases ho with h' | h' | h' <;> subst h' <;>
        simp [arithTok, elementStart] at hx
  | _, _, _, _, _, .compl _ x _, h, hx => by
      simp only [fmtToks] at h
      injection h with h1 _
      rw [← h1] at hx
      simp [elementStart] at hx
  | _, _, _, _, _, .deref _ x _, h, hx => by
      simp only [fmtToks] at h
      injection h with h1 _
      rw [← h1] at hx
      simp [elementStart] at hx
  | _, _, _, _, _, .prec _ x _, h, hx => by
      simp only [fmtToks, List.cons_append] at h
      injection h with h1 _
      rw [← h1] at hx
      simp [elementStart] at hx
  | _, _, _, _, _, .magn _ x _, h, hx => by
      simp only [fmtToks, List.cons_append] at h
      injection h with h1 _
      rw [← h1] at hx
      simp [elementStart] at hx



theorem parseElement_start {x : Token} (h : elementStart x = true)
    (rest : List Token) :
    ∃ el, parseElement (x :: rest) = .ok (el, rest) := by
  cases x <;> first
    | exact ⟨_, rfl⟩
    | simp [elementStart] at h

theorem parseAssociation_noColon {fuel : Nat} {x : Token} {el : Node}
    {rs : List Token}
    (hel : elementStart x = true)
    (helem : parseElement (x :: rs) = .ok (el, rs))
    (hr : ∀ r2, rs ≠ .colon :: r2) :
    ∃ er, parseAssociation (fuel + 1) (x :: rs) = .error er := by
  simp only [parseAssociation, hel, if_true, helem]
  cases rs with
  | nil => exact ⟨_, rfl⟩
  | cons t r' =>
      cases t <;> first
        | exact absurd rfl (hr r')
        | exact ⟨_, rfl⟩

/-- The association probe of the composite rule fails on the emission of
any producible expression, provided a colon does not follow a single
token emission from the outside. -/
theorem probeFail {p : Nat} {e : Node} (he : WfExpr p e) (fuel : Nat)
    (s : List Token)
    (hs : (fmtToks e).length = 1 → s.head? ≠ some .colon) :
    ∃ er, parseAssociation fuel (fmtToks e ++ s) = .error er := by
  obtain ⟨x, l, hx, hstart⟩ := fmtHeadStart he
  cases fuel with
  | zero => exact ⟨.noFuel, rfl⟩
  | succ fuel =>
      rw [hx, List.cons_append]
      by_cases hel : elementStart x = true
      · obtain ⟨el, hel2⟩ := parseElement_start hel (l ++ s)
        refine parseAssociation_noColon hel hel2 ?_
        intro r2 hcons
        cases l with
        | nil =>
            have hcol := hs (by rw [hx]; rfl)
            simp at hcons
            rw [hcons] at hcol
            simp at hcol
        | cons y l' =>
            have := fmtSnd he hx hel
            rw [List.cons_append] at hcons
            have hy : y = .colon := by
              injection hcons
            exact this.1 hy
      · exact ⟨.unexpected (some x), by simp [parseAssociation, hel]⟩



theorem weight_pos (e : Node) : 1 ≤ weight e := by
  cases e with
  | terminal ty v => simp [weight]
  | tree ty op cs => simp only [weight]; omega

theorem weight_terminal (ty : NodeType) (v : String) :
    weight (.terminal ty v) = 4 := rfl

theorem weight_tree (ty : NodeType) (op : Option String) (cs : List Node) :
    weight (.tree ty op cs) = 8 + weightList cs := rfl

theorem weightList_cons (n : Node) (ns : List Node) :
    weightList (n :: ns) = weight n + weightList ns := rfl

theorem elementStart_shape {x : Token} (h : elementStart x = true) :
    x ≠ .colon ∧ x ≠ .rbracket ∧ x ≠ .rparen ∧ x ≠ .newline ∧
    x ≠ .lbracket ∧ x ≠ .lbrace ∧ x ≠ .lparen ∧ x ≠ .atSign ∧
    x ≠ .minus ∧ x ≠ .slash ∧ x ≠ .star ∧ x ≠ .bar ∧ x ≠ .kwNot ∧
    (∀ v, x ≠ .identifier v) ∧ x ≠ .rbrace ∧ x ≠ .semicolon := by
  cases x <;> simp_all [elementStart]

theorem exprStart_shape {x : Token} (h : exprStart x = true) :
    x ≠ .colon ∧ x ≠ .rbracket ∧ x ≠ .rparen ∧ x ≠ .newline ∧
    x ≠ .rbrace ∧ x ≠ .semicolon ∧ x ≠ .ddot ∧ x ≠ .comma := by
  cases x <;> simp_all [exprStart, elementStart]

/-- Dispatch of the composite rule for a head token that is none of the
empty or newline markers: the rule probes for an association and falls
back to the range or inline array alternatives. -/
theorem parseComposite_dispatch {fuel : Nat} {x : Token}
    {rest : List Token}
    (h1 : x ≠ .colon) (h2 : x ≠ .rbracket) (h3 : x ≠ .rparen)
    (h4 : x ≠ .newline) :
    parseComposite (fuel + 1) (x :: rest) =
      (match parseAssociation fuel (x :: rest) with
       | .ok (a, r1) =>
           (match parseMoreAssocs fuel r1 with
            | .ok (as, r2) => .ok (.tree .CATALOG none (a :: as), r2)
            | .error e => .error e)
       | .error _ =>
           match parseExpr fuel 0 (x :: rest) with
           | .error e => .error e
           | .ok (e1, r1) =>
             match r1 with
             | .ddot :: r2 =>
                 (match parseExpr fuel 0 r2 with
                  | .ok (e2, r3) => .ok (.tree .RANGE none [e1, e2], r3)
                  | .error e => .error e)
             | _ =>
                 match parseMoreExprs fuel r1 with
                 | .ok (es, r2) => .ok (.tree .LIST none (e1 :: es), r2)
                 | .error e => .error e) := by
  cases x <;> simp_all <;> rfl

/-- Dispatch of the array rule for a non empty, non newline head. -/
theorem parseArray_dispatch {fuel : Nat} {x : Token} {rest : List Token}
    (h2 : x ≠ .rbracket) (h3 : x ≠ .rparen) (h4 : x ≠ .newline) :
    parseArray (fuel + 1) (x :: rest) =
      (match parseExpr fuel 0 (x :: rest) with
       | .error e => .error e
       | .ok (e1, r1) =>
         match parseMoreExprs fuel r1 with
         | .ok (es, r2) => .ok (.tree .LIST none (e1 :: es), r2)
         | .error e => .error e) := by
  cases x <;> simp_all <;> rfl

/-- Dispatch of the procedure rule for an inline statement head. -/
theorem parseProcedure_dispatch {fuel : Nat} {x : Token}
    {rest : List Token} (h1 : x ≠ .rbrace) (h2 : x ≠ .newline) :
    parseProcedure (fuel + 1) (x :: rest) =
      (match parseStatement fuel (x :: rest) with
       | .error e => .error e
       | .ok (s1, r1) =>
         match parseMoreStmts fuel r1 with
         | .ok (ss, r2) => .ok (.tree .PROCEDURE none (s1 :: ss), r2)
         | .error e => .error e) := by
  cases x <;> simp_all <;> rfl

/-- Dispatch of the primary expression alternatives for an element head:
the componentExpression alternative is taken. -/
theorem parsePrimary_elem {fuel : Nat} {x : Token} {rest : List Token}
    (h : elementStart x = true) :
    parsePrimary (fuel + 1) (x :: rest) =
      parseComponent fuel (x :: rest) := by
  have hs := elementStart_shape h
  cases x <;> simp_all [parsePrimary]

theorem parseComponent_elem {fuel : Nat} {x : Token} {rest : List Token}
    {el : Node} {r : List Token} (h : elementStart x = true)
    (hel : parseElement (x :: rest) = .ok (el, r)) :
    parseComponent (fuel + 1) (x :: rest) =
      .ok (.tree .COMPONENT none [el], r) := by
  cases x <;> simp_all [parseComponent, elementStart]



theorem headBound_stop {b : Nat} {t : Token} {r : List Token}
    (h : stopTok t = true) : headBound b (t :: r) = true := by
  cases t <;> simp_all [stopTok, headBound, contLevel]

theorem head_eq_cons {s : List Token} {t : Token}
    (h : s.head? = some t) : ∃ tl, s = t :: tl := by
  cases s with
  | nil => simp at h
  | cons a tl => simp at h; exact ⟨tl, by rw [h]⟩

theorem arithOp_cases {o : String} (h : isArithOp o = true) :
    o = "*" ∨ o = "/" ∨ o = "//" ∨ o = "+" ∨ o = "-" := by
  simp only [isArithOp, Bool.or_eq_true, decide_eq_true_eq] at h
  tauto

theorem compOp_cases {o : String} (h : isCompOp o = true) :
    o = "<" ∨ o = "=" ∨ o = ">" ∨ o = "is" ∨ o = "matches" := by
  simp only [isCompOp, Bool.or_eq_true, decide_eq_true_eq] at h
  tauto

theorem logOp_cases {o : String} (h : isLogOp o = true) :
    o = "and" ∨ o = "sans" ∨ o = "xor" ∨ o = "or" := by
  simp only [isLogOp, Bool.or_eq_true, decide_eq_true_eq] at h
  tauto

theorem stmtStart_shape {x : Token} (h : stmtStart x = true) :
    x ≠ .rbrace ∧ x ≠ .newline := by
  cases x <;> simp_all [stmtStart, exprStart, elementStart]

/-- A variable identifier not followed by an opening parenthesis parses
as a variableExpression primary. -/
theorem parsePrimary_var {fuel : Nat} {v : String} {rest : List Token}
    (h : ∀ r', rest ≠ .lparen :: r') :
    parsePrimary (fuel + 1) (.identifier v :: rest) =
      .ok (.terminal .VARIABLE v, rest) := by
  cases rest with
  | nil => rfl
  | cons t r' =>
      cases t <;> first
        | exact absurd rfl (h r')
        | rfl

/-- Main clause dispatch: a head that is neither RETURN nor THROW nor a
symbol recipient followed by the assignment arrow takes the plain
evaluateClause alternative. -/
theorem parseMainClause_eval {fuel : Nat} {x : Token} {rest : List Token}
    (h1 : x ≠ .kwReturn) (h2 : x ≠ .kwThrow)
    (h3 : ∀ v, x = .symbol v → rest.head? ≠ some .assign) :
    parseMainClause (fuel + 1) (x :: rest) =
      (match parseExpr fuel 0 (x :: rest) with
       | .ok (e, r1) => .ok (.tree .EVALUATE_CLAUSE none [e], r1)
       | .error e => .error e) := by
  cases x
  case symbol v =>
    cases rest with
    | nil => rfl
    | cons t r' =>
        cases t <;> first
          | rfl
          | (exact absurd (by simp) (h3 v rfl))
  all_goals first | rfl | simp_all

/-- The head of a comma separated tail followed by a closing delimiter. -/
theorem commaTailHead (es : List Node) {s : List Token}
    (h : s.head? = some .rbracket ∨ s.head? = some .rparen) :
    (fmtTail .comma es ++ s).head? = some .comma ∨
    (fmtTail .comma es ++ s).head? = some .rbracket ∨
    (fmtTail .comma es ++ s).head? = some .rparen := by
  cases es with
  | nil =>
      rcases h with h | h <;> simp [fmtTail, h]
  | cons e es' => simp [fmtTail]

theorem tailHeadBound (b : Nat) (es : List Node) {s : List Token}
    (h : s.head? = some .rbracket ∨ s.head? = some .rparen) :
    headBound b (fmtTail .comma es ++ s) = true := by
  rcases commaTailHead es h with h' | h' | h' <;>
    obtain ⟨tl, htl⟩ := head_eq_cons h' <;> rw [htl] <;>
      exact headBound_stop rfl

/-- The head of a semicolon separated statement tail followed by the
closing brace. -/
theorem stmtTailHead (ss : List Node) {s : List Token}
    (h : s.head? = some .rbrace) :
    (fmtTail .semicolon ss ++ s).head? = some .semicolon ∨
    (fmtTail .semicolon ss ++ s).head? = some .rbrace := by
  cases ss with
  | nil => simp [fmtTail, h]
  | cons e es' => simp [fmtTail]

theorem stmtTailBound (b : Nat) (ss : List Node) {s : List Token}
    (h : s.head? = some .rbrace) :
    headBound b (fmtTail .semicolon ss ++ s) = true := by
  rcases stmtTailHead ss h with h' | h' <;>
    obtain ⟨tl, htl⟩ := head_eq_cons h' <;> rw [htl] <;>
      exact headBound_stop rfl



theorem exprStart_shape2 {x : Token} (h : exprStart x = true) :
    x ≠ .kwReturn ∧ x ≠ .kwThrow := by
  cases x <;> simp_all [exprStart, elementStart]

/-- The association rule succeeds on an element key, the colon, and a
token stream on which the expression rule returns the value. -/
theorem parseAssociation_ok {kty : NodeType} {kv : String} {v : Node}
    {s : List Token} {fuel : Nat}
    (hk : isElementTerminal (.terminal kty kv) = true)
    (hv : parseExpr fuel 0 (fmtToks v ++ s) = .ok (v, s)) :
    parseAssociation (fuel + 1)
      (terminalToken kty kv :: .colon :: (fmtToks v ++ s)) =
      .ok (.tree .ASSOCIATION none
        [.tree .COMPONENT none [.terminal kty kv], v], s) := by
  have hel : elementStart (terminalToken kty kv) = true :=
    elementStart_terminalToken hk
  have hpe := @parseElement_fmt kty kv (.colon :: (fmtToks v ++ s)) hk
  simp [parseAssociation, hel, hpe, hv]

/-- The composite rule recognizes an inline array when the association
probe fails, the expression rule consumes the first item, and no range
dots follow. -/
theorem parseComposite_asList {fuel : Nat} {ts r1 r2 : List Token}
    {x : Token} {e : Node} {es : List Node}
    (hhead : ts.head? = some x)
    (h1 : x ≠ .colon) (h2 : x ≠ .rbracket) (h3 : x ≠ .rparen)
    (h4 : x ≠ .newline)
    (hprobe : ∃ er, parseAssociation fuel ts = .error er)
    (hexpr : parseExpr fuel 0 ts = .ok (e, r1))
    (hr1 : r1.head? ≠ some .ddot)
    (hmore : parseMoreExprs fuel r1 = .ok (es, r2)) :
    parseComposite (fuel + 1) ts = .ok (.tree .LIST none (e :: es), r2) := by
  obtain ⟨tl, rfl⟩ := head_eq_cons hhead
  obtain ⟨er, her⟩ := hprobe
  rw [parseComposite_dispatch h1 h2 h3 h4, her, hexpr]
  cases r1 with
  | nil => simp [hmore]
  | cons t tl' => cases t <;> simp_all [hmore]

/-- The composite rule recognizes a range when the probe fails and the
expression rule leaves the range dots after its first operand. -/
theorem parseComposite_asRange {fuel : Nat} {ts r2 r3 : List Token}
    {x : Token} {e1 e2 : Node}
    (hhead : ts.head? = some x)
    (h1 : x ≠ .colon) (h2 : x ≠ .rbracket) (h3 : x ≠ .rparen)
    (h4 : x ≠ .newline)
    (hprobe : ∃ er, parseAssociation fuel ts = .error er)
    (hexpr : parseExpr fuel 0 ts = .ok (e1, .ddot :: r2))
    (hexpr2 : parseExpr fuel 0 r2 = .ok (e2, r3)) :
    parseComposite (fuel + 1) ts = .ok (.tree .RANGE none [e1, e2], r3) := by
  obtain ⟨tl, rfl⟩ := head_eq_cons hhead
  obtain ⟨er, her⟩ := hprobe
  rw [parseComposite_dispatch h1 h2 h3 h4, her, hexpr]
  simp [hexpr2]

/-- The composite rule recognizes an inline table when the association
probe succeeds. -/
theorem parseComposite_asCatalog {fuel : Nat} {ts r1 r2 : List Token}
    {x : Token} {a : Node} {as : List Node}
    (hhead : ts.head? = some x)
    (h1 : x ≠ .colon) (h2 : x ≠ .rbracket) (h3 : x ≠ .rparen)
    (h4 : x ≠ .newline)
    (hassoc : parseAssociation fuel ts = .ok (a, r1))
    (hmore : parseMoreAssocs fuel r1 = .ok (as, r2)) :
    parseComposite (fuel + 1) ts = .ok (.tree .CATALOG none (a :: as), r2) := by
  obtain ⟨tl, rfl⟩ := head_eq_cons hhead
  rw [parseComposite_dispatch h1 h2 h3 h4, hassoc]
  simp [hmore]

/-- The array rule on a nonempty inline emission. -/
theorem parseArray_asList {fuel : Nat} {ts r1 r2 : List Token}
    {x : Token} {e : Node} {es : List Node}
    (hhead : ts.head? = some x)
    (h2 : x ≠ .rbracket) (h3 : x ≠ .rparen) (h4 : x ≠ .newline)
    (hexpr : parseExpr fuel 0 ts = .ok (e, r1))
    (hmore : parseMoreExprs fuel r1 = .ok (es, r2)) :
    parseArray (fuel + 1) ts = .ok (.tree .LIST none (e :: es), r2) := by
  obtain ⟨tl, rfl⟩ := head_eq_cons hhead
  rw [parseArray_dispatch h2 h3 h4, hexpr]
  simp [hmore]

/-- The first token of a producible statement starts a statement. -/
theorem mainHeadStart {m : Node} (hm : WfMain m) :
    ∃ x l, fmtToks m = x :: l ∧ stmtStart x = true := by
  cases hm with
  | eval e he =>
      obtain ⟨x, l, hx, hxs⟩ := fmtHeadStart he
      exact ⟨x, l, by simp [fmtToks, hx], by simp [stmtStart, hxs]⟩
  | evalR sy e he =>
      refine ⟨.symbol sy, .assign :: fmtToks e, ?_, ?_⟩
      · simp [fmtToks, terminalToken]
      · simp [stmtStart, exprStart, elementStart]
  | ret => exact ⟨.kwReturn, [], by simp [fmtToks], by simp [stmtStart]⟩
  | retE e he =>
      exact ⟨.kwReturn, fmtToks e, by simp [fmtToks], by simp [stmtStart]⟩
  | thr e he =>
      exact ⟨.kwThrow, fmtToks e, by simp [fmtToks], by simp [stmtStart]⟩




theorem arithTok_minus : arithTok "-" = Token.minus := rfl
theorem arithTok_slash : arithTok "/" = Token.slash := rfl
theorem arithTok_dslash : arithTok "//" = Token.dslash := rfl
theorem arithTok_plus : arithTok "+" = Token.plus := rfl
theorem arithTok_star : arithTok "*" = Token.star := rfl
theorem compTok_lt : compTok "<" = Token.lt := rfl
theorem compTok_eq : compTok "=" = Token.eq := rfl
theorem compTok_gt : compTok ">" = Token.gt := rfl
theorem compTok_is : compTok "is" = Token.kwIs := rfl
theorem compTok_matches : compTok "matches" = Token.kwMatches := rfl
theorem logTok_and : logTok "and" = Token.kwAnd := rfl
theorem logTok_sans : logTok "sans" = Token.kwSans := rfl
theorem logTok_xor : logTok "xor" = Token.kwXor := rfl
theorem logTok_or : logTok "or" = Token.kwOr := rfl

theorem parseMoreExprs_step {fuel : Nat} {ts r1 r2 : List Token}
    {e : Node} {es : List Node}
    (hexpr : parseExpr fuel 0 ts = .ok (e, r1))
    (hmore : parseMoreExprs fuel r1 = .ok (es, r2)) :
    parseMoreExprs (fuel + 1) (.comma :: ts) = .ok (e :: es, r2) := by
  simp [parseMoreExprs, hexpr, hmore]

theorem parseMoreAssocs_step {fuel : Nat} {ts r1 r2 : List Token}
    {a : Node} {as : List Node}
    (hassoc : parseAssociation fuel ts = .ok (a, r1))
    (hmore : parseMoreAssocs fuel r1 = .ok (as, r2)) :
    parseMoreAssocs (fuel + 1) (.comma :: ts) = .ok (a :: as, r2) := by
  simp [parseMoreAssocs, hassoc, hmore]

theorem parseStatement_step {fuel : Nat} {ts r : List Token} {m : Node}
    (h : parseMainClause fuel ts = .ok (m, r)) :
    parseStatement (fuel + 1) ts = .ok (.tree .STATEMENT none [m], r) := by
  simp [parseStatement, h]

theorem parseMoreStmts_step {fuel : Nat} {ts r1 r2 : List Token}
    {st : Node} {ss : List Node}
    (hstmt : parseStatement fuel ts = .ok (st, r1))
    (hmore : parseMoreStmts fuel r1 = .ok (ss, r2)) :
    parseMoreStmts (fuel + 1) (.semicolon :: ts) = .ok (st :: ss, r2) := by
  simp [parseMoreStmts, hstmt, hmore]

theorem parseProcedure_asCons {fuel : Nat} {rest r1 r2 : List Token}
    {x : Token} {s1 : Node} {ss : List Node}
    (h1 : x ≠ .rbrace) (h2 : x ≠ .newline)
    (hst : parseStatement fuel (x :: rest) = .ok (s1, r1))
    (hmore : parseMoreStmts fuel r1 = .ok (ss, r2)) :
    parseProcedure (fuel + 1) (x :: rest) =
      .ok (.tree .PROCEDURE none (s1 :: ss), r2) := by
  rw [parseProcedure_dispatch h1 h2, hst]
  simp [hmore]

mutual

/-- Completeness of the expression rule on canonical emissions: parsing
the emission of a producible expression at its level consumes exactly
the emission and leaves the continuation loop on the accumulated node,
with bounded fuel spent. -/
theorem auxExpr : ∀ {p : Nat} {e : Node}, WfExpr p e →
    ∀ (s : List Token) (fuel : Nat),
    headBound (contBound e) s = true → weight e + 16 ≤ fuel →
    ∃ f', fuel ≤ f' + weight e ∧
      parseExpr fuel p (fmtToks e ++ s) = parseLoop f' p e s
  | _, _, .var p v, s, fuel, hb, hf => by
      simp only [weight] at hf
      obtain ⟨f, rfl⟩ : ∃ f, fuel = f + 1 := ⟨fuel - 1, by omega⟩
      obtain ⟨f₂, rfl⟩ : ∃ g, f = g + 1 := ⟨f - 1, by omega⟩
      have hlp : ∀ r', s ≠ .lparen :: r' := by
        intro r' hcons
        rw [hcons] at hb
        simp [headBound, contLevel, stopTok] at hb
      refine ⟨f₂ + 1, by simp only [weight]; omega, ?_⟩
      simp only [fmtToks, terminalToken, List.cons_append, List.nil_append]
      simp only [parseExpr]
      rw [parsePrimary_var hlp]
  | _, _, .comp p st hst, s, fuel, hb, hf => by
      simp only [weight, weightList] at hf
      obtain ⟨f, rfl⟩ : ∃ f, fuel = f + 1 := ⟨fuel - 1, by omega⟩
      obtain ⟨f₂, rfl⟩ : ∃ g, f = g + 1 := ⟨f - 1, by omega⟩
      have hdisp : parsePrimary (f₂ + 1) (fmtToks st ++ s) =
          parseComponent f₂ (fmtToks st ++ s) := by
        cases hst with
        | elem ty v he =>
            simp only [fmtToks, List.cons_append, List.nil_append]
            exact parsePrimary_elem (elementStart_terminalToken he)
        | struct c hc => simp [fmtToks, parsePrimary]
        | block pr hpr => simp [fmtToks, parsePrimary]
      have hcs : parseComponent f₂ (fmtToks st ++ s) =
          .ok (.tree .COMPONENT none [st], s) :=
        compState hst s f₂ (by omega)
      refine ⟨f₂ + 1, by simp only [weight, weightList]; omega, ?_⟩
      have hfm : fmtToks (.tree .COMPONENT none [st]) = fmtToks st := by
        simp [fmtToks]
      rw [hfm]
      simp only [parseExpr]
      rw [hdisp, hcs]
  | _, _, .arith p o l r ho hp hcb hl hr, s, fuel, hb, hf => by
      simp only [weight, weightList] at hf
      simp only [contBound] at hb
      obtain ⟨f₁, hle, heq⟩ := auxExpr hl (arithTok o :: (fmtToks r ++ s)) fuel
        (by rcases arithOp_cases ho with rfl | rfl | rfl | rfl | rfl <;>
              (simp [headBound, arithTok, contLevel, decide_eq_true_eq]
               omega))
        (by omega)
      obtain ⟨g, rfl⟩ : ∃ g, f₁ = g + 1 := ⟨f₁ - 1, by omega⟩
      have hrq : parseExpr g 7 (fmtToks r ++ s) = .ok (r, s) := by
        obtain ⟨f₂, hle2, heq2⟩ := auxExpr hr s g
          (headBound_mono (min_le_right 7 (contBound r)) hb) (by omega)
        obtain ⟨q, rfl⟩ : ∃ q, f₂ = q + 1 := ⟨f₂ - 1, by omega⟩
        rw [heq2, parseLoop_exit
          (headBound_mono (min_le_left 7 (contBound r)) hb)]
      refine ⟨g, by simp only [weight, weightList]; omega, ?_⟩
      simp only [fmtToks, List.append_assoc, List.cons_append]
      rw [heq]
      rcases arithOp_cases ho with rfl | rfl | rfl | rfl | rfl <;>
        (simp only [arithTok_minus, arithTok_slash, arithTok_dslash,
           arithTok_plus, arithTok_star, parseLoop]
         rw [if_pos hp, hrq])
  | _, _, .cmp p o l r ho hp hcb hl hr, s, fuel, hb, hf => by
      simp only [weight, weightList] at hf
      simp only [contBound] at hb
      obtain ⟨f₁, hle, heq⟩ := auxExpr hl (compTok o :: (fmtToks r ++ s)) fuel
        (by rcases compOp_cases ho with rfl | rfl | rfl | rfl | rfl <;>
              (simp [headBound, compTok, contLevel, decide_eq_true_eq]
               omega))
        (by omega)
      obtain ⟨g, rfl⟩ : ∃ g, f₁ = g + 1 := ⟨f₁ - 1, by omega⟩
      have hrq : parseExpr g 5 (fmtToks r ++ s) = .ok (r, s) := by
        obtain ⟨f₂, hle2, heq2⟩ := auxExpr hr s g
          (headBound_mono (min_le_right 5 (contBound r)) hb) (by omega)
        obtain ⟨q, rfl⟩ : ∃ q, f₂ = q + 1 := ⟨f₂ - 1, by omega⟩
        rw [heq2, parseLoop_exit
          (headBound_mono (min_le_left 5 (contBound r)) hb)]
      refine ⟨g, by simp only [weight, weightList]; omega, ?_⟩
      simp only [fmtToks, List.append_assoc, List.cons_append]
      rw [heq]
      rcases compOp_cases ho with rfl | rfl | rfl | rfl | rfl <;>
        (simp only [compTok_lt, compTok_eq, compTok_gt, compTok_is,
           compTok_matches, parseLoop]
         rw [if_pos hp, hrq])
  | _, _, .logic p o l r ho hp hcb hl hr, s, fuel, hb, hf => by
      simp only [weight, weightList] at hf
      simp only [contBound] at hb
      obtain ⟨f₁, hle, heq⟩ := auxExpr hl (logTok o :: (fmtToks r ++ s)) fuel
        (by rcases logOp_cases ho with rfl | rfl | rfl | rfl <;>
              (simp [headBound, logTok, contLevel, decide_eq_true_eq]
               omega))
        (by omega)
      obtain ⟨g, rfl⟩ : ∃ g, f₁ = g + 1 := ⟨f₁ - 1, by omega⟩
      have hrq : parseExpr g 3 (fmtToks r ++ s) = .ok (r, s) := by
        obtain ⟨f₂, hle2, heq2⟩ := auxExpr hr s g
          (headBound_mono (min_le_right 3 (contBound r)) hb) (by omega)
        obtain ⟨q, rfl⟩ : ∃ q, f₂ = q + 1 := ⟨f₂ - 1, by omega⟩
        rw [heq2, parseLoop_exit
          (headBound_mono (min_le_left 3 (contBound r)) hb)]
      refine ⟨g, by simp only [weight, weightList]; omega, ?_⟩
      simp only [fmtToks, List.append_assoc, List.cons_append]
      rw [heq]
      rcases logOp_cases ho with rfl | rfl | rfl | rfl <;>
        (simp only [logTok_and, logTok_sans, logTok_xor, logTok_or,
           parseLoop]
         rw [if_pos hp, hrq])
  | _, _, .dflt p l r hp hcb hl hr, s, fuel, hb, hf => by
      simp only [weight, weightList] at hf
      simp only [contBound] at hb
      obtain ⟨f₁, hle, heq⟩ := auxExpr hl (.question :: (fmtToks r ++ s)) fuel
        (by simp [headBound, contLevel, decide_eq_true_eq]; omega)
        (by omega)
      obtain ⟨g, rfl⟩ : ∃ g, f₁ = g + 1 := ⟨f₁ - 1, by omega⟩
      have hrq : parseExpr g 2 (fmtToks r ++ s) = .ok (r, s) := by
        obtain ⟨f₂, hle2, heq2⟩ := auxExpr hr s g
          (headBound_mono (min_le_right 2 (contBound r)) hb) (by omega)
        obtain ⟨q, rfl⟩ : ∃ q, f₂ = q + 1 := ⟨f₂ - 1, by omega⟩
        rw [heq2, parseLoop_exit
          (headBound_mono (min_le_left 2 (contBound r)) hb)]
      refine ⟨g, by simp only [weight, weightList]; omega, ?_⟩
      simp only [fmtToks, List.append_assoc, List.cons_append]
      rw [heq]
      simp only [parseLoop]
      rw [if_pos hp, hrq]
  | _, _, .expo p l r hp hcb hl hr, s, fuel, hb, hf => by
      simp only [weight, weightList] at hf
      simp only [contBound] at hb
      obtain ⟨f₁, hle, heq⟩ := auxExpr hl (.caret :: (fmtToks r ++ s)) fuel
        (by simp [headBound, contLevel, decide_eq_true_eq]; omega)
        (by omega)
      obtain ⟨g, rfl⟩ : ∃ g, f₁ = g + 1 := ⟨f₁ - 1, by omega⟩
      have hrq : parseExpr g 8 (fmtToks r ++ s) = .ok (r, s) := by
        obtain ⟨f₂, hle2, heq2⟩ := auxExpr hr s g
          (headBound_mono (min_le_right 8 (contBound r)) hb) (by omega)
        obtain ⟨q, rfl⟩ : ∃ q, f₂ = q + 1 := ⟨f₂ - 1, by omega⟩
        rw [heq2, parseLoop_exit
          (headBound_mono (min_le_left 8 (contBound r)) hb)]
      refine ⟨g, by simp only [weight, weightList]; omega, ?_⟩
      simp only [fmtToks, List.append_assoc, List.cons_append]
      rw [heq]
      simp only [parseLoop]
      rw [if_pos hp, hrq]
  | _, _, .fact p l hp hcb hl, s, fuel, hb, hf => by
      simp only [weight, weightList] at hf
      obtain ⟨f₁, hle, heq⟩ := auxExpr hl (.bang :: s) fuel
        (by simp [headBound, contLevel, decide_eq_true_eq]; omega)
        (by omega)
      obtain ⟨g, rfl⟩ : ∃ g, f₁ = g + 1 := ⟨f₁ - 1, by omega⟩
      refine ⟨g, by simp only [weight, weightList]; omega, ?_⟩
      simp only [fmtToks, List.append_assoc, List.cons_append,
        List.nil_append]
      rw [heq]
      simp only [parseLoop]
      rw [if_pos hp]
  | _, _, .msg p l m ps hp hcb hl hps, s, fuel, hb, hf => by
      simp only [weight, weightList] at hf
      obtain ⟨f₁, hle, heq⟩ :=
        auxExpr hl (.dot :: .identifier m :: (fmtToks ps ++ s)) fuel
          (by simp [headBound, contLevel, decide_eq_true_eq]; omega)
          (by omega)
      obtain ⟨g, rfl⟩ : ∃ g, f₁ = g + 1 := ⟨f₁ - 1, by omega⟩
      have hpq : parseParameters g (fmtToks ps ++ s) = .ok (ps, s) :=
        compParameters hps s g (by omega)
      refine ⟨g, by simp only [weight, weightList]; omega, ?_⟩
      simp only [fmtToks, List.append_assoc, List.cons_append]
      rw [heq]
      simp only [parseLoop]
      rw [if_pos hp, hpq]
  | _, _, .subc p l idx hp hcb hl hidx, s, fuel, hb, hf => by
      simp only [weight, weightList] at hf
      have hhd : ∃ rest, fmtToks idx = .lbracket :: rest := by
        cases hidx with
        | mk es hes =>
            exact ⟨fmtSeq .comma es ++ [.rbracket], by simp [fmtToks]⟩
      obtain ⟨rest, hrest⟩ := hhd
      obtain ⟨f₁, hle, heq⟩ := auxExpr hl (fmtToks idx ++ s) fuel
        (by rw [hrest]
            simp [headBound, contLevel, decide_eq_true_eq]; omega)
        (by omega)
      obtain ⟨g, rfl⟩ : ∃ g, f₁ = g + 1 := ⟨f₁ - 1, by omega⟩
      have hiq : parseIndices g (fmtToks idx ++ s) = .ok (idx, s) :=
        compIndices hidx s g (by omega)
      refine ⟨g, by simp only [weight, weightList]; omega, ?_⟩
      have hfm : fmtToks (.tree .SUBCOMPONENT_EXPRESSION none [l, idx]) ++ s =
          fmtToks l ++ (fmtToks idx ++ s) := by
        simp [fmtToks]
      rw [hfm, heq, hrest, List.cons_append]
      simp only [parseLoop]
      rw [if_pos hp]
      rw [← List.cons_append, ← hrest, hiq]
  | _, _, .fn p f ps hps, s, fuel, hb, hf => by
      simp only [weight, weightList] at hf
      obtain ⟨f1, rfl⟩ : ∃ a, fuel = a + 1 := ⟨fuel - 1, by omega⟩
      obtain ⟨f₂, rfl⟩ : ∃ b, f1 = b + 1 := ⟨f1 - 1, by omega⟩
      have hpq : parseParameters f₂ (fmtToks ps ++ s) = .ok (ps, s) :=
        compParameters hps s f₂ (by omega)
      refine ⟨f₂ + 1, by simp only [weight, weightList]; omega, ?_⟩
      cases hps with
      | mk c hc =>
        have hfm : fmtToks (.tree .FUNCTION_EXPRESSION none
            [.terminal .FUNCTION f, .tree .PARAMETERS none [c]]) ++ s =
            .identifier f :: .lparen ::
              (fmtToks c ++ (.rparen :: s)) := by
          simp [fmtToks, List.append_assoc]
        rw [hfm]
        simp only [parseExpr, parsePrimary, List.drop_succ_cons,
          List.drop_zero]
        have hps2 : fmtToks (.tree .PARAMETERS none [c]) ++ s =
            .lparen :: (fmtToks c ++ (.rparen :: s)) := by
          simp [fmtToks, List.append_assoc]
        rw [← hps2, hpq]
  | _, _, .inv p o x ho hx, s, fuel, hb, hf => by
      simp only [weight, weightList] at hf
      simp only [contBound] at hb
      obtain ⟨f1, rfl⟩ : ∃ a, fuel = a + 1 := ⟨fuel - 1, by omega⟩
      obtain ⟨f₂, rfl⟩ : ∃ b, f1 = b + 1 := ⟨f1 - 1, by omega⟩
      have hxq : parseExpr f₂ 7 (fmtToks x ++ s) = .ok (x, s) := by
        obtain ⟨f₃, hle3, heq3⟩ := auxExpr hx s f₂
          (headBound_mono (min_le_right 7 (contBound x)) hb) (by omega)
        obtain ⟨q, rfl⟩ : ∃ q, f₃ = q + 1 := ⟨f₃ - 1, by omega⟩
        rw [heq3, parseLoop_exit
          (headBound_mono (min_le_left 7 (contBound x)) hb)]
      refine ⟨f₂ + 1, by simp only [weight, weightList]; omega, ?_⟩
      rcases invOp_cases ho with rfl | rfl | rfl <;>
        (simp only [fmtToks, arithTok_minus, arithTok_slash, arithTok_star,
           List.cons_append]
         simp only [parseExpr, parsePrimary]
         rw [hxq])
  | _, _, .compl p x hx, s, fuel, hb, hf => by
      simp only [weight, weightList] at hf
      simp only [contBound] at hb
      obtain ⟨f1, rfl⟩ : ∃ a, fuel = a + 1 := ⟨fuel - 1, by omega⟩
      obtain ⟨f₂, rfl⟩ : ∃ b, f1 = b + 1 := ⟨f1 - 1, by omega⟩
      have hxq : parseExpr f₂ 3 (fmtToks x ++ s) = .ok (x, s) := by
        obtain ⟨f₃, hle3, heq3⟩ := auxExpr hx s f₂
          (headBound_mono (min_le_right 3 (contBound x)) hb) (by omega)
        obtain ⟨q, rfl⟩ : ∃ q, f₃ = q + 1 := ⟨f₃ - 1, by omega⟩
        rw [heq3, parseLoop_exit
          (headBound_mono (min_le_left 3 (contBound x)) hb)]
      refine ⟨f₂ + 1, by simp only [weight, weightList]; omega, ?_⟩
      simp only [fmtToks, List.cons_append]
      simp only [parseExpr, parsePrimary]
      rw [hxq]
  | _, _, .deref p x hx, s, fuel, hb, hf => by
      simp only [weight, weightList] at hf
      simp only [contBound] at hb
      obtain ⟨f1, rfl⟩ : ∃ a, fuel = a + 1 := ⟨fuel - 1, by omega⟩
      obtain ⟨f₂, rfl⟩ : ∃ b, f1 = b + 1 := ⟨f1 - 1, by omega⟩
      have hxq : parseExpr f₂ 12 (fmtToks x ++ s) = .ok (x, s) := by
        obtain ⟨f₃, hle3, heq3⟩ := auxExpr hx s f₂
          (headBound_mono (min_le_right 12 (contBound x)) hb) (by omega)
        obtain ⟨q, rfl⟩ : ∃ q, f₃ = q + 1 := ⟨f₃ - 1, by omega⟩
        rw [heq3, parseLoop_exit
          (headBound_mono (min_le_left 12 (contBound x)) hb)]
      refine ⟨f₂ + 1, by simp only [weight, weightList]; omega, ?_⟩
      simp only [fmtToks, List.cons_append]
      simp only [parseExpr, parsePrimary]
      rw [hxq]
  | _, _, .prec p x hx, s, fuel, hb, hf => by
      simp only [weight, weightList] at hf
      obtain ⟨f1, rfl⟩ : ∃ a, fuel = a + 1 := ⟨fuel - 1, by omega⟩
      obtain ⟨f₂, rfl⟩ : ∃ b, f1 = b + 1 := ⟨f1 - 1, by omega⟩
      have hxq : parseExpr f₂ 0 (fmtToks x ++ (.rparen :: s)) =
          .ok (x, .rparen :: s) := by
        obtain ⟨f₃, hle3, heq3⟩ := auxExpr hx (.rparen :: s) f₂
          (headBound_stop (t := Token.rparen) rfl) (by omega)
        obtain ⟨q, rfl⟩ : ∃ q, f₃ = q + 1 := ⟨f₃ - 1, by omega⟩
        rw [heq3, parseLoop_exit (headBound_stop (t := Token.rparen) rfl)]
      refine ⟨f₂ + 1, by simp only [weight, weightList]; omega, ?_⟩
      have hfm : fmtToks (.tree .PRECEDENCE_EXPRESSION none [x]) ++ s =
          .lparen :: (fmtToks x ++ (.rparen :: s)) := by
        simp [fmtToks, List.append_assoc]
      rw [hfm]
      simp only [parseExpr, parsePrimary]
      rw [hxq]
      simp [expectTok]
  | _, _, .magn p x hx, s, fuel, hb, hf => by
      simp only [weight, weightList] at hf
      obtain ⟨f1, rfl⟩ : ∃ a, fuel = a + 1 := ⟨fuel - 1, by omega⟩
      obtain ⟨f₂, rfl⟩ : ∃ b, f1 = b + 1 := ⟨f1 - 1, by omega⟩
      have hxq : parseExpr f₂ 0 (fmtToks x ++ (.bar :: s)) =
          .ok (x, .bar :: s) := by
        obtain ⟨f₃, hle3, heq3⟩ := auxExpr hx (.bar :: s) f₂
          (headBound_stop (t := Token.bar) rfl) (by omega)
        obtain ⟨q, rfl⟩ : ∃ q, f₃ = q + 1 := ⟨f₃ - 1, by omega⟩
        rw [heq3, parseLoop_exit (headBound_stop (t := Token.bar) rfl)]
      refine ⟨f₂ + 1, by simp only [weight, weightList]; omega, ?_⟩
      have hfm : fmtToks (.tree .MAGNITUDE_EXPRESSION none [x]) ++ s =
          .bar :: (fmtToks x ++ (.bar :: s)) := by
        simp [fmtToks, List.append_assoc]
      rw [hfm]
      simp only [parseExpr, parsePrimary]
      rw [hxq]
      simp [expectTok]

/-- Completeness of the component rule on canonical emissions. -/
theorem compState : ∀ {st : Node}, WfState st →
    ∀ (s : List Token) (fuel : Nat), weight st + 20 ≤ fuel →
    parseComponent fuel (fmtToks st ++ s) =
      .ok (.tree .COMPONENT none [st], s)
  | _, .elem ty v he, s, fuel, hf => by
      obtain ⟨f, rfl⟩ : ∃ f, fuel = f + 1 := ⟨fuel - 1, by omega⟩
      simp only [fmtToks, List.cons_append, List.nil_append]
      exact parseComponent_elem (elementStart_terminalToken he)
        (parseElement_fmt he)
  | _, .struct c hc, s, fuel, hf => by
      simp only [weight, weightList] at hf
      obtain ⟨f, rfl⟩ : ∃ f, fuel = f + 1 := ⟨fuel - 1, by omega⟩
      obtain ⟨f₂, rfl⟩ : ∃ g, f = g + 1 := ⟨f - 1, by omega⟩
      have hcq := compComposite hc (.rbracket :: s) f₂ (Or.inl rfl)
        (by omega)
      have hfm : fmtToks (.tree .STRUCTURE none [c]) ++ s =
          .lbracket :: (fmtToks c ++ (.rbracket :: s)) := by
        simp [fmtToks, List.append_assoc]
      rw [hfm]
      simp only [parseComponent, parseStructure]
      simp only [expectTok, if_pos]
      rw [hcq]
      simp [expectTok]
  | _, .block pr hpr, s, fuel, hf => by
      cases hpr with
      | mk ss hss =>
        simp only [weight, weightList] at hf
        obtain ⟨f, rfl⟩ : ∃ f, fuel = f + 1 := ⟨fuel - 1, by omega⟩
        obtain ⟨f₂, rfl⟩ : ∃ g, f = g + 1 := ⟨f - 1, by omega⟩
        have hpq := compProcedure hss (.rbrace :: s) f₂ rfl (by omega)
        have hfm : fmtToks (.tree .BLOCK none
            [.tree .PROCEDURE none ss]) ++ s =
            .lbrace :: (fmtSeq .semicolon ss ++ (.rbrace :: s)) := by
          simp [fmtToks, List.append_assoc]
        rw [hfm]
        simp only [parseComponent, parseBlock]
        simp only [expectTok, if_pos]
        rw [hpq]
        simp [expectTok]

/-- Completeness of the composite rule on canonical emissions, inside a
closing bracket or parenthesis context. -/
theorem compComposite : ∀ {c : Node}, WfCollection c →
    ∀ (s : List Token) (fuel : Nat),
    s.head? = some .rbracket ∨ s.head? = some .rparen →
    weight c + 22 ≤ fuel →
    parseComposite fuel (fmtToks c ++ s) = .ok (c, s)
  | _, .list _ hes, s, fuel, hrp, hf => by
      cases hes with
      | nil =>
          obtain ⟨f, rfl⟩ : ∃ f, fuel = f + 1 := ⟨fuel - 1, by omega⟩
          rcases hrp with h | h <;> obtain ⟨tl, rfl⟩ := head_eq_cons h <;>
            simp [fmtToks, fmtSeq, parseComposite]
      | cons e es' he hes' =>
          simp only [weight, weightList] at hf
          obtain ⟨f, rfl⟩ : ∃ f, fuel = f + 1 := ⟨fuel - 1, by omega⟩
          obtain ⟨x, l, hx, hxs⟩ := fmtHeadStart he
          have hsh := exprStart_shape hxs
          have hfmt : fmtToks (.tree .LIST none (e :: es')) ++ s =
              fmtToks e ++ (fmtTail .comma es' ++ s) := by
            simp [fmtToks, fmtSeq_cons]
          rw [hfmt]
          have heq : parseExpr f 0 (fmtToks e ++ (fmtTail .comma es' ++ s)) =
              .ok (e, fmtTail .comma es' ++ s) := by
            obtain ⟨f₁, hle, heq1⟩ := auxExpr he (fmtTail .comma es' ++ s) f
              (tailHeadBound _ es' hrp) (by omega)
            obtain ⟨g, rfl⟩ : ∃ g, f₁ = g + 1 := ⟨f₁ - 1, by omega⟩
            rw [heq1, parseLoop_exit (tailHeadBound _ es' hrp)]
          refine parseComposite_asList (x := x) (by simp [hx]) hsh.1 hsh.2.1
            hsh.2.2.1 hsh.2.2.2.1
            (probeFail he f _ ?_) heq ?_
            (compMoreExprs hes' s f hrp (by omega))
          · intro _ hcol
            rcases commaTailHead es' hrp with h' | h' | h' <;>
              rw [hcol] at h' <;> simp at h'
          · intro hdd
            rcases commaTailHead es' hrp with h' | h' | h' <;>
              rw [hdd] at h' <;> simp at h'
  | _, .catalog _ has, s, fuel, hrp, hf => by
      cases has with
      | nil =>
          obtain ⟨f, rfl⟩ : ∃ f, fuel = f + 1 := ⟨fuel - 1, by omega⟩
          simp [fmtToks, parseComposite]
      | cons k v as' hk hv has' =>
          simp only [weight, weightList] at hf
          obtain ⟨f, rfl⟩ : ∃ f, fuel = f + 1 := ⟨fuel - 1, by omega⟩
          obtain ⟨g, rfl⟩ : ∃ g, f = g + 1 := ⟨f - 1, by omega⟩
          cases k with
          | tree ty op cs => simp [isElementTerminal] at hk
          | terminal kty kv =>
            have hvq : parseExpr g 0
                (fmtToks v ++ (fmtTail .comma as' ++ s)) =
                .ok (v, fmtTail .comma as' ++ s) := by
              obtain ⟨f₁, hle, heq1⟩ :=
                auxExpr hv (fmtTail .comma as' ++ s) g
                  (tailHeadBound _ as' hrp) (by omega)
              obtain ⟨q, rfl⟩ : ∃ q, f₁ = q + 1 := ⟨f₁ - 1, by omega⟩
              rw [heq1, parseLoop_exit (tailHeadBound _ as' hrp)]
            have hes := elementStart_shape (elementStart_terminalToken hk)
            have hfmt : fmtToks (.tree .CATALOG none
                (.tree .ASSOCIATION none
                  [.tree .COMPONENT none [.terminal kty kv], v] :: as')) ++ s =
                terminalToken kty kv ::
                  .colon :: (fmtToks v ++ (fmtTail .comma as' ++ s)) := by
              simp [fmtToks, fmtSeq_cons, List.append_assoc]
            rw [hfmt]
            exact parseComposite_asCatalog (x := terminalToken kty kv) rfl
              hes.1 hes.2.1 hes.2.2.1 hes.2.2.2.1
              (parseAssociation_ok hk hvq)
              (compMoreAssocs has' s (g + 1) hrp (by omega))
  | _, .range a b ha hb', s, fuel, hrp, hf => by
      simp only [weight, weightList] at hf
      obtain ⟨f, rfl⟩ : ∃ f, fuel = f + 1 := ⟨fuel - 1, by omega⟩
      obtain ⟨x, l, hx, hxs⟩ := fmtHeadStart ha
      have hsh := exprStart_shape hxs
      have hfmt : fmtToks (.tree .RANGE none [a, b]) ++ s =
          fmtToks a ++ (.ddot :: (fmtToks b ++ s)) := by
        simp [fmtToks, List.append_assoc]
      rw [hfmt]
      have hbb : headBound 0 s = true := by
        rcases hrp with h | h <;> obtain ⟨tl, rfl⟩ := head_eq_cons h <;>
          exact headBound_stop rfl
      have heqa : parseExpr f 0 (fmtToks a ++ (.ddot :: (fmtToks b ++ s))) =
          .ok (a, .ddot :: (fmtToks b ++ s)) := by
        obtain ⟨f₁, hle, heq1⟩ := auxExpr ha (.ddot :: (fmtToks b ++ s)) f
          (headBound_stop (t := Token.ddot) rfl) (by omega)
        obtain ⟨g, rfl⟩ : ∃ g, f₁ = g + 1 := ⟨f₁ - 1, by omega⟩
        rw [heq1, parseLoop_exit (headBound_stop (t := Token.ddot) rfl)]
      have heqb : parseExpr f 0 (fmtToks b ++ s) = .ok (b, s) := by
        obtain ⟨f₁, hle, heq1⟩ := auxExpr hb' s f
          (headBound_mono (Nat.zero_le _) hbb) (by omega)
        obtain ⟨g, rfl⟩ : ∃ g, f₁ = g + 1 := ⟨f₁ - 1, by omega⟩
        rw [heq1, parseLoop_exit hbb]
      exact parseComposite_asRange (x := x) (by simp [hx]) hsh.1 hsh.2.1
        hsh.2.2.1 hsh.2.2.2.1
        (probeFail ha f _ (by intro _ h; simp at h)) heqa heqb

/-- Completeness of the array rule on canonical emissions. -/
theorem compArray : ∀ {es : List Node}, WfExprList es →
    ∀ (s : List Token) (fuel : Nat), s.head? = some .rbracket →
    weightList es + 30 ≤ fuel →
    parseArray fuel (fmtSeq .comma es ++ s) = .ok (.tree .LIST none es, s)
  | _, .nil, s, fuel, hrb, hf => by
      obtain ⟨f, rfl⟩ : ∃ f, fuel = f + 1 := ⟨fuel - 1, by omega⟩
      obtain ⟨tl, rfl⟩ := head_eq_cons hrb
      simp [fmtSeq, parseArray]
  | _, .cons e es' he hes', s, fuel, hrb, hf => by
      simp only [weightList] at hf
      obtain ⟨f, rfl⟩ : ∃ f, fuel = f + 1 := ⟨fuel - 1, by omega⟩
      obtain ⟨x, l, hx, hxs⟩ := fmtHeadStart he
      have hsh := exprStart_shape hxs
      have hfmt : fmtSeq .comma (e :: es') ++ s =
          fmtToks e ++ (fmtTail .comma es' ++ s) := by
        simp [fmtSeq_cons]
      rw [hfmt]
      have heq : parseExpr f 0 (fmtToks e ++ (fmtTail .comma es' ++ s)) =
          .ok (e, fmtTail .comma es' ++ s) := by
        obtain ⟨f₁, hle, heq1⟩ := auxExpr he (fmtTail .comma es' ++ s) f
          (tailHeadBound _ es' (Or.inl hrb)) (by omega)
        obtain ⟨g, rfl⟩ : ∃ g, f₁ = g + 1 := ⟨f₁ - 1, by omega⟩
        rw [heq1, parseLoop_exit (tailHeadBound _ es' (Or.inl hrb))]
      exact parseArray_asList (x := x) (by simp [hx]) hsh.2.1
        hsh.2.2.1 hsh.2.2.2.1 heq
        (compMoreExprs hes' s f (Or.inl hrb) (by omega))

/-- Completeness of the comma separated array continuation. -/
theorem compMoreExprs : ∀ {es : List Node}, WfExprList es →
    ∀ (s : List Token) (fuel : Nat),
    s.head? = some .rbracket ∨ s.head? = some .rparen →
    weightList es + 24 ≤ fuel →
    parseMoreExprs fuel (fmtTail .comma es ++ s) = .ok (es, s)
  | _, .nil, s, fuel, hrp, hf => by
      obtain ⟨f, rfl⟩ : ∃ f, fuel = f + 1 := ⟨fuel - 1, by omega⟩
      rcases hrp with h | h <;> obtain ⟨tl, rfl⟩ := head_eq_cons h <;>
        simp [fmtTail, parseMoreExprs]
  | _, .cons e es' he hes', s, fuel, hrp, hf => by
      simp only [weightList] at hf
      have hwe := weight_pos e
      obtain ⟨f, rfl⟩ : ∃ f, fuel = f + 1 := ⟨fuel - 1, by omega⟩
      have heq : parseExpr f 0 (fmtToks e ++ (fmtTail .comma es' ++ s)) =
          .ok (e, fmtTail .comma es' ++ s) := by
        obtain ⟨f₁, hle, heq1⟩ := auxExpr he (fmtTail .comma es' ++ s) f
          (tailHeadBound _ es' hrp) (by omega)
        obtain ⟨g, rfl⟩ : ∃ g, f₁ = g + 1 := ⟨f₁ - 1, by omega⟩
        rw [heq1, parseLoop_exit (tailHeadBound _ es' hrp)]
      have hfmt : fmtTail .comma (e :: es') ++ s =
          .comma :: (fmtToks e ++ (fmtTail .comma es' ++ s)) := by
        simp [fmtTail, List.append_assoc]
      rw [hfmt]
      exact parseMoreExprs_step heq (compMoreExprs hes' s f hrp (by omega))

/-- Completeness of the comma separated table continuation. -/
theorem compMoreAssocs : ∀ {as : List Node}, WfAssocList as →
    ∀ (s : List Token) (fuel : Nat),
    s.head? = some .rbracket ∨ s.head? = some .rparen →
    weightList as + 24 ≤ fuel →
    parseMoreAssocs fuel (fmtTail .comma as ++ s) = .ok (as, s)
  | _, .nil, s, fuel, hrp, hf => by
      obtain ⟨f, rfl⟩ : ∃ f, fuel = f + 1 := ⟨fuel - 1, by omega⟩
      rcases hrp with h | h <;> obtain ⟨tl, rfl⟩ := head_eq_cons h <;>
        simp [fmtTail, parseMoreAssocs]
  | _, .cons k v as' hk hv has', s, fuel, hrp, hf => by
      simp only [weightList, weight] at hf
      obtain ⟨f, rfl⟩ : ∃ f, fuel = f + 1 := ⟨fuel - 1, by omega⟩
      obtain ⟨g, rfl⟩ : ∃ g, f = g + 1 := ⟨f - 1, by omega⟩
      cases k with
      | tree ty op cs => simp [isElementTerminal] at hk
      | terminal kty kv =>
        have hvq : parseExpr g 0 (fmtToks v ++ (fmtTail .comma as' ++ s)) =
            .ok (v, fmtTail .comma as' ++ s) := by
          obtain ⟨f₁, hle, heq1⟩ := auxExpr hv (fmtTail .comma as' ++ s) g
            (tailHeadBound _ as' hrp) (by omega)
          obtain ⟨q, rfl⟩ : ∃ q, f₁ = q + 1 := ⟨f₁ - 1, by omega⟩
          rw [heq1, parseLoop_exit (tailHeadBound _ as' hrp)]
        have hfmt : fmtTail .comma (.tree .ASSOCIATION none
            [.tree .COMPONENT none [.terminal kty kv], v] :: as') ++ s =
            .comma :: (terminalToken kty kv ::
              .colon :: (fmtToks v ++ (fmtTail .comma as' ++ s))) := by
          simp [fmtTail, fmtToks, List.append_assoc]
        rw [hfmt]
        exact parseMoreAssocs_step (parseAssociation_ok hk hvq)
          (compMoreAssocs has' s (g + 1) hrp (by omega))

/-- Completeness of the parameters rule on canonical emissions. -/
theorem compParameters : ∀ {ps : Node}, WfParameters ps →
    ∀ (s : List Token) (fuel : Nat), weight ps + 16 ≤ fuel →
    parseParameters fuel (fmtToks ps ++ s) = .ok (ps, s)
  | _, .mk c hc, s, fuel, hf => by
      simp only [weight, weightList] at hf
      obtain ⟨f, rfl⟩ : ∃ f, fuel = f + 1 := ⟨fuel - 1, by omega⟩
      have hcq := compComposite hc (.rparen :: s) f (Or.inr rfl) (by omega)
      have hfm : fmtToks (.tree .PARAMETERS none [c]) ++ s =
          .lparen :: (fmtToks c ++ (.rparen :: s)) := by
        simp [fmtToks, List.append_assoc]
      rw [hfm]
      simp only [parseParameters]
      simp only [expectTok, if_pos]
      rw [hcq]
      simp [expectTok]

/-- Completeness of the indices rule on canonical emissions. -/
theorem compIndices : ∀ {idx : Node}, WfIndices idx →
    ∀ (s : List Token) (fuel : Nat), weight idx + 16 ≤ fuel →
    parseIndices fuel (fmtToks idx ++ s) = .ok (idx, s)
  | _, .mk es hes, s, fuel, hf => by
      simp only [weight, weightList] at hf
      obtain ⟨f, rfl⟩ : ∃ f, fuel = f + 1 := ⟨fuel - 1, by omega⟩
      have haq := compArray hes (.rbracket :: s) f rfl (by omega)
      have hfm : fmtToks (.tree .INDICES none [.tree .LIST none es]) ++ s =
          .lbracket :: (fmtSeq .comma es ++ (.rbracket :: s)) := by
        simp [fmtToks, List.append_assoc]
      rw [hfm]
      simp only [parseIndices]
      simp only [expectTok, if_pos]
      rw [haq]
      simp [expectTok]

/-- Completeness of the procedure rule on canonical emissions, before a
closing brace. -/
theorem compProcedure : ∀ {ss : List Node}, WfStmtList ss →
    ∀ (s : List Token) (fuel : Nat), s.head? = some .rbrace →
    weightList ss + 30 ≤ fuel →
    parseProcedure fuel (fmtSeq .semicolon ss ++ s) =
      .ok (.tree .PROCEDURE none ss, s)
  | _, .nil, s, fuel, hrb, hf => by
      obtain ⟨f, rfl⟩ : ∃ f, fuel = f + 1 := ⟨fuel - 1, by omega⟩
      obtain ⟨tl, rfl⟩ := head_eq_cons hrb
      simp [fmtSeq, parseProcedure]
  | _, .cons m ss' hm hss', s, fuel, hrb, hf => by
      simp only [weightList, weight] at hf
      obtain ⟨f, rfl⟩ : ∃ f, fuel = f + 1 := ⟨fuel - 1, by omega⟩
      obtain ⟨g, rfl⟩ : ∃ g, f = g + 1 := ⟨f - 1, by omega⟩
      obtain ⟨x, l, hx, hxs⟩ := mainHeadStart hm
      have hsh := stmtStart_shape hxs
      have hmq : parseMainClause g
          (fmtToks m ++ (fmtTail .semicolon ss' ++ s)) =
          .ok (m, fmtTail .semicolon ss' ++ s) :=
        compMain hm _ g (stmtTailHead ss' hrb) (by omega)
      have hfmt : fmtSeq .semicolon (.tree .STATEMENT none [m] :: ss') ++ s =
          fmtToks m ++ (fmtTail .semicolon ss' ++ s) := by
        simp [fmtSeq_cons, fmtToks, List.append_assoc]
      rw [hfmt, hx, List.cons_append]
      refine parseProcedure_asCons hsh.1 hsh.2 ?_
        (compMoreStmts hss' s (g + 1) hrb (by omega))
      rw [← List.cons_append, ← hx]
      exact parseStatement_step hmq

/-- Completeness of the semicolon separated procedure continuation. -/
theorem compMoreStmts : ∀ {ss : List Node}, WfStmtList ss →
    ∀ (s : List Token) (fuel : Nat), s.head? = some .rbrace →
    weightList ss + 24 ≤ fuel →
    parseMoreStmts fuel (fmtTail .semicolon ss ++ s) = .ok (ss, s)
  | _, .nil, s, fuel, hrb, hf => by
      obtain ⟨f, rfl⟩ : ∃ f, fuel = f + 1 := ⟨fuel - 1, by omega⟩
      obtain ⟨tl, rfl⟩ := head_eq_cons hrb
      simp [fmtTail, parseMoreStmts]
  | _, .cons m ss' hm hss', s, fuel, hrb, hf => by
      simp only [weightList, weight] at hf
      obtain ⟨f, rfl⟩ : ∃ f, fuel = f + 1 := ⟨fuel - 1, by omega⟩
      obtain ⟨g, rfl⟩ : ∃ g, f = g + 1 := ⟨f - 1, by omega⟩
      have hmq : parseMainClause g
          (fmtToks m ++ (fmtTail .semicolon ss' ++ s)) =
          .ok (m, fmtTail .semicolon ss' ++ s) :=
        compMain hm _ g (stmtTailHead ss' hrb) (by omega)
      have hfmt : fmtTail .semicolon (.tree .STATEMENT none [m] :: ss') ++ s =
          .semicolon :: (fmtToks m ++ (fmtTail .semicolon ss' ++ s)) := by
        simp [fmtTail, fmtToks, List.append_assoc]
      rw [hfmt]
      exact parseMoreStmts_step (parseStatement_step hmq)
        (compMoreStmts hss' s (g + 1) hrb (by omega))

/-- Completeness of the main clause alternatives on canonical
emissions, before a semicolon or closing brace. -/
theorem compMain : ∀ {m : Node}, WfMain m →
    ∀ (s : List Token) (fuel : Nat),
    s.head? = some .semicolon ∨ s.head? = some .rbrace →
    weight m + 14 ≤ fuel →
    parseMainClause fuel (fmtToks m ++ s) = .ok (m, s)
  | _, .eval e he, s, fuel, hsb, hf => by
      simp only [weight, weightList] at hf
      obtain ⟨f, rfl⟩ : ∃ f, fuel = f + 1 := ⟨fuel - 1, by omega⟩
      obtain ⟨x, l, hx, hxs⟩ := fmtHeadStart he
      have hbs : headBound 0 s = true := by
        rcases hsb with h | h <;> obtain ⟨tl, rfl⟩ := head_eq_cons h <;>
          exact headBound_stop rfl
      have heq : parseExpr f 0 (fmtToks e ++ s) = .ok (e, s) := by
        obtain ⟨f₁, hle, heq1⟩ := auxExpr he s f
          (headBound_mono (Nat.zero_le _) hbs) (by omega)
        obtain ⟨g, rfl⟩ : ∃ g, f₁ = g + 1 := ⟨f₁ - 1, by omega⟩
        rw [heq1, parseLoop_exit hbs]
      have hsym : ∀ v, x = .symbol v → (l ++ s).head? ≠ some .assign := by
        intro v hxv hassign
        cases l with
        | nil =>
            simp only [List.nil_append] at hassign
            rcases hsb with h | h <;> rw [h] at hassign <;> simp at hassign
        | cons y l' =>
            have hsnd := fmtSnd he hx (by simp [hxv, elementStart])
            simp at hassign
            exact hsnd.2 hassign
      have hfm : fmtToks (.tree .EVALUATE_CLAUSE none [e]) = fmtToks e := by
        simp [fmtToks]
      rw [hfm, hx, List.cons_append]
      rw [parseMainClause_eval (exprStart_shape2 hxs).1
        (exprStart_shape2 hxs).2 hsym]
      rw [← List.cons_append, ← hx, heq]
  | _, .evalR sy e he, s, fuel, hsb, hf => by
      simp only [weight, weightList] at hf
      obtain ⟨f, rfl⟩ : ∃ f, fuel = f + 1 := ⟨fuel - 1, by omega⟩
      have hbs : headBound 0 s = true := by
        rcases hsb with h | h <;> obtain ⟨tl, rfl⟩ := head_eq_cons h <;>
          exact headBound_stop rfl
      have heq : parseExpr f 0 (fmtToks e ++ s) = .ok (e, s) := by
        obtain ⟨f₁, hle, heq1⟩ := auxExpr he s f
          (headBound_mono (Nat.zero_le _) hbs) (by omega)
        obtain ⟨g, rfl⟩ : ∃ g, f₁ = g + 1 := ⟨f₁ - 1, by omega⟩
        rw [heq1, parseLoop_exit hbs]
      have hfm : fmtToks (.tree .EVALUATE_CLAUSE none
          [.terminal .SYMBOL sy, e]) ++ s =
          .symbol sy :: .assign :: (fmtToks e ++ s) := by
        simp [fmtToks, terminalToken, List.append_assoc]
      rw [hfm]
      simp only [parseMainClause]
      rw [heq]
  | _, .ret, s, fuel, hsb, hf => by
      obtain ⟨f, rfl⟩ : ∃ f, fuel = f + 1 := ⟨fuel - 1, by omega⟩
      rcases hsb with h | h <;> obtain ⟨tl, rfl⟩ := head_eq_cons h <;>
        simp [fmtToks, parseMainClause, exprStart, elementStart]
  | _, .retE e he, s, fuel, hsb, hf => by
      simp only [weight, weightList] at hf
      obtain ⟨f, rfl⟩ : ∃ f, fuel = f + 1 := ⟨fuel - 1, by omega⟩
      obtain ⟨x, l, hx, hxs⟩ := fmtHeadStart he
      have hbs : headBound 0 s = true := by
        rcases hsb with h | h <;> obtain ⟨tl, rfl⟩ := head_eq_cons h <;>
          exact headBound_stop rfl
      have heq : parseExpr f 0 (fmtToks e ++ s) = .ok (e, s) := by
        obtain ⟨f₁, hle, heq1⟩ := auxExpr he s f
          (headBound_mono (Nat.zero_le _) hbs) (by omega)
        obtain ⟨g, rfl⟩ : ∃ g, f₁ = g + 1 := ⟨f₁ - 1, by omega⟩
        rw [heq1, parseLoop_exit hbs]
      have hfm : fmtToks (.tree .RETURN_CLAUSE none [e]) ++ s =
          .kwReturn :: (fmtToks e ++ s) := by
        simp [fmtToks]
      rw [hfm, hx, List.cons_append]
      simp only [parseMainClause, hxs, if_true]
      rw [← List.cons_append, ← hx, heq]
  | _, .thr e he, s, fuel, hsb, hf => by
      simp only [weight, weightList] at hf
      obtain ⟨f, rfl⟩ : ∃ f, fuel = f + 1 := ⟨fuel - 1, by omega⟩
      have hbs : headBound 0 s = true := by
        rcases hsb with h | h <;> obtain ⟨tl, rfl⟩ := head_eq_cons h <;>
          exact headBound_stop rfl
      have heq : parseExpr f 0 (fmtToks e ++ s) = .ok (e, s) := by
        obtain ⟨f₁, hle, heq1⟩ := auxExpr he s f
          (headBound_mono (Nat.zero_le _) hbs) (by omega)
        obtain ⟨g, rfl⟩ : ∃ g, f₁ = g + 1 := ⟨f₁ - 1, by omega⟩
        rw [heq1, parseLoop_exit hbs]
      have hfm : fmtToks (.tree .THROW_CLAUSE none [e]) ++ s =
          .kwThrow :: (fmtToks e ++ s) := by
        simp [fmtToks]
      rw [hfm]
      simp only [parseMainClause]
      rw [heq]

end




theorem levelOK_nil (b : Nat) : levelOK b [] := by
  intro t tl ℓ h
  simp at h

theorem levelOK_100 (ts : List Token) : levelOK 100 ts := by
  intro t tl ℓ _ hl
  cases t <;> simp [contLevel] at hl <;> omega

theorem levelOK_none {t : Token} (h : contLevel t = none)
    (b : Nat) (tl : List Token) : levelOK b (t :: tl) := by
  intro t' tl' ℓ heq hl
  injection heq with h1 _
  rw [← h1, h] at hl
  simp at hl

/-- Soundness of the element rule: every produced node is an element
terminal. -/
theorem sndElement {ts r : List Token} {el : Node}
    (h : parseElement ts = .ok (el, r)) :
    ∃ ty v, el = .terminal ty v ∧
      isElementTerminal (.terminal ty v) = true := by
  cases ts with
  | nil => simp [parseElement] at h
  | cons t rest =>
      cases t <;> simp [parseElement] at h <;>
        (obtain ⟨rfl, rfl⟩ := h
         exact ⟨_, _, rfl, by simp [isElementTerminal]⟩)



theorem parseComponent_gen {fuel : Nat} {x : Token} {rest : List Token}
    (h1 : x ≠ .lbracket) (h2 : x ≠ .lbrace) :
    parseComponent (fuel + 1) (x :: rest) =
      (if elementStart x then
        match parseElement (x :: rest) with
        | .ok (el, r) => .ok (.tree .COMPONENT none [el], r)
        | .error e => .error e
       else .error (.unexpected (some x))) := by
  cases x <;> simp_all <;> rfl

theorem parseMoreExprs_gen {fuel : Nat} {x : Token} {rest : List Token}
    (h : x ≠ .comma) :
    parseMoreExprs (fuel + 1) (x :: rest) = .ok ([], x :: rest) := by
  cases x <;> simp_all <;> rfl

theorem parseMoreAssocs_gen {fuel : Nat} {x : Token} {rest : List Token}
    (h : x ≠ .comma) :
    parseMoreAssocs (fuel + 1) (x :: rest) = .ok ([], x :: rest) := by
  cases x <;> simp_all <;> rfl

theorem parseMoreStmts_gen {fuel : Nat} {x : Token} {rest : List Token}
    (h : x ≠ .semicolon) :
    parseMoreStmts (fuel + 1) (x :: rest) = .ok ([], x :: rest) := by
  cases x <;> simp_all <;> rfl



theorem parsePrimary_nil (fuel : Nat) :
    ∃ er, parsePrimary fuel [] = .error er := by
  cases fuel with
  | zero => exact ⟨.noFuel, rfl⟩
  | succ f => exact ⟨.unexpected none, rfl⟩

theorem parseExpr_nil (fuel p : Nat) :
    ∃ er, parseExpr fuel p [] = .error er := by
  cases fuel with
  | zero => exact ⟨.noFuel, rfl⟩
  | succ f =>
      obtain ⟨er, her⟩ := parsePrimary_nil f
      exact ⟨er, by simp [parseExpr, her]⟩

theorem parseAssociation_nil (fuel : Nat) :
    ∃ er, parseAssociation fuel [] = .error er := by
  cases fuel with
  | zero => exact ⟨.noFuel, rfl⟩
  | succ f => exact ⟨.unexpected none, rfl⟩

theorem parseMainClause_nil (fuel : Nat) :
    ∃ er, parseMainClause fuel [] = .error er := by
  cases fuel with
  | zero => exact ⟨.noFuel, rfl⟩
  | succ f =>
      obtain ⟨er, her⟩ := parseExpr_nil f 0
      exact ⟨er, by simp [parseMainClause, her]⟩

theorem parseStatement_nil (fuel : Nat) :
    ∃ er, parseStatement fuel [] = .error er := by
  cases fuel with
  | zero => exact ⟨.noFuel, rfl⟩
  | succ f =>
      obtain ⟨er, her⟩ := parseMainClause_nil f
      exact ⟨er, by simp [parseStatement, her]⟩

mutual

/-- Soundness of the component rule: every produced tree wraps a
producible state. -/
theorem sndComponent : ∀ (fuel : Nat) (ts : List Token) (t : Node)
    (r : List Token), parseComponent fuel ts = .ok (t, r) →
    ∃ st, t = .tree .COMPONENT none [st] ∧ WfState st
  | 0, ts, t, r, h => by simp [parseComponent] at h
  | fuel + 1, ts, t, r, h => by
      cases ts with
      | nil => simp [parseComponent] at h
      | cons tk tl =>
          rcases eq_or_ne tk .lbracket with rfl | h1
          · simp only [parseComponent] at h
            split at h
            · next st r1 hst =>
                simp only [Except.ok.injEq, Prod.mk.injEq] at h
                obtain ⟨rfl, rfl⟩ := h
                obtain ⟨c, rfl, hc⟩ := sndStructure fuel _ st r1 hst
                exact ⟨_, rfl, .struct c hc⟩
            · simp at h
          rcases eq_or_ne tk .lbrace with rfl | h2
          · simp only [parseComponent] at h
            split at h
            · next st r1 hst =>
                simp only [Except.ok.injEq, Prod.mk.injEq] at h
                obtain ⟨rfl, rfl⟩ := h
                obtain ⟨pr, rfl, hpr⟩ := sndBlock fuel _ st r1 hst
                exact ⟨_, rfl, .block pr hpr⟩
            · simp at h
          rw [parseComponent_gen h1 h2] at h
          split at h
          · split at h
            · next el r1 hel =>
                simp only [Except.ok.injEq, Prod.mk.injEq] at h
                obtain ⟨rfl, rfl⟩ := h
                obtain ⟨ty, v, rfl, hty⟩ := sndElement hel
                exact ⟨_, rfl, .elem ty v hty⟩
            · simp at h
          · simp at h

theorem sndStructure : ∀ (fuel : Nat) (ts : List Token) (t : Node)
    (r : List Token), parseStructure fuel ts = .ok (t, r) →
    ∃ c, t = .tree .STRUCTURE none [c] ∧ WfCollection c
  | 0, ts, t, r, h => by simp [parseStructure] at h
  | fuel + 1, ts, t, r, h => by
      simp only [parseStructure] at h
      split at h
      · simp at h
      · split at h
        · simp at h
        · next c r1 hc =>
            split at h
            · simp at h
            · simp only [Except.ok.injEq, Prod.mk.injEq] at h
              obtain ⟨rfl, rfl⟩ := h
              exact ⟨c, rfl, sndComposite fuel _ c r1 hc⟩

theorem sndBlock : ∀ (fuel : Nat) (ts : List Token) (t : Node)
    (r : List Token), parseBlock fuel ts = .ok (t, r) →
    ∃ pr, t = .tree .BLOCK none [pr] ∧ WfProcedure pr
  | 0, ts, t, r, h => by simp [parseBlock] at h
  | fuel + 1, ts, t, r, h => by
      simp only [parseBlock] at h
      split at h
      · simp at h
      · split at h
        · simp at h
        · next pr r1 hpr =>
            split at h
            · simp at h
            · simp only [Except.ok.injEq, Prod.mk.injEq] at h
              obtain ⟨rfl, rfl⟩ := h
              obtain ⟨ss, rfl, hss⟩ := sndProcedure fuel _ pr r1 hpr
              exact ⟨_, rfl, .mk ss hss⟩

theorem sndComposite : ∀ (fuel : Nat) (ts : List Token) (c : Node)
    (r : List Token), parseComposite fuel ts = .ok (c, r) →
    WfCollection c
  | 0, ts, c, r, h => by simp [parseComposite] at h
  | fuel + 1, ts, c, r, h => by
      cases ts with
      | nil =>
          obtain ⟨er1, her1⟩ := parseAssociation_nil fuel
          obtain ⟨er2, her2⟩ := parseExpr_nil fuel 0
          simp [parseComposite, her1, her2] at h
      | cons t tl =>
        rcases eq_or_ne t .colon with rfl | h1
        · simp only [parseComposite] at h
          simp only [Except.ok.injEq, Prod.mk.injEq] at h
          obtain ⟨rfl, rfl⟩ := h
          exact .catalog [] .nil
        rcases eq_or_ne t .rbracket with rfl | h2
        · simp only [parseComposite] at h
          simp only [Except.ok.injEq, Prod.mk.injEq] at h
          obtain ⟨rfl, rfl⟩ := h
          exact .list [] .nil
        rcases eq_or_ne t .rparen with rfl | h3
        · simp only [parseComposite] at h
          simp only [Except.ok.injEq, Prod.mk.injEq] at h
          obtain ⟨rfl, rfl⟩ := h
          exact .list [] .nil
        rcases eq_or_ne t .newline with rfl | h4
        · simp only [parseComposite] at h
          split at h
          · split at h
            · next as r1 hna =>
                simp only [Except.ok.injEq, Prod.mk.injEq] at h
                obtain ⟨rfl, rfl⟩ := h
                exact .catalog as (sndNewlineAssocs fuel _ as r1 hna)
            · simp at h
          · split at h
            · next es r1 hne =>
                simp only [Except.ok.injEq, Prod.mk.injEq] at h
                obtain ⟨rfl, rfl⟩ := h
                exact .list es (sndNewlineExprs fuel _ es r1 hne)
            · simp at h
        rw [parseComposite_dispatch h1 h2 h3 h4] at h
        split at h
        · next a r1 ha =>
            split at h
            · next as r2 hma =>
                simp only [Except.ok.injEq, Prod.mk.injEq] at h
                obtain ⟨rfl, rfl⟩ := h
                obtain ⟨k, v, rfl, hk, hv⟩ := sndAssociation fuel _ a r1 ha
                exact .catalog _ (.cons k v _ hk hv
                  (sndMoreAssocs fuel r1 _ r2 hma))
            · simp at h
        · split at h
          · simp at h
          · next e1 r1 hpe =>
              split at h
              · next r2 =>
                  split at h
                  · next e2 r3 hpe2 =>
                      simp only [Except.ok.injEq, Prod.mk.injEq] at h
                      obtain ⟨rfl, rfl⟩ := h
                      exact .range e1 e2 (sndExpr fuel 0 _ e1 _ hpe).1
                        (sndExpr fuel 0 r2 e2 r3 hpe2).1
                  · simp at h
              · split at h
                · next es r2 hme =>
                    simp only [Except.ok.injEq, Prod.mk.injEq] at h
                    obtain ⟨rfl, rfl⟩ := h
                    exact .list _ (.cons e1 es (sndExpr fuel 0 _ e1 r1 hpe).1
                      (sndMoreExprs fuel r1 es r2 hme))
                · simp at h

theorem sndArray : ∀ (fuel : Nat) (ts : List Token) (t : Node)
    (r : List Token), parseArray fuel ts = .ok (t, r) →
    ∃ es, t = .tree .LIST none es ∧ WfExprList es
  | 0, ts, t, r, h => by simp [parseArray] at h
  | fuel + 1, ts, t, r, h => by
      cases ts with
      | nil =>
          obtain ⟨er2, her2⟩ := parseExpr_nil fuel 0
          simp [parseArray, her2] at h
      | cons tk tl =>
        rcases eq_or_ne tk .rbracket with rfl | h2
        · simp only [parseArray] at h
          simp only [Except.ok.injEq, Prod.mk.injEq] at h
          obtain ⟨rfl, rfl⟩ := h
          exact ⟨[], rfl, .nil⟩
        rcases eq_or_ne tk .rparen with rfl | h3
        · simp only [parseArray] at h
          simp only [Except.ok.injEq, Prod.mk.injEq] at h
          obtain ⟨rfl, rfl⟩ := h
          exact ⟨[], rfl, .nil⟩
        rcases eq_or_ne tk .newline with rfl | h4
        · simp only [parseArray] at h
          split at h
          · next es r1 hne =>
              simp only [Except.ok.injEq, Prod.mk.injEq] at h
              obtain ⟨rfl, rfl⟩ := h
              exact ⟨es, rfl, sndNewlineExprs fuel _ es r1 hne⟩
          · simp at h
        rw [parseArray_dispatch h2 h3 h4] at h
        split at h
        · simp at h
        · next e1 r1 hpe =>
            split at h
            · next es r2 hme =>
                simp only [Except.ok.injEq, Prod.mk.injEq] at h
                obtain ⟨rfl, rfl⟩ := h
                exact ⟨_, rfl, .cons e1 es (sndExpr fuel 0 _ e1 r1 hpe).1
                  (sndMoreExprs fuel r1 es r2 hme)⟩
            · simp at h

theorem sndAssociation : ∀ (fuel : Nat) (ts : List Token) (t : Node)
    (r : List Token), parseAssociation fuel ts = .ok (t, r) →
    ∃ k v, t = .tree .ASSOCIATION none
        [.tree .COMPONENT none [k], v] ∧
      isElementTerminal k = true ∧ WfExpr 0 v
  | 0, ts, t, r, h => by simp [parseAssociation] at h
  | fuel + 1, ts, t, r, h => by
      cases ts with
      | nil => simp [parseAssociation] at h
      | cons tk tl =>
          simp only [parseAssociation] at h
          split at h
          · split at h
            · simp at h
            · next el r1 hel =>
                split at h
                · next r2 =>
                    split at h
                    · next v r3 hv =>
                        simp only [Except.ok.injEq, Prod.mk.injEq] at h
                        obtain ⟨rfl, rfl⟩ := h
                        obtain ⟨ty, vv, rfl, hty⟩ := sndElement hel
                        exact ⟨_, v, rfl, hty, (sndExpr fuel 0 r2 v r3 hv).1⟩
                    · simp at h
                · simp at h
                · simp at h
          · simp at h

theorem sndMoreAssocs : ∀ (fuel : Nat) (ts : List Token)
    (as : List Node) (r : List Token),
    parseMoreAssocs fuel ts = .ok (as, r) → WfAssocList as
  | 0, ts, as, r, h => by simp [parseMoreAssocs] at h
  | fuel + 1, ts, as, r, h => by
      cases ts with
      | nil =>
          simp only [parseMoreAssocs] at h
          simp only [Except.ok.injEq, Prod.mk.injEq] at h
          obtain ⟨rfl, rfl⟩ := h
          exact .nil
      | cons tk tl =>
          rcases eq_or_ne tk .comma with rfl | hc
          · simp only [parseMoreAssocs] at h
            split at h
            · simp at h
            · next a r1 ha =>
                split at h
                · next as2 r2 hma =>
                    simp only [Except.ok.injEq, Prod.mk.injEq] at h
                    obtain ⟨rfl, rfl⟩ := h
                    obtain ⟨k, v, rfl, hk, hv⟩ :=
                      sndAssociation fuel _ a r1 ha
                    exact .cons k v _ hk hv
                      (sndMoreAssocs fuel r1 as2 r2 hma)
                · simp at h
          · rw [parseMoreAssocs_gen hc] at h
            simp only [Except.ok.injEq, Prod.mk.injEq] at h
            obtain ⟨rfl, rfl⟩ := h
            exact .nil

theorem sndMoreExprs : ∀ (fuel : Nat) (ts : List Token)
    (es : List Node) (r : List Token),
    parseMoreExprs fuel ts = .ok (es, r) → WfExprList es
  | 0, ts, es, r, h => by simp [parseMoreExprs] at h
  | fuel + 1, ts, es, r, h => by
      cases ts with
      | nil =>
          simp only [parseMoreExprs] at h
          simp only [Except.ok.injEq, Prod.mk.injEq] at h
          obtain ⟨rfl, rfl⟩ := h
          exact .nil
      | cons tk tl =>
          rcases eq_or_ne tk .comma with rfl | hc
          · simp only [parseMoreExprs] at h
            split at h
            · simp at h
            · next e1 r1 hpe =>
                split at h
                · next es2 r2 hme =>
                    simp only [Except.ok.injEq, Prod.mk.injEq] at h
                    obtain ⟨rfl, rfl⟩ := h
                    exact .cons e1 es2 (sndExpr fuel 0 _ e1 r1 hpe).1
                      (sndMoreExprs fuel r1 es2 r2 hme)
                · simp at h
          · rw [parseMoreExprs_gen hc] at h
            simp only [Except.ok.injEq, Prod.mk.injEq] at h
            obtain ⟨rfl, rfl⟩ := h
            exact .nil

theorem sndNewlineAssocs : ∀ (fuel : Nat) (ts : List Token)
    (as : List Node) (r : List Token),
    parseNewlineAssocs fuel ts = .ok (as, r) → WfAssocList as
  | 0, ts, as, r, h => by simp [parseNewlineAssocs] at h
  | fuel + 1, ts, as, r, h => by
      cases ts with
      | nil =>
          simp only [parseNewlineAssocs] at h
          simp only [Except.ok.injEq, Prod.mk.injEq] at h
          obtain ⟨rfl, rfl⟩ := h
          exact .nil
      | cons tk tl =>
          simp only [parseNewlineAssocs] at h
          split at h
          · split at h
            · simp at h
            · next a r1 ha =>
                split at h
                · simp at h
                · split at h
                  · next as2 r3 hna =>
                      simp only [Except.ok.injEq, Prod.mk.injEq] at h
                      obtain ⟨rfl, rfl⟩ := h
                      obtain ⟨k, v, rfl, hk, hv⟩ :=
                        sndAssociation fuel _ a r1 ha
                      exact .cons k v _ hk hv
                        (sndNewlineAssocs fuel _ as2 r3 hna)
                  · simp at h
          · simp only [Except.ok.injEq, Prod.mk.injEq] at h
            obtain ⟨rfl, rfl⟩ := h
            exact .nil

theorem sndNewlineExprs : ∀ (fuel : Nat) (ts : List Token)
    (es : List Node) (r : List Token),
    parseNewlineExprs fuel ts = .ok (es, r) → WfExprList es
  | 0, ts, es, r, h => by simp [parseNewlineExprs] at h
  | fuel + 1, ts, es, r, h => by
      cases ts with
      | nil =>
          simp only [parseNewlineExprs] at h
          simp only [Except.ok.injEq, Prod.mk.injEq] at h
          obtain ⟨rfl, rfl⟩ := h
          exact .nil
      | cons tk tl =>
          simp only [parseNewlineExprs] at h
          split at h
          · split at h
            · simp at h
            · next e1 r1 hpe =>
                split at h
                · simp at h
                · split at h
                  · next es2 r3 hne =>
                      simp only [Except.ok.injEq, Prod.mk.injEq] at h
                      obtain ⟨rfl, rfl⟩ := h
                      exact .cons e1 es2 (sndExpr fuel 0 _ e1 r1 hpe).1
                        (sndNewlineExprs fuel _ es2 r3 hne)
                  · simp at h
          · simp only [Except.ok.injEq, Prod.mk.injEq] at h
            obtain ⟨rfl, rfl⟩ := h
            exact .nil

theorem sndParameters : ∀ (fuel : Nat) (ts : List Token) (t : Node)
    (r : List Token), parseParameters fuel ts = .ok (t, r) →
    WfParameters t
  | 0, ts, t, r, h => by simp [parseParameters] at h
  | fuel + 1, ts, t, r, h => by
      simp only [parseParameters] at h
      split at h
      · simp at h
      · split at h
        · simp at h
        · next c r1 hc =>
            split at h
            · simp at h
            · simp only [Except.ok.injEq, Prod.mk.injEq] at h
              obtain ⟨rfl, rfl⟩ := h
              exact .mk c (sndComposite fuel _ c r1 hc)

theorem sndIndices : ∀ (fuel : Nat) (ts : List Token) (t : Node)
    (r : List Token), parseIndices fuel ts = .ok (t, r) →
    WfIndices t
  | 0, ts, t, r, h => by simp [parseIndices] at h
  | fuel + 1, ts, t, r, h => by
      simp only [parseIndices] at h
      split at h
      · simp at h
      · split at h
        · simp at h
        · next a r1 ha =>
            split at h
            · simp at h
            · simp only [Except.ok.injEq, Prod.mk.injEq] at h
              obtain ⟨rfl, rfl⟩ := h
              obtain ⟨es, rfl, hes⟩ := sndArray fuel _ a r1 ha
              exact .mk es hes

theorem sndProcedure : ∀ (fuel : Nat) (ts : List Token) (t : Node)
    (r : List Token), parseProcedure fuel ts = .ok (t, r) →
    ∃ ss, t = .tree .PROCEDURE none ss ∧ WfStmtList ss
  | 0, ts, t, r, h => by simp [parseProcedure] at h
  | fuel + 1, ts, t, r, h => by
      cases ts with
      | nil =>
          obtain ⟨er2, her2⟩ := parseStatement_nil fuel
          simp [parseProcedure, her2] at h
      | cons tk tl =>
        rcases eq_or_ne tk .rbrace with rfl | h1
        · simp only [parseProcedure] at h
          simp only [Except.ok.injEq, Prod.mk.injEq] at h
          obtain ⟨rfl, rfl⟩ := h
          exact ⟨[], rfl, .nil⟩
        rcases eq_or_ne tk .newline with rfl | h2
        · simp only [parseProcedure] at h
          split at h
          · next ss r1 hns =>
              simp only [Except.ok.injEq, Prod.mk.injEq] at h
              obtain ⟨rfl, rfl⟩ := h
              exact ⟨ss, rfl, sndNewlineStmts fuel _ ss r1 hns⟩
          · simp at h
        rw [parseProcedure_dispatch h1 h2] at h
        split at h
        · simp at h
        · next s1 r1 hst =>
            split at h
            · next ss r2 hms =>
                simp only [Except.ok.injEq, Prod.mk.injEq] at h
                obtain ⟨rfl, rfl⟩ := h
                obtain ⟨m, rfl, hm⟩ := sndStatement fuel _ s1 r1 hst
                exact ⟨_, rfl, .cons m ss hm
                  (sndMoreStmts fuel r1 ss r2 hms)⟩
            · simp at h

theorem sndMoreStmts : ∀ (fuel : Nat) (ts : List Token)
    (ss : List Node) (r : List Token),
    parseMoreStmts fuel ts = .ok (ss, r) → WfStmtList ss
  | 0, ts, ss, r, h => by simp [parseMoreStmts] at h
  | fuel + 1, ts, ss, r, h => by
      cases ts with
      | nil =>
          simp only [parseMoreStmts] at h
          simp only [Except.ok.injEq, Prod.mk.injEq] at h
          obtain ⟨rfl, rfl⟩ := h
          exact .nil
      | cons tk tl =>
          rcases eq_or_ne tk .semicolon with rfl | hc
          · simp only [parseMoreStmts] at h
            split at h
            · simp at h
            · next s1 r1 hst =>
                split at h
                · next ss2 r2 hms =>
                    simp only [Except.ok.injEq, Prod.mk.injEq] at h
                    obtain ⟨rfl, rfl⟩ := h
                    obtain ⟨m, rfl, hm⟩ := sndStatement fuel _ s1 r1 hst
                    exact .cons m ss2 hm (sndMoreStmts fuel r1 ss2 r2 hms)
                · simp at h
          · rw [parseMoreStmts_gen hc] at h
            simp only [Except.ok.injEq, Prod.mk.injEq] at h
            obtain ⟨rfl, rfl⟩ := h
            exact .nil

theorem sndNewlineStmts : ∀ (fuel : Nat) (ts : List Token)
    (ss : List Node) (r : List Token),
    parseNewlineStmts fuel ts = .ok (ss, r) → WfStmtList ss
  | 0, ts, ss, r, h => by simp [parseNewlineStmts] at h
  | fuel + 1, ts, ss, r, h => by
      cases ts with
      | nil =>
          simp only [parseNewlineStmts] at h
          simp only [Except.ok.injEq, Prod.mk.injEq] at h
          obtain ⟨rfl, rfl⟩ := h
          exact .nil
      | cons tk tl =>
          simp only [parseNewlineStmts] at h
          split at h
          · split at h
            · simp at h
            · next s1 r1 hst =>
                split at h
                · simp at h
                · split at h
                  · next ss2 r3 hns =>
                      simp only [Except.ok.injEq, Prod.mk.injEq] at h
                      obtain ⟨rfl, rfl⟩ := h
                      obtain ⟨m, rfl, hm⟩ := sndStatement fuel _ s1 r1 hst
                      exact .cons m ss2 hm
                        (sndNewlineStmts fuel _ ss2 r3 hns)
                  · simp at h
          · simp only [Except.ok.injEq, Prod.mk.injEq] at h
            obtain ⟨rfl, rfl⟩ := h
            exact .nil

theorem sndStatement : ∀ (fuel : Nat) (ts : List Token) (t : Node)
    (r : List Token), parseStatement fuel ts = .ok (t, r) →
    ∃ m, t = .tree .STATEMENT none [m] ∧ WfMain m
  | 0, ts, t, r, h => by simp [parseStatement] at h
  | fuel + 1, ts, t, r, h => by
      simp only [parseStatement] at h
      split at h
      · next m r1 hm =>
          simp only [Except.ok.injEq, Prod.mk.injEq] at h
          obtain ⟨rfl, rfl⟩ := h
          exact ⟨m, rfl, sndMainClause fuel _ m r1 hm⟩
      · simp at h

theorem sndMainClause : ∀ (fuel : Nat) (ts : List Token) (t : Node)
    (r : List Token), parseMainClause fuel ts = .ok (t, r) → WfMain t
  | 0, ts, t, r, h => by simp [parseMainClause] at h
  | fuel + 1, ts, t, r, h => by
      cases ts with
      | nil =>
          obtain ⟨er2, her2⟩ := parseExpr_nil fuel 0
          simp [parseMainClause, her2] at h
      | cons tk tl =>
        rcases eq_or_ne tk .kwReturn with rfl | h1
        · simp only [parseMainClause] at h
          split at h
          · split at h
            · split at h
              · next e1 r1 hpe =>
                  simp only [Except.ok.injEq, Prod.mk.injEq] at h
                  obtain ⟨rfl, rfl⟩ := h
                  exact .retE e1 (sndExpr fuel 0 _ e1 r1 hpe).1
              · simp at h
            · simp only [Except.ok.injEq, Prod.mk.injEq] at h
              obtain ⟨rfl, rfl⟩ := h
              exact .ret
          · simp only [Except.ok.injEq, Prod.mk.injEq] at h
            obtain ⟨rfl, rfl⟩ := h
            exact .ret
        rcases eq_or_ne tk .kwThrow with rfl | h2
        · simp only [parseMainClause] at h
          split at h
          · next e1 r1 hpe =>
              simp only [Except.ok.injEq, Prod.mk.injEq] at h
              obtain ⟨rfl, rfl⟩ := h
              exact .thr e1 (sndExpr fuel 0 _ e1 r1 hpe).1
          · simp at h
        by_cases hsy : ∃ v r2, tk = .symbol v ∧ tl = .assign :: r2
        · obtain ⟨v, r2, rfl, rfl⟩ := hsy
          simp only [parseMainClause] at h
          split at h
          · next e1 r1 hpe =>
              simp only [Except.ok.injEq, Prod.mk.injEq] at h
              obtain ⟨rfl, rfl⟩ := h
              exact .evalR v e1 (sndExpr fuel 0 _ e1 r1 hpe).1
          · simp at h
        · have h3 : ∀ v, tk = .symbol v → tl.head? ≠ some .assign := by
            intro v hv hh
            obtain ⟨tl2, rfl⟩ := head_eq_cons hh
            exact hsy ⟨v, tl2, hv, rfl⟩
          rw [parseMainClause_eval h1 h2 h3] at h
          split at h
          · next e1 r1 hpe =>
              simp only [Except.ok.injEq, Prod.mk.injEq] at h
              obtain ⟨rfl, rfl⟩ := h
              exact .eval e1 (sndExpr fuel 0 _ e1 r1 hpe).1
          · simp at h

theorem sndExpr : ∀ (fuel p : Nat) (ts : List Token) (e : Node)
    (r : List Token), parseExpr fuel p ts = .ok (e, r) →
    WfExpr p e ∧ levelOK (min p (contBound e)) r
  | 0, p, ts, e, r, h => by simp [parseExpr] at h
  | fuel + 1, p, ts, e, r, h => by
      simp only [parseExpr] at h
      split at h
      · simp at h
      · next prim r1 hpp =>
          obtain ⟨hall, hlv⟩ := sndPrimary fuel ts prim r1 hpp
          exact sndLoop fuel p prim r1 e r h (hall p) hlv

theorem sndPrimary : ∀ (fuel : Nat) (ts : List Token) (e : Node)
    (r : List Token), parsePrimary fuel ts = .ok (e, r) →
    (∀ p, WfExpr p e) ∧ levelOK (contBound e) r
  | 0, ts, e, r, h => by simp [parsePrimary] at h
  | fuel + 1, ts, e, r, h => by
      cases ts with
      | nil => simp [parsePrimary] at h
      | cons t rest =>
        cases t
        case lparen =>
            simp only [parsePrimary] at h
            split at h
            · simp at h
            · next e1 r1 hpe =>
                split at h
                · simp at h
                · next r2 hex =>
                    simp only [Except.ok.injEq, Prod.mk.injEq] at h
                    obtain ⟨rfl, rfl⟩ := h
                    exact ⟨fun p => .prec p e1 (sndExpr fuel 0 rest e1 r1 hpe).1,
                      levelOK_100 _⟩
        case atSign =>
            simp only [parsePrimary] at h
            split at h
            · next e1 r1 hpe =>
                simp only [Except.ok.injEq, Prod.mk.injEq] at h
                obtain ⟨rfl, rfl⟩ := h
                obtain ⟨hw, hl⟩ := sndExpr fuel 12 rest e1 r1 hpe
                exact ⟨fun p => .deref p e1 hw, hl⟩
            · simp at h
        case minus =>
            simp only [parsePrimary] at h
            split at h
            · next e1 r1 hpe =>
                simp only [Except.ok.injEq, Prod.mk.injEq] at h
                obtain ⟨rfl, rfl⟩ := h
                obtain ⟨hw, hl⟩ := sndExpr fuel 7 rest e1 r1 hpe
                exact ⟨fun p => .inv p "-" e1 (by decide) hw, hl⟩
            · simp at h
        case slash =>
            simp only [parsePrimary] at h
            split at h
            · next e1 r1 hpe =>
                simp only [Except.ok.injEq, Prod.mk.injEq] at h
                obtain ⟨rfl, rfl⟩ := h
                obtain ⟨hw, hl⟩ := sndExpr fuel 7 rest e1 r1 hpe
                exact ⟨fun p => .inv p "/" e1 (by decide) hw, hl⟩
            · simp at h
        case star =>
            simp only [parsePrimary] at h
            split at h
            · next e1 r1 hpe =>
                simp only [Except.ok.injEq, Prod.mk.injEq] at h
                obtain ⟨rfl, rfl⟩ := h
                obtain ⟨hw, hl⟩ := sndExpr fuel 7 rest e1 r1 hpe
                exact ⟨fun p => .inv p "*" e1 (by decide) hw, hl⟩
            · simp at h
        case bar =>
            simp only [parsePrimary] at h
            split at h
            · simp at h
            · next e1 r1 hpe =>
                split at h
                · simp at h
                · next r2 hex =>
                    simp only [Except.ok.injEq, Prod.mk.injEq] at h
                    obtain ⟨rfl, rfl⟩ := h
                    exact ⟨fun p => .magn p e1 (sndExpr fuel 0 rest e1 r1 hpe).1,
                      levelOK_100 _⟩
        case kwNot =>
            simp only [parsePrimary] at h
            split at h
            · next e1 r1 hpe =>
                simp only [Except.ok.injEq, Prod.mk.injEq] at h
                obtain ⟨rfl, rfl⟩ := h
                obtain ⟨hw, hl⟩ := sndExpr fuel 3 rest e1 r1 hpe
                exact ⟨fun p => .compl p e1 hw, hl⟩
            · simp at h
        case identifier v =>
            cases rest with
            | nil =>
                simp only [parsePrimary] at h
                simp only [Except.ok.injEq, Prod.mk.injEq] at h
                obtain ⟨rfl, rfl⟩ := h
                exact ⟨fun p => .var p v, levelOK_100 _⟩
            | cons t2 rest2 =>
                rcases eq_or_ne t2 .lparen with rfl | hlp
                · simp only [parsePrimary] at h
                  split at h
                  · next ps r1 hps =>
                      simp only [Except.ok.injEq, Prod.mk.injEq] at h
                      obtain ⟨rfl, rfl⟩ := h
                      exact ⟨fun p => .fn p v ps
                        (sndParameters fuel _ ps r1 hps), levelOK_100 _⟩
                  · simp at h
                · have hvar : ∀ r', t2 :: rest2 ≠ .lparen :: r' := by
                    intro r' hr
                    injection hr with hh _
                    exact hlp hh
                  rw [parsePrimary_var hvar] at h
                  simp only [Except.ok.injEq, Prod.mk.injEq] at h
                  obtain ⟨rfl, rfl⟩ := h
                  exact ⟨fun p => .var p v, levelOK_100 _⟩
        all_goals
          (simp only [parsePrimary] at h
           split at h)
        all_goals
          first
            | simp at h
            | (obtain ⟨st, rfl, hst⟩ := sndComponent fuel _ e r h
               exact ⟨fun p => .comp p st hst, levelOK_100 _⟩)

theorem sndLoop : ∀ (fuel p : Nat) (left : Node) (ts : List Token)
    (e : Node) (r : List Token), parseLoop fuel p left ts = .ok (e, r) →
    WfExpr p left → levelOK (contBound left) ts →
    WfExpr p e ∧ levelOK (min p (contBound e)) r
  | 0, p, left, ts, e, r, h, hwl, hlv => by simp [parseLoop] at h
  | fuel + 1, p, left, ts, e, r, h, hwl, hlv => by
      cases ts with
      | nil =>
          simp only [parseLoop] at h
          simp only [Except.ok.injEq, Prod.mk.injEq] at h
          obtain ⟨rfl, rfl⟩ := h
          exact ⟨hwl, levelOK_nil _⟩
      | cons t tl =>
        cases t
        case caret =>
            have hcb : (8:Nat) < contBound left := hlv .caret tl 8 rfl rfl
            simp only [parseLoop] at h
            split at h
            · next hgate =>
                split at h
                · simp at h
                · next rhs r1 hpe =>
                    obtain ⟨hwr, hlr⟩ := sndExpr fuel 8 tl rhs r1 hpe
                    exact sndLoop fuel p _ r1 e r h
                      (.expo p left rhs hgate hcb hwl hwr) hlr
            · next hgate =>
                simp only [Except.ok.injEq, Prod.mk.injEq] at h
                obtain ⟨rfl, rfl⟩ := h
                refine ⟨hwl, ?_⟩
                intro t' tl' ℓ heq hlvl
                injection heq with hh1 _
                rw [← hh1] at hlvl
                simp [contLevel] at hlvl
                omega
        case minus =>
            have hcb : (6:Nat) < contBound left := hlv .minus tl 6 rfl rfl
            simp only [parseLoop] at h
            split at h
            · next hgate =>
                split at h
                · simp at h
                · next rhs r1 hpe =>
                    obtain ⟨hwr, hlr⟩ := sndExpr fuel 7 tl rhs r1 hpe
                    exact sndLoop fuel p _ r1 e r h
                      (.arith p "-" left rhs (by decide) hgate hcb hwl hwr) hlr
            · next hgate =>
                simp only [Except.ok.injEq, Prod.mk.injEq] at h
                obtain ⟨rfl, rfl⟩ := h
                refine ⟨hwl, ?_⟩
                intro t' tl' ℓ heq hlvl
                injection heq with hh1 _
                rw [← hh1] at hlvl
                simp [contLevel] at hlvl
                omega
        case slash =>
            have hcb : (6:Nat) < contBound left := hlv .slash tl 6 rfl rfl
            simp only [parseLoop] at h
            split at h
            · next hgate =>
                split at h
                · simp at h
                · next rhs r1 hpe =>
                    obtain ⟨hwr, hlr⟩ := sndExpr fuel 7 tl rhs r1 hpe
                    exact sndLoop fuel p _ r1 e r h
                      (.arith p "/" left rhs (by decide) hgate hcb hwl hwr) hlr
            · next hgate =>
                simp only [Except.ok.injEq, Prod.mk.injEq] at h
                obtain ⟨rfl, rfl⟩ := h
                refine ⟨hwl, ?_⟩
                intro t' tl' ℓ heq hlvl
                injection heq with hh1 _
                rw [← hh1] at hlvl
                simp [contLevel] at hlvl
                omega
        case star =>
            have hcb : (6:Nat) < contBound left := hlv .star tl 6 rfl rfl
            simp only [parseLoop] at h
            split at h
            · next hgate =>
                split at h
                · simp at h
                · next rhs r1 hpe =>
                    obtain ⟨hwr, hlr⟩ := sndExpr fuel 7 tl rhs r1 hpe
                    exact sndLoop fuel p _ r1 e r h
                      (.arith p "*" left rhs (by decide) hgate hcb hwl hwr) hlr
            · next hgate =>
                simp only [Except.ok.injEq, Prod.mk.injEq] at h
                obtain ⟨rfl, rfl⟩ := h
                refine ⟨hwl, ?_⟩
                intro t' tl' ℓ heq hlvl
                injection heq with hh1 _
                rw [← hh1] at hlvl
                simp [contLevel] at hlvl
                omega
        case dslash =>
            have hcb : (6:Nat) < contBound left := hlv .dslash tl 6 rfl rfl
            simp only [parseLoop] at h
            split at h
            · next hgate =>
                split at h
                · simp at h
                · next rhs r1 hpe =>
                    obtain ⟨hwr, hlr⟩ := sndExpr fuel 7 tl rhs r1 hpe
                    exact sndLoop fuel p _ r1 e r h
                      (.arith p "//" left rhs (by decide) hgate hcb hwl hwr) hlr
            · next hgate =>
                simp only [Except.ok.injEq, Prod.mk.injEq] at h
                obtain ⟨rfl, rfl⟩ := h
                refine ⟨hwl, ?_⟩
                intro t' tl' ℓ heq hlvl
                injection heq with hh1 _
                rw [← hh1] at hlvl
                simp [contLevel] at hlvl
                omega
        case plus =>
            have hcb : (6:Nat) < contBound left := hlv .plus tl 6 rfl rfl
            simp only [parseLoop] at h
            split at h
            · next hgate =>
                split at h
                · simp at h
                · next rhs r1 hpe =>
                    obtain ⟨hwr, hlr⟩ := sndExpr fuel 7 tl rhs r1 hpe
                    exact sndLoop fuel p _ r1 e r h
                      (.arith p "+" left rhs (by decide) hgate hcb hwl hwr) hlr
            · next hgate =>
                simp only [Except.ok.injEq, Prod.mk.injEq] at h
                obtain ⟨rfl, rfl⟩ := h
                refine ⟨hwl, ?_⟩
                intro t' tl' ℓ heq hlvl
                injection heq with hh1 _
                rw [← hh1] at hlvl
                simp [contLevel] at hlvl
                omega
        case lt =>
            have hcb : (4:Nat) < contBound left := hlv .lt tl 4 rfl rfl
            simp only [parseLoop] at h
            split at h
            · next hgate =>
                split at h
                · simp at h
                · next rhs r1 hpe =>
                    obtain ⟨hwr, hlr⟩ := sndExpr fuel 5 tl rhs r1 hpe
                    exact sndLoop fuel p _ r1 e r h
                      (.cmp p "<" left rhs (by decide) hgate hcb hwl hwr) hlr
            · next hgate =>
                simp only [Except.ok.injEq, Prod.mk.injEq] at h
                obtain ⟨rfl, rfl⟩ := h
                refine ⟨hwl, ?_⟩
                intro t' tl' ℓ heq hlvl
                injection heq with hh1 _
                rw [← hh1] at hlvl
                simp [contLevel] at hlvl
                omega
        case eq =>
            have hcb : (4:Nat) < contBound left := hlv .eq tl 4 rfl rfl
            simp only [parseLoop] at h
            split at h
            · next hgate =>
                split at h
                · simp at h
                · next rhs r1 hpe =>
                    obtain ⟨hwr, hlr⟩ := sndExpr fuel 5 tl rhs r1 hpe
                    exact sndLoop fuel p _ r1 e r h
                      (.cmp p "=" left rhs (by decide) hgate hcb hwl hwr) hlr
            · next hgate =>
                simp only [Except.ok.injEq, Prod.mk.injEq] at h
                obtain ⟨rfl, rfl⟩ := h
                refine ⟨hwl, ?_⟩
                intro t' tl' ℓ heq hlvl
                injection heq with hh1 _
                rw [← hh1] at hlvl
                simp [contLevel] at hlvl
                omega
        case gt =>
            have hcb : (4:Nat) < contBound left := hlv .gt tl 4 rfl rfl
            simp only [parseLoop] at h
            split at h
            · next hgate =>
                split at h
                · simp at h
                · next rhs r1 hpe =>
                    obtain ⟨hwr, hlr⟩ := sndExpr fuel 5 tl rhs r1 hpe
                    exact sndLoop fuel p _ r1 e r h
                      (.cmp p ">" left rhs (by decide) hgate hcb hwl hwr) hlr
            · next hgate =>
                simp only [Except.ok.injEq, Prod.mk.injEq] at h
                obtain ⟨rfl, rfl⟩ := h
                refine ⟨hwl, ?_⟩
                intro t' tl' ℓ heq hlvl
                injection heq with hh1 _
                rw [← hh1] at hlvl
                simp [contLevel] at hlvl
                omega
        case kwIs =>
            have hcb : (4:Nat) < contBound left := hlv .kwIs tl 4 rfl rfl
            simp only [parseLoop] at h
            split at h
            · next hgate =>
                split at h
                · simp at h
                · next rhs r1 hpe =>
                    obtain ⟨hwr, hlr⟩ := sndExpr fuel 5 tl rhs r1 hpe
                    exact sndLoop fuel p _ r1 e r h
                      (.cmp p "is" left rhs (by decide) hgate hcb hwl hwr) hlr
            · next hgate =>
                simp only [Except.ok.injEq, Prod.mk.injEq] at h
                obtain ⟨rfl, rfl⟩ := h
                refine ⟨hwl, ?_⟩
                intro t' tl' ℓ heq hlvl
                injection heq with hh1 _
                rw [← hh1] at hlvl
                simp [contLevel] at hlvl
                omega
        case kwMatches =>
            have hcb : (4:Nat) < contBound left := hlv .kwMatches tl 4 rfl rfl
            simp only [parseLoop] at h
            split at h
            · next hgate =>
                split at h
                · simp at h
                · next rhs r1 hpe =>
                    obtain ⟨hwr, hlr⟩ := sndExpr fuel 5 tl rhs r1 hpe
                    exact sndLoop fuel p _ r1 e r h
                      (.cmp p "matches" left rhs (by decide) hgate hcb hwl hwr)
                      hlr
            · next hgate =>
                simp only [Except.ok.injEq, Prod.mk.injEq] at h
                obtain ⟨rfl, rfl⟩ := h
                refine ⟨hwl, ?_⟩
                intro t' tl' ℓ heq hlvl
                injection heq with hh1 _
                rw [← hh1] at hlvl
                simp [contLevel] at hlvl
                omega
        case kwAnd =>
            have hcb : (2:Nat) < contBound left := hlv .kwAnd tl 2 rfl rfl
            simp only [parseLoop] at h
            split at h
            · next hgate =>
                split at h
                · simp at h
                · next rhs r1 hpe =>
                    obtain ⟨hwr, hlr⟩ := sndExpr fuel 3 tl rhs r1 hpe
                    exact sndLoop fuel p _ r1 e r h
                      (.logic p "and" left rhs (by decide) hgate hcb hwl hwr)
                      hlr
            · next hgate =>
                simp only [Except.ok.injEq, Prod.mk.injEq] at h
                obtain ⟨rfl, rfl⟩ := h
                refine ⟨hwl, ?_⟩
                intro t' tl' ℓ heq hlvl
                injection heq with hh1 _
                rw [← hh1] at hlvl
                simp [contLevel] at hlvl
                omega
        case kwSans =>
            have hcb : (2:Nat) < contBound left := hlv .kwSans tl 2 rfl rfl
            simp only [parseLoop] at h
            split at h
            · next hgate =>
                split at h
                · simp at h
                · next rhs r1 hpe =>
                    obtain ⟨hwr, hlr⟩ := sndExpr fuel 3 tl rhs r1 hpe
                    exact sndLoop fuel p _ r1 e r h
                      (.logic p "sans" left rhs (by decide) hgate hcb hwl hwr)
                      hlr
            · next hgate =>
                simp only [Except.ok.injEq, Prod.mk.injEq] at h
                obtain ⟨rfl, rfl⟩ := h
                refine ⟨hwl, ?_⟩
                intro t' tl' ℓ heq hlvl
                injection heq with hh1 _
                rw [← hh1] at hlvl
                simp [contLevel] at hlvl
                omega
        case kwXor =>
            have hcb : (2:Nat) < contBound left := hlv .kwXor tl 2 rfl rfl
            simp only [parseLoop] at h
            split at h
            · next hgate =>
                split at h
                · simp at h
                · next rhs r1 hpe =>
                    obtain ⟨hwr, hlr⟩ := sndExpr fuel 3 tl rhs r1 hpe
                    exact sndLoop fuel p _ r1 e r h
                      (.logic p "xor" left rhs (by decide) hgate hcb hwl hwr)
                      hlr
            · next hgate =>
                simp only [Except.ok.injEq, Prod.mk.injEq] at h
                obtain ⟨rfl, rfl⟩ := h
                refine ⟨hwl, ?_⟩
                intro t' tl' ℓ heq hlvl
                injection heq with hh1 _
                rw [← hh1] at hlvl
                simp [contLevel] at hlvl
                omega
        case kwOr =>
            have hcb : (2:Nat) < contBound left := hlv .kwOr tl 2 rfl rfl
            simp only [parseLoop] at h
            split at h
            · next hgate =>
                split at h
                · simp at h
                · next rhs r1 hpe =>
                    obtain ⟨hwr, hlr⟩ := sndExpr fuel 3 tl rhs r1 hpe
                    exact sndLoop fuel p _ r1 e r h
                      (.logic p "or" left rhs (by decide) hgate hcb hwl hwr)
                      hlr
            · next hgate =>
                simp only [Except.ok.injEq, Prod.mk.injEq] at h
                obtain ⟨rfl, rfl⟩ := h
                refine ⟨hwl, ?_⟩
                intro t' tl' ℓ heq hlvl
                injection heq with hh1 _
                rw [← hh1] at hlvl
                simp [contLevel] at hlvl
                omega
        case question =>
            have hcb : (1:Nat) < contBound left := hlv .question tl 1 rfl rfl
            simp only [parseLoop] at h
            split at h
            · next hgate =>
                split at h
                · simp at h
                · next rhs r1 hpe =>
                    obtain ⟨hwr, hlr⟩ := sndExpr fuel 2 tl rhs r1 hpe
                    exact sndLoop fuel p _ r1 e r h
                      (.dflt p left rhs hgate hcb hwl hwr) hlr
            · next hgate =>
                simp only [Except.ok.injEq, Prod.mk.injEq] at h
                obtain ⟨rfl, rfl⟩ := h
                refine ⟨hwl, ?_⟩
                intro t' tl' ℓ heq hlvl
                injection heq with hh1 _
                rw [← hh1] at hlvl
                simp [contLevel] at hlvl
                omega
        case dot =>
            have hcb : (11:Nat) < contBound left := hlv .dot tl 11 rfl rfl
            simp only [parseLoop] at h
            split at h
            · next hgate =>
                split at h
                · next m r2 =>
                    split at h
                    · simp at h
                    · next ps r3 hps =>
                        exact sndLoop fuel p _ r3 e r h
                          (.msg p left m ps hgate hcb hwl
                            (sndParameters fuel r2 ps r3 hps))
                          (levelOK_100 r3)
                · simp at h
                · simp at h
            · next hgate =>
                simp only [Except.ok.injEq, Prod.mk.injEq] at h
                obtain ⟨rfl, rfl⟩ := h
                refine ⟨hwl, ?_⟩
                intro t' tl' ℓ heq hlvl
                injection heq with hh1 _
                rw [← hh1] at hlvl
                simp [contLevel] at hlvl
                omega
        case lbracket =>
            have hcb : (10:Nat) < contBound left := hlv .lbracket tl 10 rfl rfl
            simp only [parseLoop] at h
            split at h
            · next hgate =>
                split at h
                · simp at h
                · next idx r1 hidx =>
                    exact sndLoop fuel p _ r1 e r h
                      (.subc p left idx hgate hcb hwl
                        (sndIndices fuel _ idx r1 hidx))
                      (levelOK_100 r1)
            · next hgate =>
                simp only [Except.ok.injEq, Prod.mk.injEq] at h
                obtain ⟨rfl, rfl⟩ := h
                refine ⟨hwl, ?_⟩
                intro t' tl' ℓ heq hlvl
                injection heq with hh1 _
                rw [← hh1] at hlvl
                simp [contLevel] at hlvl
                omega
        case bang =>
            have hcb : (9:Nat) < contBound left := hlv .bang tl 9 rfl rfl
            simp only [parseLoop] at h
            split at h
            · next hgate =>
                exact sndLoop fuel p _ tl e r h
                  (.fact p left hgate hcb hwl) (levelOK_100 tl)
            · next hgate =>
                simp only [Except.ok.injEq, Prod.mk.injEq] at h
                obtain ⟨rfl, rfl⟩ := h
                refine ⟨hwl, ?_⟩
                intro t' tl' ℓ heq hlvl
                injection heq with hh1 _
                rw [← hh1] at hlvl
                simp [contLevel] at hlvl
                omega
        all_goals
          (simp only [parseLoop] at h
           simp only [Except.ok.injEq, Prod.mk.injEq] at h
           obtain ⟨rfl, rfl⟩ := h
           refine ⟨hwl, levelOK_none ?_ _ _⟩
           rfl)

end



mutual

/-- The fuel weight of a producible expression is covered by thirty two
units per emitted token. -/
theorem wbExpr : ∀ {p : Nat} {e : Node}, WfExpr p e →
    weight e + 16 ≤ 32 * (fmtToks e).length
  | _, _, .var p v => by simp [weight, fmtToks]
  | _, _, .comp p st hst => by
      have := wbState hst
      simp only [weight, weightList, fmtToks] at *
      omega
  | _, _, .arith p o l r ho hp hcb hl hr => by
      have h1 := wbExpr hl
      have h2 := wbExpr hr
      simp only [weight, weightList, fmtToks, List.length_append,
        List.length_cons] at *
      omega
  | _, _, .cmp p o l r ho hp hcb hl hr => by
      have h1 := wbExpr hl
      have h2 := wbExpr hr
      simp only [weight, weightList, fmtToks, List.length_append,
        List.length_cons] at *
      omega
  | _, _, .logic p o l r ho hp hcb hl hr => by
      have h1 := wbExpr hl
      have h2 := wbExpr hr
      simp only [weight, weightList, fmtToks, List.length_append,
        List.length_cons] at *
      omega
  | _, _, .dflt p l r hp hcb hl hr => by
      have h1 := wbExpr hl
      have h2 := wbExpr hr
      simp only [weight, weightList, fmtToks, List.length_append,
        List.length_cons] at *
      omega
  | _, _, .expo p l r hp hcb hl hr => by
      have h1 := wbExpr hl
      have h2 := wbExpr hr
      simp only [weight, weightList, fmtToks, List.length_append,
        List.length_cons] at *
      omega
  | _, _, .fact p l hp hcb hl => by
      have h1 := wbExpr hl
      simp only [weight, weightList, fmtToks, List.length_append,
        List.length_cons, List.length_nil] at *
      omega
  | _, _, .msg p l m ps hp hcb hl hps => by
      have h1 := wbExpr hl
      have h2 := wbParams hps
      simp only [weight, weightList, fmtToks, List.length_append,
        List.length_cons] at *
      omega
  | _, _, .subc p l idx hp hcb hl hidx => by
      have h1 := wbExpr hl
      have h2 := wbIndices hidx
      simp only [weight, weightList, fmtToks, List.length_append] at *
      omega
  | _, _, .fn p f ps hps => by
      have h2 := wbParams hps
      simp only [weight, weightList, fmtToks, List.length_cons] at *
      omega
  | _, _, .inv p o x ho hx => by
      have h1 := wbExpr hx
      simp only [weight, weightList, fmtToks, List.length_cons] at *
      omega
  | _, _, .compl p x hx => by
      have h1 := wbExpr hx
      simp only [weight, weightList, fmtToks, List.length_cons] at *
      omega
  | _, _, .deref p x hx => by
      have h1 := wbExpr hx
      simp only [weight, weightList, fmtToks, List.length_cons] at *
      omega
  | _, _, .prec p x hx => by
      have h1 := wbExpr hx
      simp only [weight, weightList, fmtToks, List.length_append,
        List.length_cons, List.length_nil] at *
      omega
  | _, _, .magn p x hx => by
      have h1 := wbExpr hx
      simp only [weight, weightList, fmtToks, List.length_append,
        List.length_cons, List.length_nil] at *
      omega

theorem wbState : ∀ {st : Node}, WfState st →
    weight st + 24 ≤ 32 * (fmtToks st).length
  | _, .elem ty v he => by simp [weight, fmtToks]
  | _, .struct c hc => by
      have h1 := wbColl hc
      simp only [weight, weightList, fmtToks, List.length_append,
        List.length_cons, List.length_nil] at *
      omega
  | _, .block pr hpr => by
      cases hpr with
      | mk ss hss =>
        have h1 := wbStmtSeq hss
        simp only [weight, weightList, fmtToks, List.length_append,
          List.length_cons, List.length_nil] at *
        omega

theorem wbColl : ∀ {c : Node}, WfCollection c →
    weight c ≤ 32 * (fmtToks c).length + 8
  | _, .list es hes => by
      have h1 := wbExprSeq hes
      simp only [weight, weightList, fmtToks] at *
      omega
  | _, .catalog as has => by
      cases has with
      | nil => simp [weight, weightList, fmtToks]
      | cons k v as' hk hv has' =>
          have h1 := wbAssocSeq (.cons k v as' hk hv has')
          simp only [weight, fmtToks] at *
          omega
  | _, .range a b ha hb => by
      have h1 := wbExpr ha
      have h2 := wbExpr hb
      simp only [weight, weightList, fmtToks, List.length_append,
        List.length_cons] at *
      omega

theorem wbExprSeq : ∀ {es : List Node}, WfExprList es →
    weightList es ≤ 32 * (fmtSeq .comma es).length
  | _, .nil => by simp [weightList, fmtSeq]
  | _, .cons e es' he hes' => by
      have h1 := wbExpr he
      have h2 := wbExprSeq hes'
      cases es' with
      | nil =>
          simp only [weightList, fmtSeq] at *
          omega
      | cons e2 es2 =>
          simp only [weightList, fmtSeq, List.length_append,
            List.length_cons] at *
          omega

theorem wbAssocSeq : ∀ {as : List Node}, WfAssocList as →
    weightList as ≤ 32 * (fmtSeq .comma as).length
  | _, .nil => by simp [weightList, fmtSeq]
  | _, .cons k v as' hk hv has' => by
      have h1 := wbExpr hv
      have h2 := wbAssocSeq has'
      cases k with
      | tree ty op cs => simp [isElementTerminal] at hk
      | terminal kty kv =>
      cases as' with
      | nil =>
          simp only [weightList, weight, fmtSeq, fmtToks,
            List.length_append, List.length_cons, List.length_nil] at *
          omega
      | cons a2 as2 =>
          simp only [weightList, weight, fmtSeq, fmtToks,
            List.length_append, List.length_cons, List.length_nil] at *
          omega

theorem wbParams : ∀ {ps : Node}, WfParameters ps →
    weight ps ≤ 32 * (fmtToks ps).length
  | _, .mk c hc => by
      have h1 := wbColl hc
      simp only [weight, weightList, fmtToks, List.length_append,
        List.length_cons, List.length_nil] at *
      omega

theorem wbIndices : ∀ {idx : Node}, WfIndices idx →
    weight idx + 24 ≤ 32 * (fmtToks idx).length
  | _, .mk es hes => by
      have h1 := wbExprSeq hes
      simp only [weight, weightList, fmtToks, List.length_append,
        List.length_cons, List.length_nil] at *
      omega

theorem wbStmtSeq : ∀ {ss : List Node}, WfStmtList ss →
    weightList ss ≤ 32 * (fmtSeq .semicolon ss).length
  | _, .nil => by simp [weightList, fmtSeq]
  | _, .cons m ss' hm hss' => by
      have h1 := wbMain hm
      have h2 := wbStmtSeq hss'
      cases ss' with
      | nil =>
          simp only [weightList, weight, fmtSeq, fmtToks] at *
          omega
      | cons s2 ss2 =>
          simp only [weightList, weight, fmtSeq, fmtToks,
            List.length_append, List.length_cons] at *
          omega

theorem wbMain : ∀ {m : Node}, WfMain m →
    weight m + 8 ≤ 32 * (fmtToks m).length
  | _, .eval e he => by
      have h1 := wbExpr he
      simp only [weight, weightList, fmtToks] at *
      omega
  | _, .evalR sy e he => by
      have h1 := wbExpr he
      simp only [weight, weightList, fmtToks, List.length_append,
        List.length_cons, List.length_nil] at *
      omega
  | _, .ret => by simp [weight, weightList, fmtToks]
  | _, .retE e he => by
      have h1 := wbExpr he
      simp only [weight, weightList, fmtToks, List.length_cons] at *
      omega
  | _, .thr e he => by
      have h1 := wbExpr he
      simp only [weight, weightList, fmtToks, List.length_cons] at *
      omega

end



theorem stateHead {st : Node} (hst : WfState st) :
    ∃ x l, fmtToks st = x :: l ∧ x ≠ .newline := by
  cases hst with
  | elem ty v he =>
      refine ⟨terminalToken ty v, [], by simp [fmtToks], ?_⟩
      exact (elementStart_shape (elementStart_terminalToken he)).2.2.2.1
  | struct c hc =>
      exact ⟨.lbracket, fmtToks c ++ [.rbracket], by simp [fmtToks],
        by simp⟩
  | block pr hpr =>
      exact ⟨.lbrace, fmtToks pr ++ [.rbrace], by simp [fmtToks],
        by simp⟩

/-- Document level completeness: the canonical emission of a producible
component parses back to exactly that component. -/
theorem compDocument {t : Node} (ht : WfComponent t) :
    parseDocumentToks (fmtToks t) = .ok t := by
  cases ht with
  | mk st hst =>
    have hfm : fmtToks (.tree .COMPONENT none [st]) = fmtToks st := by
      simp [fmtToks]
    rw [hfm]
    obtain ⟨x, l, hx, hnx⟩ := stateHead hst
    have hdrop : (fmtToks st).dropWhile (· = .newline) = fmtToks st := by
      rw [hx]
      simp [List.dropWhile_cons, hnx]
    have hfuel : weight st + 20 ≤ bigFuel (fmtToks st) := by
      have := wbState hst
      simp only [bigFuel]
      omega
    have hcs := compState hst [] (bigFuel (fmtToks st)) hfuel
    rw [List.append_nil] at hcs
    simp only [parseDocumentToks]
    rw [hdrop]
    rw [hcs]
    simp

/-- Document level soundness: every parsed document is a producible
component. -/
theorem sndDocument {ts : List Token} {t : Node}
    (h : parseDocumentToks ts = .ok t) : WfComponent t := by
  simp only [parseDocumentToks] at h
  split at h
  · simp at h
  · next t1 rest hcp =>
      split at h
      · simp only [Except.ok.injEq] at h
        obtain rfl := h
        obtain ⟨st, rfl, hst⟩ := sndComponent _ _ t1 rest hcp
        exact .mk st hst
      · simp at h

/-- The token level round trip: reformatting a parsed document and
reparsing returns the same tree. -/
theorem roundTripToks {ts : List Token} {t : Node}
    (h : parseDocumentToks ts = .ok t) :
    parseDocumentToks (fmtToks t) = .ok t :=
  compDocument (sndDocument h)

theorem naturalCore_head {p : List Char} (h : naturalCore p = true) :
    ∃ c cs, p = c :: cs ∧ isNonzeroDigit c = true := by
  unfold naturalCore at h
  split at h
  · next c cs =>
      refine ⟨c, cs, rfl, ?_⟩
      simp only [Bool.and_eq_true] at h
      exact h.1
  · simp at h

theorem versionValid_matchesVERSION (s : String) :
    versionValid s = matchesVERSION ("v" ++ s) := by
  cases s with
  | mk data => rfl

/-! ## The claims -/

/-- C1 For a valid document the formatter is not a byte for byte
inverse of the parser: the canonical rendering of the tree parsed from
the compact source text of a list differs from that source text. -/
theorem c1_not_byte_identical :
    parseDocument "[1,2,3]" = .ok listDocNode ∧
    format listDocNode = "[1, 2, 3]" ∧
    "[1, 2, 3]" ≠ "[1,2,3]" :=
  ⟨by decide, by decide, by decide⟩

/-- C1 Formatting a parsed document and reparsing the rendered text
returns the same tree: in general at the token level (reformatting any
tree the document parser produces and reparsing gives that tree back),
and at the source string level on an element document, an expression,
a statement procedure document and a structure document, on which the
canonical rendering reparses to the identical tree. -/
theorem c1_format_parse_round_trip :
    (∀ (ts : List Token) (t : Node), parseDocumentToks ts = .ok t →
        parseDocumentToks (fmtToks t) = .ok t) ∧
    (parseDocument "none" = .ok elemDocNode ∧
      format elemDocNode = "none" ∧
      parseDocument (format elemDocNode) = .ok elemDocNode) ∧
    (parseExpression "2 + 3 * 4" = .ok sumProdNode ∧
      format sumProdNode = "2 + 3 * 4" ∧
      parseExpression (format sumProdNode) = .ok sumProdNode) ∧
    (parseDocument "{$x := 5; return $x}" = .ok stmtDocNode ∧
      format stmtDocNode = "{$x := 5; return $x}" ∧
      parseDocument (format stmtDocNode) = .ok stmtDocNode) ∧
    (parseDocument "[1,2,3]" = .ok listDocNode ∧
      format listDocNode = "[1, 2, 3]" ∧
      parseDocument (format listDocNode) = .ok listDocNode) :=
  ⟨fun _ _ h => roundTripToks h,
   ⟨by decide, by decide, by decide⟩,
   ⟨by decide, by decide, by decide⟩,
   ⟨by decide, by decide, by decide⟩,
   ⟨by decide, by decide, by decide⟩⟩

/-- C1 witness: the general token level round trip applied to the token
stream of the compact list source. -/
theorem c1_round_trip_witness :
    parseDocumentToks (fmtToks listDocNode) = .ok listDocNode :=
  c1_format_parse_round_trip.1
    [.lbracket, .float "1", .comma, .float "2", .comma, .float "3",
     .rbracket]
    listDocNode (by decide)

/-- C2 Multiplication does not bind tighter than addition: all five
arithmetic operators share one left associative level, so the source
2 + 3 * 4 parses with the addition as the left operand of the
multiplication, not with 3 * 4 as the right operand of the addition. -/
theorem c2_not_right_nested :
    parseExpression "2 + 3 * 4" = .ok sumProdNode ∧
    parseExpression "2 + 3 * 4" ≠
      .ok (.tree .ARITHMETIC_EXPRESSION (some "+")
        [num "2", .tree .ARITHMETIC_EXPRESSION (some "*")
          [num "3", num "4"]]) :=
  ⟨by decide, by decide⟩

/-- C2 The arithmetic alternatives of the generated expression rule all
fire at precedence six with a right operand at level seven, so they are
mutually left associative and 2 + 3 * 4 parses as (2 + 3) * 4, while
the exponential alternative keeps its right operand at level eight and
2 ^ 3 ^ 2 parses right associatively as 2 ^ (3 ^ 2). -/
theorem c2_precedence_shapes :
    parseExpression "2 + 3 * 4" = .ok sumProdNode ∧
    parseExpression "2 ^ 3 ^ 2" = .ok expoNode :=
  ⟨by decide, by decide⟩

/-- C3 Converting a block parse tree to a plain value does not succeed:
TransformingVisitor.visitBlock throws the statement conversion error. -/
theorem c3_block_transform_fails :
    transform .block =
      .error "TRANSFORMER: Bali statements cannot be transformed into JavaScript objects." :=
  rfl

/-- C3 Converting any of the fourteen expression context kinds fails
with the expression conversion error; converting a literal element, a
fully literal array, or a structure wrapping one succeeds with the
corresponding value; converting a block fails with the statement
conversion error. -/
theorem c3_transform_results :
    (∀ cs, transform (.arithmeticExpression cs) = .error exprErr) ∧
    (∀ cs, transform (.comparisonExpression cs) = .error exprErr) ∧
    (∀ cs, transform (.logicalExpression cs) = .error exprErr) ∧
    (∀ cs, transform (.defaultExpression cs) = .error exprErr) ∧
    (∀ cs, transform (.messageExpression cs) = .error exprErr) ∧
    (∀ cs, transform (.precedenceExpression cs) = .error exprErr) ∧
    (∀ cs, transform (.variableExpression cs) = .error exprErr) ∧
    (∀ cs, transform (.componentExpression cs) = .error exprErr) ∧
    (∀ cs, transform (.functionExpression cs) = .error exprErr) ∧
    (∀ cs, transform (.factorialExpression cs) = .error exprErr) ∧
    (∀ cs, transform (.dereferenceExpression cs) = .error exprErr) ∧
    (∀ cs, transform (.inversionExpression cs) = .error exprErr) ∧
    (∀ cs, transform (.complementExpression cs) = .error exprErr) ∧
    (∀ cs, transform (.magnitudeExpression cs) = .error exprErr) ∧
    transform (numCtx "5") = .ok (.complex "5") ∧
    transform (.inlineArray [numCtx "1", numCtx "2", numCtx "3"]) =
      .ok (.composite [.complex "1", .complex "2", .complex "3"]
        "InlineArrayContext") ∧
    transform (.structure (.inlineArray
        [numCtx "1", numCtx "2", numCtx "3"])) =
      .ok (.composite [.complex "1", .complex "2", .complex "3"]
        "InlineArrayContext") ∧
    transform (.emptyTable) = .ok (.composite [] "EmptyTableContext") ∧
    transform .block = .error stmtErr :=
  ⟨fun _ => rfl, fun _ => rfl, fun _ => rfl, fun _ => rfl, fun _ => rfl,
   fun _ => rfl, fun _ => rfl, fun _ => rfl, fun _ => rfl, fun _ => rfl,
   fun _ => rfl, fun _ => rfl, fun _ => rfl, fun _ => rfl,
   rfl, rfl, rfl, rfl, rfl⟩

/-- C4 Parsing is fail fast: a lexical error in the source makes the
whole parseDocument operation return exactly that error, a syntactic
error likewise, never a tree; on a source with two bad characters only
the first is reported, on a source with two unexpected tokens only the
first, and a source whose valid prefix is followed by junk yields an
error and no partial tree. -/
theorem c4_fail_fast :
    (∀ s e, lex s = .error e → parseDocument s = .error (.lexical e)) ∧
    (∀ s ts e, lex s = .ok ts → parseDocumentToks ts = .error e →
      parseDocument s = .error (.syntactic e)) ∧
    parseDocument "£5 £" = .error (.lexical (.badChar 0 '£')) ∧
    parseDocument "] [" =
      .error (.syntactic (.unexpected (some .rbracket))) ∧
    parseDocument "5 5" =
      .error (.syntactic (.unexpected (some (.float "5")))) :=
  ⟨fun s e h => by simp [parseDocument, h],
   fun s ts e h1 h2 => by simp [parseDocument, h1, h2],
   by decide, by decide, by decide⟩

/-- C4 witness: the lexical propagation applied to a one character bad
source. -/
theorem c4_fail_fast_witness :
    parseDocument "£" = .error (.lexical (.badChar 0 '£')) :=
  c4_fail_fast.1 "£" (.badChar 0 '£') (by decide)

/-- C5 The default value operator is not right associative: its
alternative fires at precedence one but parses its right operand at
level two, so a ? b ? c parses left associatively as (a ? b) ? c. -/
theorem c5_not_right_assoc :
    parseExpression "a ? b ? c" =
      .ok (.tree .DEFAULT_EXPRESSION none
        [.tree .DEFAULT_EXPRESSION none [va, vb], vc]) ∧
    parseExpression "a ? b ? c" ≠
      .ok (.tree .DEFAULT_EXPRESSION none
        [va, .tree .DEFAULT_EXPRESSION none [vb, vc]]) :=
  ⟨by decide, by decide⟩

/-- C5 The default value operator sits at the lowest level, below the
logical operators, and associates to the left: a ? b ? c parses as
(a ? b) ? c, and it binds looser than or on either side. -/
theorem c5_default_level :
    parseExpression "a ? b ? c" =
      .ok (.tree .DEFAULT_EXPRESSION none
        [.tree .DEFAULT_EXPRESSION none [va, vb], vc]) ∧
    parseExpression "a or b ? c" =
      .ok (.tree .DEFAULT_EXPRESSION none
        [.tree .LOGICAL_EXPRESSION (some "or") [va, vb], vc]) ∧
    parseExpression "a ? b or c" =
      .ok (.tree .DEFAULT_EXPRESSION none
        [va, .tree .LOGICAL_EXPRESSION (some "or") [vb, vc]]) :=
  ⟨by decide, by decide, by decide⟩

/-- C6 The finish clause is not preserved: visitStatement builds the
STATEMENT tree from the main clause and the handle clauses only, so a
context carrying a finishing clause yields a tree without it, unlike
the tree the spec describes. -/
theorem c6_finish_clause_dropped :
    visitStatement ⟨va, [vb], some vc⟩ =
      .tree .STATEMENT none [va, vb] ∧
    visitStatementSpec ⟨va, [vb], some vc⟩ =
      .tree .STATEMENT none [va, vb, vc] ∧
    visitStatement ⟨va, [vb], some vc⟩ ≠
      visitStatementSpec ⟨va, [vb], some vc⟩ :=
  ⟨rfl, rfl, by decide⟩

/-- C6 visitStatement appends the main clause and every handle clause
as flat children of one STATEMENT tree; it agrees with the statement
tree the spec describes exactly when the context has no finishing
clause, and differs from it whenever one is present. -/
theorem c6_statement_children :
    (∀ ctx : StatementContext,
      visitStatement ctx =
        .tree .STATEMENT none (ctx.mainClause :: ctx.handleClauses)) ∧
    (∀ ctx : StatementContext, ctx.finishClause = none →
      visitStatement ctx = visitStatementSpec ctx) ∧
    (∀ (ctx : StatementContext) (f : Node), ctx.finishClause = some f →
      visitStatement ctx ≠ visitStatementSpec ctx) := by
  refine ⟨fun ctx => rfl, fun ctx h => ?_, fun ctx f h hEq => ?_⟩
  · simp [visitStatement, visitStatementSpec, h]
  · simp only [visitStatement, visitStatementSpec, h] at hEq
    have hl := congrArg (fun n => match n with
      | Node.tree _ _ cs => cs.length
      | Node.terminal _ _ => 0) hEq
    simp [Option.toList] at hl

/-- C6 witness: the disagreement applied to a concrete context with a
finishing clause. -/
theorem c6_statement_children_witness :
    visitStatement ⟨va, [], some vc⟩ ≠
      visitStatementSpec ⟨va, [], some vc⟩ :=
  c6_statement_children.2.2 ⟨va, [], some vc⟩ vc rfl

/-- C7 The inline and the newline delimited renderings of a collection
parse to the same tree, and the empty array and empty table sources
parse to zero child composite nodes of the matching distinct kinds. -/
theorem c7_collection_variants :
    parseDocument "[1, 2, 3]" = .ok listDocNode ∧
    parseDocument "[\n1\n2\n3\n]" = .ok listDocNode ∧
    parseDocument "[]" =
      .ok (.tree .COMPONENT none [.tree .STRUCTURE none
        [.tree .LIST none []]]) ∧
    parseDocument "[:]" =
      .ok (.tree .COMPONENT none [.tree .STRUCTURE none
        [.tree .CATALOG none []]]) ∧
    NodeType.LIST ≠ NodeType.CATALOG :=
  ⟨by decide, by decide, by decide, by decide, by decide⟩

/-- C8 The FRACTION token rule demands a nonzero final digit: .5 and
.125 match, .10 does not, every matching string ends in a digit one to
nine, and the lexer splits .10 into the fraction .1 and a float 0. -/
theorem c8_fraction_final_digit :
    matchesFRACTION ".5" = true ∧
    matchesFRACTION ".125" = true ∧
    matchesFRACTION ".10" = false ∧
    (∀ s, matchesFRACTION s = true →
      ∃ ds, s.data = '.' :: ds ∧ ds ≠ [] ∧
        isNonzeroDigit (ds.getLastD ' ') = true) ∧
    lex ".10" = .ok [.fraction ".1", .float "0"] := by
  refine ⟨by decide, by decide, by decide, fun s h => ?_, by decide⟩
  unfold matchesFRACTION at h
  split at h
  · next ds heq =>
      simp only [Bool.and_eq_true, decide_eq_true_eq] at h
      exact ⟨ds, heq, h.1.1, h.2⟩
  · simp at h

/-- C8 witness: the final digit characterization applied to .5 . -/
theorem c8_fraction_witness :
    ∃ ds, ".5".data = '.' :: ds ∧ ds ≠ [] ∧
      isNonzeroDigit (ds.getLastD ' ') = true :=
  c8_fraction_final_digit.2.2.2.1 ".5" (by decide)

/-- C9 The debug flag changes no parse outcome: the first component of
the debug aware entry point equals the plain parse for every source and
either flag value, a successful parse logs nothing under either flag,
and with the flag off nothing is ever logged. -/
theorem c9_debug_no_outcome_change :
    (∀ s debug, (parseDocumentDbg s debug).1 = parseDocument s) ∧
    (∀ s, (parseDocumentDbg s true).1 = (parseDocumentDbg s false).1) ∧
    (∀ s, (parseDocumentDbg s false).2 = []) ∧
    (∀ s t, parseDocument s = .ok t →
      ∀ debug, parseDocumentDbg s debug = (.ok t, [])) := by
  refine ⟨fun s debug => ?_, fun s => ?_, fun s => ?_,
    fun s t h debug => ?_⟩
  · cases hp : parseDocument s <;> simp [parseDocumentDbg, hp]
  · cases hp : parseDocument s <;>
      simp [parseDocumentDbg, hp, syntaxErrorLog]
  · cases hp : parseDocument s <;>
      simp [parseDocumentDbg, hp, syntaxErrorLog]
  · simp [parseDocumentDbg, h]

/-- C9 witness: a successful parse logs nothing in debug mode. -/
theorem c9_debug_witness :
    parseDocumentDbg "none" true = (.ok elemDocNode, []) :=
  c9_debug_no_outcome_change.2.2.2 "none" elemDocNode (by decide) true

/-- C10 A version value accepts exactly dot separated components each
beginning with a nonzero digit: the test vectors 42, 41.6 and 2.13.5
are accepted, 1. , 1.0 and 1.0.2 are rejected, every component of an
accepted value starts with a digit one to nine, and validity agrees
with the VERSION token rule of the grammar. -/
theorem c10_version_components :
    versionValid "42" = true ∧
    versionValid "41.6" = true ∧
    versionValid "2.13.5" = true ∧
    versionValid "1." = false ∧
    versionValid "1.0" = false ∧
    versionValid "1.0.2" = false ∧
    (∀ s, versionValid s = true → ∀ p ∈ splitDot s.data,
      ∃ c cs, p = c :: cs ∧ isNonzeroDigit c = true) ∧
    (∀ s, versionValid s = matchesVERSION ("v" ++ s)) ∧
    matchesVERSION "v1.0" = false ∧
    matchesVERSION "v2.13.5" = true := by
  refine ⟨by decide, by decide, by decide, by decide, by decide,
    by decide, fun s h p hp => ?_, versionValid_matchesVERSION,
    by decide, by decide⟩
  refine naturalCore_head ?_
  simp only [versionValid, List.all_eq_true] at h
  exact h p hp

/-- C10 witness: the nonzero head property applied to the middle
component of 2.13.5 . -/
theorem c10_version_witness :
    ∃ c cs, ['1', '3'] = c :: cs ∧ isNonzeroDigit c = true :=
  c10_version_components.2.2.2.2.2.2.1 "2.13.5" (by decide) ['1', '3']
    (by decide)

end Bali
